import Mathlib

/-!
# gott: interval lexer, edit protocol, filters

A shallow embedding of `src/main.go` (package `main` of jblawatt/gott) and the properties
of its token lexer, its edit-file parser, the reconcile loop of `editCmd` and the date
filters.

Conventions of the embedding

* A Go `string` is a Lean `String`; every string operation is defined on the underlying
  character list (`String.data`).  All separators, prefixes and character classes the
  program uses are ASCII, so working on characters instead of bytes does not change any
  result the theorems talk about.
* `time.Duration` is an `Int` count of nanoseconds.
* `time.Time` is an `Int` count of nanoseconds since the Go zero time
  `0001-01-01T00:00:00Z`, i.e. the instant.  Where the program reads the clock of a time
  value in the `Location` the value carries, the zone is given next to the instant: the
  `Begin` and `End` of an interval come with their zone offset (`BeginOffset`,
  `EndOffset`; zero for UTC, the location `time.Parse` gives to every value it returns for
  the layouts used here), and `createDateRangeFilter` is given the `Location` of `to`.
-/

namespace Gott

/-! ## Go `strings` helpers -/

/-- Go `strings.HasPrefix`. -/
def HasPrefix (s pre : String) : Bool :=
  pre.data.isPrefixOf s.data

/-- Go `strings.TrimPrefix`: `s` without the leading `pre`, or `s` itself when `s` does not
start with `pre`. -/
def TrimPrefix (s pre : String) : String :=
  if HasPrefix s pre then ⟨s.data.drop pre.data.length⟩ else s

/-- Go `strings.Join`. -/
def Join (elems : List String) (sep : String) : String :=
  ⟨sep.data.intercalate (elems.map String.data)⟩

/-- Go `strings.Trim(s, cutset)`: all leading and trailing characters contained in `cutset`
removed. -/
def Trim (s cutset : String) : String :=
  ⟨((s.data.dropWhile (fun c => cutset.data.contains c)).rdropWhile
      (fun c => cutset.data.contains c))⟩

/-- Go `strings.Split(s, sep)` for a separator of one character (the program only ever
splits on `" "`): the pieces between the separators, `n + 1` of them for `n` separators. -/
def Split (s : String) (sep : Char) : List String :=
  (s.data.splitOn sep).map String.mk

/-! ## Data model -/

/-! Times and durations are plain `Int`s: a `time.Duration` is a number of nanoseconds, a
`time.Time` the number of nanoseconds since `0001-01-01T00:00:00Z`. -/

/-- Modelled from the spec: the `Interval` struct is declared in a file of the repository
that is not part of `src/`; its fields are those listed in the data model of the spec and
used by `main.go` (`ID`, `Begin`, `End`, `Duration`, `Project`, `Tags`, `Ref`, `Annotation`,
`Raw`).  `Begin` and `End` are `time.Time` values: `Begin`, `End` hold the instant, and
`BeginOffset`, `EndOffset` the offset, in seconds east of UTC, that the `Location` of the
value has at that instant (zero for UTC, which is also the location of the zero time). -/
structure Interval where
  ID : String
  Begin : Int
  End : Int
  Duration : Int
  Project : String
  Tags : List String
  Ref : String
  Annotation : String
  Raw : String
  BeginOffset : Int := 0
  EndOffset : Int := 0
  deriving DecidableEq, Repr

/-- The Go zero value of `Interval`. -/
def Interval.zero : Interval :=
  { ID := "", Begin := 0, End := 0, Duration := 0, Project := "", Tags := [],
    Ref := "", Annotation := "", Raw := "" }

/-! ## Lexer (`lexInterval`) -/

def ProjectPrefix : String := "project:"
def ProjectPrefixShort : String := "proj:"
def RefPrefix : String := "ref:"
def TagPrefix : String := "+"

/-- Body of the `for _, part := range args` loop of `lexInterval`: the four prefix tests in
source order, each ending the iteration (`continue`), then the annotation fall-through. -/
def lexIntervalStep (interval : Interval) (part : String) : Interval :=
  let tag := TrimPrefix part TagPrefix
  if tag ≠ part then { interval with Tags := interval.Tags ++ [tag] } else
  let proj := TrimPrefix part ProjectPrefixShort
  if proj ≠ part then { interval with Project := proj } else
  let proj := TrimPrefix part ProjectPrefix
  if proj ≠ part then { interval with Project := proj } else
  let ref := TrimPrefix part RefPrefix
  if ref ≠ part then { interval with Ref := ref } else
  { interval with
      Annotation := Trim (Join [ Interval.Annotation interval, part] " ") " " }

/-- `lexInterval(args, interval)`: sets `Raw`, resets `Annotation`, then runs the loop. -/
def lexInterval (args : List String) (interval : Interval) : Interval :=
  args.foldl lexIntervalStep
    { interval with Raw := Join args " ", Annotation := "" }

/-- Modelled from the spec: `NewInterval` is defined in a file of the repository that is not
part of `src/`.  The spec's `Construct(tokens) -> Interval` builds a fresh interval by
classifying the tokens, which is `lexInterval` run on the zero value. -/
def NewInterval (args : List String) : Interval :=
  lexInterval args Interval.zero

/-! ### What the claim calls the rules, written from its words -/

/-- The tokens that start with `+`, each without its `+`, in input order. -/
def plusTokens (args : List String) : List String :=
  (args.filter (fun p => HasPrefix p "+")).map (fun p => ⟨p.data.drop 1⟩)

/-- The remainder of a token after `proj:` or `project:`, if it starts with one of them. -/
def projectOf (p : String) : Option String :=
  if HasPrefix p "proj:" then some ⟨p.data.drop 5⟩
  else if HasPrefix p "project:" then some ⟨p.data.drop 8⟩
  else none

/-- The remainder of a token after `ref:`, if it starts with it. -/
def refOf (p : String) : Option String :=
  if HasPrefix p "ref:" then some ⟨p.data.drop 4⟩ else none

/-- The value given by the last token of `args` for which `f` is defined, `dflt` if there
is none. -/
def lastOf (f : String → Option String) (args : List String) (dflt : String) : String :=
  ((args.filterMap f).getLast?).getD dflt


/-! ## Go `time` helpers -/

def Nanosecond : Int := 1
def Second : Int := 1000000000
def Minute : Int := 60 * Second
def Hour : Int := 60 * Minute

/-- Go `Time.Truncate(d)`: `t` rounded down to a multiple of `d` since the zero time;
`t` itself when `d ≤ 0`. -/
def Truncate (t : Int) (d : Int) : Int :=
  if d ≤ 0 then t else t - t % d

/-- A zone of a `time.Location` as its `lookup` reports it: the offset in seconds east of
UTC, and the instants `start ≤ s < stop` at which the zone is in use. -/
structure Zone where
  offset : Int
  start : Int
  stop : Int
  deriving DecidableEq, Repr

/-- A Go `*time.Location`, as far as `time.Date` uses it: `lookup`, which gives the zone in
use at an instant.  Instants are counted in seconds since the zero time here (Go counts
them from 1970). -/
structure Location where
  lookup : Int → Zone

/-- Go `time.UTC`: offset zero at all times. -/
def UTC : Location :=
  { lookup := fun _ => { offset := 0, start := -9223372036854775808,
                         stop := 9223372036854775807 } }

/-- The instant at which a clock in UTC shows what a clock `offset` seconds east of UTC
shows at `t`: what `t.Format`, `t.Date()`, `t.Clock()` and `t.ISOWeek()` read for a time
value `t` whose `Location` has this offset at `t`. -/
def wallClock (t offset : Int) : Int := t + offset * Second

/-- Go `t.AddDate(0, 0, days)` for a time value `t` in the location `loc`: date and clock
of `t` are read in `loc`, `days` is added to the day, and `time.Date` turns the result
back into an instant.  `Date` first finds the instant `unix` at which UTC shows this date
and clock, looks up the zone of `loc` at `unix`, and takes its offset off; if the instant
so found lies outside that zone, the offset of the zone at that instant is taken
instead. -/
def AddDays (loc : Location) (t : Int) (days : Int) : Int :=
  let sec := t / Second
  let nsec := t % Second
  let wall := sec + (loc.lookup sec).offset
  let unix := wall + days * 86400
  let zone := loc.lookup unix
  let offset :=
    if zone.offset ≠ 0 then
      let utc := unix - zone.offset
      if utc < zone.start ∨ zone.stop ≤ utc then (loc.lookup utc).offset else zone.offset
    else 0
  (unix - offset) * Second + nsec

/-- Go `t.After(u)`. -/
def After (t u : Int) : Bool := decide (u < t)

/-- Go `t.Before(u)`. -/
def Before (t u : Int) : Bool := decide (t < u)

/-- Go `time.isLeap`. -/
def isLeap (year : Int) : Bool :=
  year % 4 = 0 && (year % 100 ≠ 0 || year % 400 = 0)

/-- Go `time.daysBefore`: `daysBefore[m]` is the number of days of a non-leap year before
month `m + 1`. -/
def daysBefore : List Nat :=
  [0, 31, 59, 90, 120, 151, 181, 212, 243, 273, 304, 334, 365]

/-- Go `time.daysIn(m, year)`, for `1 ≤ m ≤ 12`. -/
def daysIn (m : Nat) (year : Int) : Nat :=
  if m = 2 ∧ isLeap year then 29 else daysBefore.getD m 0 - daysBefore.getD (m - 1) 0

/-- Days from `0001-01-01` to January 1st of `year` (what Go's `daysSinceEpoch` counts,
moved to the zero time): 365 per year plus one per leap year before `year`. -/
def daysBeforeYear (year : Int) : Int :=
  365 * (year - 1) + (year - 1) / 4 - (year - 1) / 100 + (year - 1) / 400

/-- Go `time.Date(year, month, day, hour, min, sec, 0, time.UTC)` for fields that are in
range (`1 ≤ month ≤ 12`; the parsers below pass nothing else), where Go's normalisation
of overflowing fields does nothing. -/
def Date (year : Int) (month day hour min sec : Nat) : Int :=
  let d : Int := daysBeforeYear year + daysBefore.getD (month - 1) 0
    + (if isLeap year ∧ 3 ≤ month then 1 else 0) + (day - 1 : Nat)
  (d * 86400 + (hour * 3600 + min * 60 + sec : Nat)) * Second

/-- Go `time.isDigit` on the first character. -/
def isDigit (c : Char) : Bool := decide ('0' ≤ c) && decide (c ≤ '9')

def digitVal (c : Char) : Nat := c.toNat - '0'.toNat

/-- Go `time.getnum(s, fixed)`: a one- or two-digit number at the start of `s` (two digits
required when `fixed`), and the rest of `s`. -/
def getnum (s : List Char) (fixed : Bool) : Option (Nat × List Char) :=
  match s with
  | [] => none
  | c0 :: rest0 =>
    if !isDigit c0 then none else
    match rest0 with
    | [] => if fixed then none else some (digitVal c0, rest0)
    | c1 :: rest1 =>
      if isDigit c1 then some (digitVal c0 * 10 + digitVal c1, rest1)
      else if fixed then none else some (digitVal c0, rest0)

/-- Go `time.Parse(dateFormat, value)` with `dateFormat = "2006-01-02"`; `none` stands for
a returned error.  The layout asks for a four-digit year, `-`, a two-digit month in
`1..12`, `-`, a two-digit day, and nothing after it; the day is then checked against the
length of the month. -/
def parseDateFormat (value : String) : Option Int :=
  match value.data with
  | y0 :: y1 :: y2 :: y3 :: rest =>
    if !(isDigit y0 && isDigit y1 && isDigit y2 && isDigit y3) then none else
    let year : Nat := ((digitVal y0 * 10 + digitVal y1) * 10 + digitVal y2) * 10 + digitVal y3
    match rest with
    | [] => none
    | sep1 :: rest =>
      if sep1 ≠ '-' then none else
      match getnum rest true with
      | none => none
      | some (month, rest) =>
        if month = 0 ∨ 12 < month then none else
        match rest with
        | [] => none
        | sep2 :: rest =>
          if sep2 ≠ '-' then none else
          match getnum rest true with
          | none => none
          | some (day, rest) =>
            if rest ≠ [] then none
            else if day < 1 ∨ daysIn month year < day then none
            else some (Date year month day 0 0 0)
  | _ => none

/-- Go `time.Parse(timeFormat, value)` with `timeFormat = "15:04"`; `none` stands for a
returned error.  The layout asks for a one- or two-digit hour below 24, `:`, a two-digit
minute below 60, and nothing after it; the result is that time of day on January 1st of
year 0. -/
def parseTimeFormat (value : String) : Option Int :=
  match getnum value.data false with
  | none => none
  | some (hour, rest) =>
    if 24 ≤ hour then none else
    match rest with
    | [] => none
    | sep :: rest =>
      if sep ≠ ':' then none else
      match getnum rest true with
      | none => none
      | some (min, rest) =>
        if 60 ≤ min then none
        else if rest ≠ [] then none
        else some (Date 0 1 1 hour min 0)

/-- Go `t.Hour()`. -/
def hourOf (t : Int) : Int := (t / Second) % 86400 / 3600

/-- Go `t.Minute()`. -/
def minuteOf (t : Int) : Int := (t / Second) % 3600 / 60

/-! ## Filters -/

/-- `containsString(s, str)`. -/
def containsString : List String → String → Bool
  | [], _ => false
  | v :: s, str => if v = str then true else containsString s str

/-- `createDateRangeFilter(from, to)` applied to an interval: both bounds are computed
first (`from` truncated to the day, `to` truncated to the day plus one day), then `Begin`
is compared with them.  `Truncate`, `After` and `Before` work on the instants; `AddDate`
adds a day of the calendar in the location `toLoc` that `to` carries. -/
def createDateRangeFilter (fromT toT : Int) (toLoc : Location) (i : Interval) : Bool :=
  let fromT := Truncate fromT (24 * Hour)
  let toT := AddDays toLoc (Truncate toT (24 * Hour)) 1
  After i.Begin fromT && Before i.Begin toT

def KeyToday : String := ":today"
def KeyYesterday : String := ":yesterday"
def KeyWeek : String := ":week"
def KeyMonth : String := ":month"
def KeyAll : String := ":all"

def Keys : List String := [KeyToday, KeyYesterday, KeyWeek, KeyMonth, KeyAll]

/-- The two errors `summaryCmd.Args` can return. -/
inductive ArgsError where
  | onlyOne
  | invalidDate
  deriving DecidableEq, Repr

/-- The `Args` validator of `summaryCmd`; `none` is Go's `nil` error.  `args[0]` is read
only after the two length tests, where it exists. -/
def summaryCmdArgs (args : List String) : Option ArgsError :=
  if args.length = 0 then none
  else if args.length > 1 then some ArgsError.onlyOne
  else if Keys.any (fun key => containsString args key) then none
  else if (parseDateFormat (args.headD "")).isNone then some ArgsError.invalidDate
  else none

/-! ## Reconcile (`editCmd`) -/

/-- A call the reconcile step of `editCmd` makes on the database. -/
inductive StoreCall where
  | Append (i : Interval)
  | Apply (i : Interval)
  | RemoveById (id : String)
  deriving DecidableEq, Repr

/-- What the reconcile step has done so far: the database calls, oldest first, and the
local `afterIDs`. -/
structure ReconcileState where
  calls : List StoreCall
  afterIDs : List String
  deriving DecidableEq, Repr

/-- Body of `for _, intv := range editIntervals`. -/
def dispatchStep (st : ReconcileState) (intv : Interval) : ReconcileState :=
  if intv.ID = "" then
    { st with calls := st.calls ++ [StoreCall.Append intv] }
  else
    { calls := st.calls ++ [StoreCall.Apply intv], afterIDs := st.afterIDs ++ [intv.ID] }

/-- Body of `for _, beforeID := range beforeIDs`. -/
def removeStep (afterIDs : List String) (st : ReconcileState) (beforeID : String) :
    ReconcileState :=
  if !containsString afterIDs beforeID then
    { st with calls := st.calls ++ [StoreCall.RemoveById beforeID] }
  else st

/-- The end of `editCmd.Run` (from `var afterIDs []string` on): the dispatch loop over the
parsed intervals, then, when the two ID lists differ in length, the removal loop. -/
def reconcile (beforeIDs : List String) (editIntervals : List Interval) : ReconcileState :=
  let st := editIntervals.foldl dispatchStep { calls := [], afterIDs := [] }
  if beforeIDs.length ≠ st.afterIDs.length then
    beforeIDs.foldl (removeStep st.afterIDs) st
  else st

/-- The IDs `RemoveById` was called with, in call order. -/
def removedIDs (calls : List StoreCall) : List String :=
  calls.filterMap (fun c => match c with
    | StoreCall.RemoveById id => some id
    | _ => none)

/-- The `Append` and `Apply` calls, in call order. -/
def writeCalls (calls : List StoreCall) : List StoreCall :=
  calls.filter (fun c => match c with
    | StoreCall.RemoveById _ => false
    | _ => true)

/-- The non-empty IDs of the parsed intervals, in document order. -/
def nonEmptyIDs (editIntervals : List Interval) : List String :=
  (editIntervals.map (fun i => i.ID)).filter (fun id => id ≠ "")

/-- An interval that carries only an ID. -/
def withID (id : String) : Interval := { Interval.zero with ID := id }

/-! ## Go number formatting and `time` formatting -/

/-- The character of a decimal digit `n < 10`. -/
def digitChar (n : Nat) : Char := Char.ofNat ('0'.toNat + n)

/-- Loop of Go `time.fmtInt`: the decimal digits of `v` are put in front of `acc`, least
significant first; at most `fuel` digits (`fmtInt` gives enough). -/
def fmtIntAux : Nat → Nat → List Char → List Char
  | 0, _, acc => acc
  | fuel + 1, v, acc =>
    if v / 10 = 0 then digitChar (v % 10) :: acc
    else fmtIntAux fuel (v / 10) (digitChar (v % 10) :: acc)

/-- Go `time.fmtInt(v)`: the decimal form of `v`, `"0"` for zero. -/
def fmtInt (v : Nat) : List Char := fmtIntAux (v + 1) v []

/-- Go `time.appendInt(b, x, width)`: a `-` when `x` is negative, then the decimal form of
`|x|` padded with zeros on the left to at least `width` digits. -/
def appendInt (x : Int) (width : Nat) : List Char :=
  let digits := fmtInt x.natAbs
  (if x < 0 then ['-'] else []) ++ List.replicate (width - digits.length) '0' ++ digits

/-- Go `t.Format(timeFormat)` with `timeFormat = "15:04"`. -/
def formatTimeFormat (t : Int) : String :=
  ⟨appendInt (hourOf t) 2 ++ [':'] ++ appendInt (minuteOf t) 2⟩

/-- Month and day of the month for the day `yday` of a year (counted from 0), the second
half of Go `absDate`: in a leap year the leap day is answered at once and the days behind
it move down by one; the month is then found from the `daysBefore` table, starting at
the estimate `day / 31`. -/
def monthDayOfYday (leap : Bool) (yday : Nat) : Nat × Nat :=
  if leap = true ∧ yday = 31 + 29 - 1 then (2, 29)
  else
    let day := if leap = true ∧ 31 + 29 - 1 < yday then yday - 1 else yday
    let month := day / 31
    let ends := daysBefore.getD (month + 1) 0
    if ends ≤ day then (month + 2, day - ends + 1)
    else (month + 1, day - daysBefore.getD month 0 + 1)

/-- Year, month and day of the day that lies `d` days after `0001-01-01` (Go `absDate`,
with its day count moved to the zero time): 400-, 100-, 4- and 1-year cycles are cut off
in turn, which leaves the year and the day of the year. -/
def civilOfDays (d : Int) : Int × Nat × Nat :=
  let n400 := d / 146097
  let d := d - 146097 * n400
  let n100 := d / 36524
  let n100 := n100 - n100 / 4
  let d := d - 36524 * n100
  let n4 := d / 1461
  let d := d - 1461 * n4
  let n1 := d / 365
  let n1 := n1 - n1 / 4
  let d := d - 365 * n1
  let year := 400 * n400 + 100 * n100 + 4 * n4 + n1 + 1
  (year, monthDayOfYday (isLeap year) d.toNat)

/-- Go `t.Format(dateFormat)` with `dateFormat = "2006-01-02"`. -/
def formatDateFormat (t : Int) : String :=
  let ymd := civilOfDays (t / (24 * Hour))
  ⟨appendInt ymd.1 4 ++ ['-'] ++ appendInt ymd.2.1 2 ++ ['-'] ++ appendInt ymd.2.2 2⟩

/-- Loop of Go `time.fmtFrac`: the `prec` lowest decimal digits of `v` are taken off, and
put in front of `acc` from the first non-zero one on (`pr` says whether one was seen). -/
def fmtFracAux : Nat → Nat → Bool → List Char → List Char × Nat × Bool
  | 0, v, pr, acc => (acc, v, pr)
  | prec + 1, v, pr, acc =>
    let digit := v % 10
    let pr := pr || decide (digit ≠ 0)
    fmtFracAux prec (v / 10) pr (if pr then digitChar digit :: acc else acc)

/-- Go `time.fmtFrac(buf, v, prec)`: the fraction `.ddd` formed by the `prec` lowest digits
of `v` without trailing zeros (nothing when they are all zero), and `v / 10^prec`. -/
def fmtFrac (v prec : Nat) : List Char × Nat :=
  let r := fmtFracAux prec v false []
  (if r.2.2 then '.' :: r.1 else r.1, r.2.1)

/-- Go `Duration.String()` (what `%s` prints for `i.Duration`): `0s`; below one second a
number with unit `ns`, `µs` or `ms`; from one second on hours, minutes and seconds as in
`1h2m3.5s`, leading zero units left out; a `-` in front of a negative duration. -/
def durationString (d : Int) : String :=
  let u := d.natAbs
  if u = 0 then "0s" else
  let body : List Char :=
    if u < 1000000000 then
      if u < 1000 then fmtInt u ++ ['n', 's']
      else if u < 1000000 then
        let r := fmtFrac u 3
        fmtInt r.2 ++ r.1 ++ ['µ', 's']
      else
        let r := fmtFrac u 6
        fmtInt r.2 ++ r.1 ++ ['m', 's']
    else
      let r := fmtFrac u 9
      let secs := fmtInt (r.2 % 60) ++ r.1 ++ ['s']
      let u := r.2 / 60
      if 0 < u then
        let mins := fmtInt (u % 60) ++ ['m']
        let u := u / 60
        if 0 < u then fmtInt u ++ ['h'] ++ mins ++ secs else mins ++ secs
      else secs
  ⟨(if d < 0 then ['-'] else []) ++ body⟩

/-- Go `time.leadingInt(s)`, with the value read so far in `x`: the leading digits of `s`
as a number and the rest of `s`; `none` when the number passes `1 << 63`. -/
def leadingInt : List Char → Nat → Option (Nat × List Char)
  | [], x => some (x, [])
  | c :: s, x =>
    if isDigit c then
      if 2 ^ 63 / 10 < x then none
      else if 2 ^ 63 < x * 10 + digitVal c then none
      else leadingInt s (x * 10 + digitVal c)
    else some (x, c :: s)

/-- Go `time.unitMap`: nanoseconds per unit. -/
def unitMap (u : List Char) : Option Nat :=
  if u = ['n', 's'] then some 1
  else if u = ['u', 's'] then some 1000
  else if u = ['µ', 's'] then some 1000
  else if u = ['μ', 's'] then some 1000
  else if u = ['m', 's'] then some 1000000
  else if u = ['s'] then some 1000000000
  else if u = ['m'] then some 60000000000
  else if u = ['h'] then some 3600000000000
  else none

/-- The `for s != ""` loop of Go `time.ParseDuration`, with the sum so far in `d`: each
round reads a number and a unit (the characters up to the next digit or `.`) and adds their
product.  Every round that does not fail consumes at least one character, so `fuel`
rounds, with `fuel` the length of the string, are enough.  A `.` ends the parse with
`none`: Go evaluates a fraction in `float64`, which this model leaves out; no field of an
edit line contains a `.` (see `FindAllString`). -/
def parseDurationLoop : Nat → List Char → Nat → Option Nat
  | _, [], d => some d
  | 0, _ :: _, _ => none
  | fuel + 1, c :: s, d =>
    if !isDigit c then none else
    match leadingInt (c :: s) 0 with
    | none => none
    | some (v, rest) =>
      let u := rest.takeWhile (fun c => !(c = '.' || isDigit c))
      let rest := rest.dropWhile (fun c => !(c = '.' || isDigit c))
      if u = [] then none else
      match unitMap u with
      | none => none
      | some unit =>
        if 2 ^ 63 / unit < v then none
        else if 2 ^ 63 < d + v * unit then none
        else parseDurationLoop fuel rest (d + v * unit)

/-- Go `time.ParseDuration(s)` for strings without a decimal point; `none` stands for a
returned error. -/
def ParseDuration (s : String) : Option Int :=
  let neg := s.data.head? = some '-'
  let body := match s.data with
    | c :: rest => if c = '-' ∨ c = '+' then rest else c :: rest
    | [] => []
  if body = ['0'] then some 0
  else if body = [] then none
  else match parseDurationLoop body.length body 0 with
    | none => none
    | some d =>
      if neg then some (-(d : Int))
      else if 2 ^ 63 - 1 < d then none
      else some (d : Int)

/-! ## Edit protocol -/

/-- The character class `[\w\w\-\_0-9 :]` of the pattern in `parseEditLine`: `\w` is
`[0-9A-Za-z_]` in Go's `regexp`. -/
def inFieldClass (c : Char) : Bool :=
  (decide ('a' ≤ c) && decide (c ≤ 'z')) || (decide ('A' ≤ c) && decide (c ≤ 'Z'))
    || isDigit c || c = '_' || c = '-' || c = ' ' || c = ':'

/-- The rest of a match of the pattern behind its `[`: the class characters up to the
first `]`, if only class characters stand before it. -/
def matchBody : List Char → Option (List Char)
  | [] => none
  | c :: cs =>
    if c = ']' then some []
    else if inFieldClass c then (matchBody cs).map (fun b => c :: b)
    else none

/-- Go `pattern.FindAllString(t, -1)` for the pattern `\[[\w\w\-\_0-9 :]*\]`: the
successive non-overlapping matches, leftmost first.  A match can only start at a `[`, and
from there the pattern matches in one way or not at all.  After a match the search goes
on behind it; as neither the class characters nor the `]` of the match is a `[`, going on
right behind the opening `[` finds the same further matches. -/
def FindAllString : List Char → List String
  | [] => []
  | c :: cs =>
    if c = '[' then
      match matchBody cs with
      | some b => String.mk ('[' :: b ++ [']']) :: FindAllString cs
      | none => FindAllString cs
    else FindAllString cs

/-- `stripBraces(s)`: `s[1 : len(s)-1]`, used on matches of the pattern, which have at
least the two brackets. -/
def stripBraces (s : String) : String :=
  ⟨(s.data.drop 1).take (s.data.length - 2)⟩

/-- What `parseEditLine` can end with other than an interval: its five returned errors, and
the run-time panic of `unpackSlice` when there are more strings than variables. -/
inductive EditError where
  | dateEmpty
  | dateParse
  | beginParse
  | endParse
  | durationParse
  | indexOutOfRange
  deriving DecidableEq, Repr

deriving instance DecidableEq for Except

/-- `unpackSlice(s, &id, &date, &begin, &end, &duration, &annotation)`: the strings of `s`
are stored in the six variables in order, which all start empty; a seventh string makes
the index into `vars` go out of range. -/
def unpackSlice (s : List String) : Option (List String) :=
  if 6 < s.length then none
  else some (s ++ List.replicate (6 - s.length) "")

/-- The bracket fields of a line as `parseEditLine` sees them: the matches of the pattern,
each without its brackets and without spaces around it. -/
def editFields (t : String) : List String :=
  (FindAllString t.data).map (fun col => Trim (stripBraces col) " ")

/-- `parseEditLine(t)`.  On an error Go also returns the interval built so far, which the
only caller drops; here an error carries no interval.  `time.Parse` gives its values the
location UTC, and so have the `Begin` and `End` made from them. -/
def parseEditLine (t : String) : Except EditError Interval :=
  match unpackSlice (editFields t) with
  | none => .error .indexOutOfRange
  | some vars =>
    let id := vars.getD 0 ""
    let date := vars.getD 1 ""
    let begin := vars.getD 2 ""
    let endS := vars.getD 3 ""
    let duration := vars.getD 4 ""
    let annotationSlice := Split (vars.getD 5 "") ' '
    let interval := NewInterval annotationSlice
    if date = "" then .error .dateEmpty else
    match parseDateFormat date with
    | none => .error .dateParse
    | some tdate =>
      let tbegin := parseTimeFormat begin
      if begin ≠ "" ∧ tbegin.isNone then .error .beginParse else
      let tend := parseTimeFormat endS
      if begin ≠ "" ∧ tend.isNone then .error .endParse else
      -- a failed `time.Parse` leaves the zero time in `tbegin`, `tend`
      let tbegin := tbegin.getD 0
      let tend := tend.getD 0
      if formatTimeFormat tbegin ≠ "00:00" ∧ formatTimeFormat tend ≠ "00:00" then
        .ok { interval with
                Begin := tdate + (hourOf tbegin * Hour + minuteOf tbegin * Minute)
                End := tdate + (hourOf tend * Hour + minuteOf tend * Minute)
                ID := id, BeginOffset := 0, EndOffset := 0 }
      else
        match ParseDuration duration with
        | none => .error .durationParse
        | some tdur =>
          .ok { interval with
                  Begin := tdate, End := tdate, Duration := tdur, ID := id,
                  BeginOffset := 0, EndOffset := 0 }

/-- The lines of a text: the pieces between its line feeds, without the empty piece behind
a final line feed. -/
def textLines (text : String) : List (List Char) :=
  let pieces := text.data.splitOn '\n'
  if pieces.getLast? = some [] then pieces.dropLast else pieces

/-- The number of bytes of a text in UTF-8, the form of a Go string. -/
def byteLength (l : List Char) : Nat := (l.map Char.utf8Size).sum

/-- Go `bufio.MaxScanTokenSize`, the size to which the buffer of a `bufio.Scanner`
grows. -/
def MaxScanTokenSize : Nat := 64 * 1024

/-- The lines `bufio.Scanner` with `bufio.ScanLines` yields for a text: its lines, each
without one trailing carriage return, up to the first line that does not fit into the
buffer of the scanner together with the line feed behind it, or alone when it is the last
line and has no line feed.  At such a line `Scan` returns false with the error
`ErrTooLong`, which `parseEditFile` does not look at. -/
def scanLines (text : String) : List String :=
  let pieces := (textLines text).takeWhile (fun l => decide (byteLength l < MaxScanTokenSize))
  pieces.map (fun l => String.mk (if l.getLast? = some '\r' then l.dropLast else l))

/-- The loop of `parseEditFile` over the scanned lines, with the intervals parsed so far in
`result`. -/
def parseEditLines : List String → List Interval → Except EditError (List Interval)
  | [], result => .ok result
  | t :: rest, result =>
    if HasPrefix t "#" then parseEditLines rest result
    else if (Trim t " ").data.length = 0 then parseEditLines rest result
    else match parseEditLine t with
      | .error e => .error e
      | .ok i => parseEditLines rest (result ++ [i])

/-- `parseEditFile(f)` on the text of the file: the loop over the lines the scanner
yields; when the scanner stops, the intervals parsed so far are returned without an
error. -/
def parseEditFile (text : String) : Except EditError (List Interval) :=
  parseEditLines (scanLines text) []

/-- A row of the table of `writeEditFile`: the texts of the five cells that end in a tab,
and the text behind the last tab. -/
structure EditRow where
  cells : List String
  last : String
  deriving DecidableEq, Repr

/-- The `fmt.Sprintf("[%s]\t[%s]\t[%s]\t[%s]\t[%s]\t[%s]\n", ...)` of `writeEditFile`,
cell by cell.  `Format` shows date and clock of `Begin` and `End` in the location of the
value. -/
def editRow (i : Interval) : EditRow :=
  { cells := [ "[" ++ i.ID ++ "]",
               "[" ++ formatDateFormat (wallClock i.Begin i.BeginOffset) ++ "]",
               "[" ++ formatTimeFormat (wallClock i.Begin i.BeginOffset) ++ "]",
               "[" ++ formatTimeFormat (wallClock i.End i.EndOffset) ++ "]",
               "[" ++ durationString i.Duration ++ "]" ],
    last := "[" ++ i.Raw ++ "]" }

/-- Width of column `j` in `text/tabwriter` with `minwidth = 0` and `padding = 2`: the
longest cell of the column plus the padding. -/
def columnWidth (rows : List EditRow) (j : Nat) : Nat :=
  (rows.map (fun r => (r.cells.getD j "").data.length)).foldl max 0 + 2

/-- The cells of a row, each filled up with the pad character `' '` to the width of its
column, column `j` first. -/
def padCells (rows : List EditRow) : Nat → List String → List Char
  | _, [] => []
  | j, c :: cs =>
    c.data ++ List.replicate (columnWidth rows j - c.data.length) ' ' ++ padCells rows (j + 1) cs

/-- What `tabwriter.NewWriter(f, 0, 0, 2, ' ', 0)` writes at `Flush` for the rows given to
it, when no cell text contains a tab, a vertical tab, a line feed, a form feed or the
escape character `0xff` (any of which would change the cell structure): all rows form one
block of five columns; every cell that ends in a tab is written left-aligned and padded to
the width of its column, the text behind the last tab and the line feed follow. -/
def tabwriterFlush (rows : List EditRow) : List Char :=
  (rows.map (fun r => padCells rows 0 r.cells ++ r.last.data ++ ['\n'])).flatten

/-- `writeEditFile(f, intervals, filterArgs)`: the text written to `f`; `now` stands for
what the clock of `time.Now()` shows in its location (`wallClock` of the instant). -/
def writeEditFile (intervals : List Interval) (filterArgs : List String) (now : Int) :
    String :=
  "# Edit below values to change tracking data\n"
  ++ "# - delete rows to delete \n"
  ++ "# - set time values 00:00 or leave empty to just set duration \n"
  ++ "# - leave duration empty or 0s if you set date \n"
  ++ "\n"
  ++ String.mk (tabwriterFlush (intervals.map editRow))
  ++ "\n\n# NEW ENTRIES HERE #############################################\n"
  ++ "# [ID (empty)] [DATE] [BEGIN] [END] [DURATION] [ANNOTATION]\n"
  ++ ("\n# [] [" ++ formatDateFormat now ++ "] [] [] [] []\n")
  ++ "\n\n\n\n# meta #########################################################\n"
  ++ ("# ;; filter == " ++ Join filterArgs " " ++ "\n")

/-- The time of day of `t`, in nanoseconds since 00:00. -/
def timeOfDay (t : Int) : Int := t % (24 * Hour)

/-- A string that is a bracket group of class characters. -/
def IsField (s : String) : Prop :=
  ∃ b : List Char, s.data = '[' :: b ++ [']'] ∧ ∀ c ∈ b, inFieldClass c = true

/-- The fields of an interval the lexer fills, other than `Raw`. -/
def lexFields (i : Interval) : String × List String × String × String :=
  (i.Project, i.Tags, i.Ref, Interval.Annotation i)

/-- The non-empty pieces of a character list between its spaces. -/
def spaceWords (l : List Char) : List (List Char) :=
  (l.splitOn ' ').filter (fun w => w ≠ [])

/-- What the round trip through the edit file compares: every field but `Raw`. -/
def content (i : Interval) : String × Int × Int × Int × String × List String × String × String :=
  (i.ID, i.Begin, i.End, i.Duration, lexFields i)

/-- The intervals the edit file can carry as they are: `Begin` and `End` are UTC times
(zone offset zero), the ID and the tokens consist of field characters (the tokens without
spaces, the ID without spaces around it; as `+` is no field character, no token is a tag),
`Raw` is the space-joined token list the interval was constructed from, the year of
`Begin` has four digits, and the interval is either given by two times of day other than
00:00, on the same day and at whole minutes, with no duration, or by its day
(`Begin = End` at 00:00) and a duration of whole seconds. -/
structure EditStable (i : Interval) : Prop where
  beginUTC : i.BeginOffset = 0
  endUTC : i.EndOffset = 0
  idClass : ∀ c ∈ i.ID.data, inFieldClass c = true
  idTrim : Trim i.ID " " = i.ID
  tokens : ∃ ts : List String,
    (∀ t ∈ ts, ∀ c ∈ t.data, inFieldClass c = true ∧ c ≠ ' ')
      ∧ i.Raw = Join ts " " ∧ lexFields i = lexFields (NewInterval ts)
  yearLo : 0 ≤ (civilOfDays (i.Begin / (24 * Hour))).1
  yearHi : (civilOfDays (i.Begin / (24 * Hour))).1 ≤ 9999
  times :
    (i.Begin % Minute = 0 ∧ i.End % Minute = 0 ∧ timeOfDay i.Begin ≠ 0 ∧ timeOfDay i.End ≠ 0
        ∧ Truncate i.Begin (24 * Hour) = Truncate i.End (24 * Hour) ∧ i.Duration = 0)
    ∨ (timeOfDay i.Begin = 0 ∧ i.End = i.Begin ∧ i.Duration % Second = 0
        ∧ -9223372036854775808 ≤ i.Duration ∧ i.Duration ≤ 9223372036854775807)

/-- The line of the edit file for a row: its padded cells and the last cell. -/
def rowLine (rows : List EditRow) (r : EditRow) : String :=
  ⟨padCells rows 0 r.cells ++ r.last.data⟩

/-- The text made of the given lines, each followed by a line feed. -/
def unlines (ls : List (List Char)) : List Char :=
  (ls.map (fun l => l ++ ['\n'])).flatten

/-- A scanned line without its trailing carriage return, as in `scanLines`. -/
def dropCR (l : List Char) : String :=
  String.mk (if l.getLast? = some '\r' then l.dropLast else l)

/-- The lines `parseEditFile` passes over: comments and blank lines. -/
def Skipped (t : String) : Prop :=
  HasPrefix t "#" = true ∨ (Trim t " ").data.length = 0

/-- The lines `writeEditFile` writes before the table. -/
def headerLines : List (List Char) :=
  [ "# Edit below values to change tracking data".data,
    "# - delete rows to delete ".data,
    "# - set time values 00:00 or leave empty to just set duration ".data,
    "# - leave duration empty or 0s if you set date ".data,
    [] ]

/-- The lines `writeEditFile` writes behind the table. -/
def trailerLines (filterArgs : List String) (now : Int) : List (List Char) :=
  [ [], [],
    "# NEW ENTRIES HERE #############################################".data,
    "# [ID (empty)] [DATE] [BEGIN] [END] [DURATION] [ANNOTATION]".data,
    [],
    ("# [] [" ++ formatDateFormat now ++ "] [] [] [] []").data,
    [], [], [], [],
    "# meta #########################################################".data,
    ("# ;; filter == " ++ Join filterArgs " ").data ]

/-- A sample interval given by two times: 2024-01-02 from 09:00 to 10:30. -/
def sampleTimed : Interval :=
  { NewInterval ["meeting", "proj:gott"] with
      ID := "a1", Begin := Date 2024 1 2 9 0 0, End := Date 2024 1 2 10 30 0 }

/-- A sample interval given by its day and a duration: 90 minutes on 2024-01-02. -/
def sampleDay : Interval :=
  { NewInterval ["review", "ref:r-7"] with
      ID := "b22", Begin := Date 2024 1 2 0 0 0, End := Date 2024 1 2 0 0 0,
      Duration := 90 * Minute }

/-- A sample interval that begins 30 seconds past a whole minute. -/
def sampleSeconds : Interval :=
  { NewInterval ["meeting"] with
      ID := "a1", Begin := Date 2024 1 2 9 0 30, End := Date 2024 1 2 10 30 0 }

/-! ## Lines of an edit document, in the words of the spec -/

/-- A line whose first character is `#`. -/
def startsWithHash (t : String) : Bool := t.data.head? = some '#'

/-- A line that is empty or made of spaces only. -/
def onlySpaces (t : String) : Bool := t.data.all (fun c => decide (c = ' '))

/-- A line whose first character other than a space is `#`. -/
def firstNonSpaceIsHash (t : String) : Bool :=
  (t.data.dropWhile (fun c => decide (c = ' '))).head? = some '#'

/-- A line `parseEditFile` hands to `parseEditLine`. -/
def isDataLine (t : String) : Bool := !(startsWithHash t || onlySpaces t)

/-- The data lines parsed in order, up to the first one `parseEditLine` does not turn into
an interval. -/
def parseDataLines : List String → Except EditError (List Interval)
  | [] => .ok []
  | t :: rest =>
    match parseEditLine t with
    | .error e => .error e
    | .ok i =>
      match parseDataLines rest with
      | .error e => .error e
      | .ok is => .ok (i :: is)

/-- A text of the form `YYYY-MM-DD`: four digits, `-`, two digits that are a month in
`1..12`, `-`, two digits that are a day of that month. -/
def isDateText (value : String) : Bool :=
  match value.data with
  | [y0, y1, y2, y3, s1, m0, m1, s2, d0, d1] =>
    let year : Nat := ((digitVal y0 * 10 + digitVal y1) * 10 + digitVal y2) * 10 + digitVal y3
    let month := digitVal m0 * 10 + digitVal m1
    let day := digitVal d0 * 10 + digitVal d1
    isDigit y0 && isDigit y1 && isDigit y2 && isDigit y3 && s1 = '-'
      && isDigit m0 && isDigit m1 && s2 = '-' && isDigit d0 && isDigit d1
      && decide (1 ≤ month) && decide (month ≤ 12)
      && decide (1 ≤ day) && decide (day ≤ daysIn month year)
  | _ => false

/-- The location `America/New_York` around the year 2024: Eastern Standard Time (five
hours west of UTC) until 2024-03-10 07:00 UTC, Eastern Daylight Time (four hours west)
until 2024-11-03 06:00 UTC, Standard Time again until 2025-03-09 07:00 UTC. -/
def newYork : Location :=
  { lookup := fun s =>
      if s < Date 2024 3 10 7 0 0 / Second then
        { offset := -18000, start := Date 2023 11 5 6 0 0 / Second,
          stop := Date 2024 3 10 7 0 0 / Second }
      else if s < Date 2024 11 3 6 0 0 / Second then
        { offset := -14400, start := Date 2024 3 10 7 0 0 / Second,
          stop := Date 2024 11 3 6 0 0 / Second }
      else
        { offset := -18000, start := Date 2024 11 3 6 0 0 / Second,
          stop := Date 2025 3 9 7 0 0 / Second } }

/-- A document with three data lines: the first is well formed, the second has seven
bracket groups, the third has an empty DATE. -/
def sevenGroupDocument : String :=
  "[a][2024-01-02][09:00][10:00][][x]\n[b][2024-01-02][09:00][10:00][][x][y]\n[c][][][][][]\n"

/-! ## The annotation of a token list, in the words of the spec -/

/-- A token that starts with none of `+`, `proj:`, `project:`, `ref:`. -/
def isAnnotationToken (p : String) : Bool :=
  !(HasPrefix p "+") && !(HasPrefix p "proj:") && !(HasPrefix p "project:")
    && !(HasPrefix p "ref:")

/-- The tokens that start with none of the prefixes, in input order. -/
def annotationTokens (args : List String) : List String :=
  args.filter isAnnotationToken

/-- The text the loop of `lexInterval` builds from the annotation `a` it starts with and
the annotation tokens: each token is joined on with a space and the result trimmed. -/
def joinTrimmed (a : String) (toks : List String) : String :=
  toks.foldl (fun a p => Trim (Join [a, p] " ") " ") a

/-! ## Durations as text (`fmtDuration`) -/

/-- Conversion of an integer to `int64`: the value wrapped into `-2^63 .. 2^63 - 1`, as
Go's arithmetic on `time.Duration` does. -/
def wrap64 (x : Int) : Int :=
  (x + 9223372036854775808) % 18446744073709551616 - 9223372036854775808

/-- Go `time.maxDuration`, `1<<63 - 1`. -/
def maxDuration : Int := 9223372036854775807

/-- Go `time.minDuration`, `-1 << 63`. -/
def minDuration : Int := -9223372036854775808

/-- Go `time.lessThanHalf(x, y)`: `uint64(x)+uint64(x) < uint64(y)`. -/
def lessThanHalf (x y : Int) : Bool :=
  decide ((x % 18446744073709551616 + x % 18446744073709551616) % 18446744073709551616
    < y % 18446744073709551616)

/-- Go `d.Round(m)` on `time.Duration`: `d` rounded to the nearest multiple of `m`, halves
away from zero; `/` and `%` of Go truncate toward zero. -/
def Round (d m : Int) : Int :=
  if m ≤ 0 then d else
  let r := Int.tmod d m
  if d < 0 then
    let r := wrap64 (-r)
    if lessThanHalf r m then wrap64 (d + r)
    else
      let d1 := wrap64 (wrap64 (d - m) + r)
      if d1 < d then d1 else minDuration
  else
    if lessThanHalf r m then wrap64 (d - r)
    else
      let d1 := wrap64 (wrap64 (d + m) - r)
      if d < d1 then d1 else maxDuration

/-- Digits filled up with zeros on the left to at least `width` characters. -/
def zeroPad (width : Nat) (digits : List Char) : List Char :=
  List.replicate (width - digits.length) '0' ++ digits

/-- Go `fmt.Sprintf("%02d", x)` for an integer: the decimal form filled up with zeros to
width 2, where the sign of a negative number takes one of the two places. -/
def sprintf02d (x : Int) : List Char :=
  if x < 0 then '-' :: zeroPad 1 (fmtInt x.natAbs) else zeroPad 2 (fmtInt x.natAbs)

/-- `fmtDuration(d)` of `src/main.go`. -/
def fmtDuration (d : Int) : String :=
  let d := Round d Minute
  let h := Int.tdiv d Hour
  let d := wrap64 (d - wrap64 (h * Hour))
  let m := Int.tdiv d Minute
  ⟨sprintf02d h ++ [':'] ++ sprintf02d m⟩

/-- `fmtDuration(d)` of `src/gott/output.go` (package `gott`). -/
def gott.fmtDuration (d : Int) : String :=
  let d := Round d Minute
  let h := Int.tdiv d Hour
  let d := wrap64 (d - wrap64 (h * Hour))
  let m := Int.tdiv d Minute
  ⟨sprintf02d h ++ [':'] ++ sprintf02d m⟩

/-- The whole minutes nearest to `d`, a half counted up. -/
def roundedMinutes (d : Int) : Int := (d + 30 * Second) / Minute

/-! ## The summary table -/

/-- `t.AddLine(args...)` of the table library `tabby`: one more row with the given
columns. -/
def AddLine (t : List (List String)) (args : List String) : List (List String) :=
  t ++ [args]

/-- `t.AddHeader(args...)` of `tabby`: the row of the headings, and a row with a line of
`-` as long as each heading. -/
def AddHeader (t : List (List String)) (args : List String) : List (List String) :=
  AddLine t args ++ [args.map (fun a => ⟨List.replicate a.data.length '-'⟩)]

/-- `DaySumLine(t, dur)` of `src/main.go`. -/
def DaySumLine (t : List (List String)) (dur : Int) : List (List String) :=
  if 0 < dur then AddLine t ["", "", "", "day =", fmtDuration dur, "", "", ""] else t

/-- `WeekSumLine(t, dur)` of `src/main.go`. -/
def WeekSumLine (t : List (List String)) (dur : Int) : List (List String) :=
  if 0 < dur then AddLine t ["", "", "wk =", "", fmtDuration dur, "", "", ""] else t

/-- `DaySumLine(t, dur)` of `src/gott/output.go`. -/
def gott.DaySumLine (t : List (List String)) (dur : Int) : List (List String) :=
  if 0 < dur then AddLine t ["", "", "", "day =", gott.fmtDuration dur, "", "", ""] else t

/-- `WeekSumLine(t, dur)` of `src/gott/output.go`. -/
def gott.WeekSumLine (t : List (List String)) (dur : Int) : List (List String) :=
  if 0 < dur then AddLine t ["", "", "wk =", "", gott.fmtDuration dur, "", "", ""] else t

/-- `t.Print()` on a writer `tabwriter.NewWriter(w, 0, 0, 2, ' ', 0)`: in every row all
columns but the last end in a tab, so they are filled up to the width of their column as in
`tabwriterFlush`, and the last column follows as it is. -/
def Print (t : List (List String)) : String :=
  ⟨tabwriterFlush (t.map (fun row => ⟨row.dropLast, row.getLastD ""⟩))⟩

/-! ## `summaryCmd.Run` -/

/-- Go `t.Format(dateFormatShort)` with `dateFormatShort = "01-02"`. -/
def formatDateFormatShort (t : Int) : String :=
  let ymd := civilOfDays (t / (24 * Hour))
  ⟨appendInt ymd.2.1 2 ++ ['-'] ++ appendInt ymd.2.2 2⟩

/-- Go `t.ISOWeek()`: year and week of the Thursday of the week of `t`, weeks running from
Monday to Sunday; the week is the number of whole weeks before that Thursday in its year,
plus one.  `0001-01-01` is a Monday. -/
def ISOWeek (t : Int) : Int × Int :=
  let days := t / (24 * Hour)
  let thursday := days - days % 7 + 3
  let year := (civilOfDays thursday).1
  (year, (thursday - daysBeforeYear year) / 7 + 1)

/-- Modelled from the spec: `GetDuration` is a method of `Interval`, declared in a file of
the repository that is not part of `src/`.  The spec gives it as `End - Begin` if `End` is
set; else the `Duration` field if set; else `now - Begin`. -/
def GetDuration (now : Int) (i : Interval) : Int :=
  if i.End ≠ 0 then i.End - i.Begin
  else if i.Duration ≠ 0 then i.Duration
  else now - i.Begin

/-- The variables of `summaryCmd.Run` that live across the iterations of its loop. -/
structure SummaryState where
  t : List (List String)
  weekGroup : Int
  dayGroup : String
  dayDurationSum : Int
  weekDurationSum : Int
  deriving DecidableEq, Repr

/-- Body of the loop `for _, interval := range intervals` of `summaryCmd.Run`.  `Format`
and `ISOWeek` read date and clock of a time value in its location. -/
def summaryStep (now : Int) (s : SummaryState) (interval : Interval) : SummaryState :=
  let endText :=
    if interval.End ≠ 0 then formatTimeFormat (wallClock interval.End interval.EndOffset)
    else "tracking..."
  let d := formatDateFormatShort (wallClock interval.Begin interval.BeginOffset)
  let dayChanged := decide (d ≠ s.dayGroup)
  let dayGroup := if dayChanged then d else s.dayGroup
  let dayText := if dayChanged then d else ""
  let t := if dayChanged then DaySumLine s.t s.weekDurationSum else s.t
  let w := (ISOWeek (wallClock interval.Begin interval.BeginOffset)).2
  let weekChanged := decide (w ≠ s.weekGroup)
  let weekGroup := if weekChanged then w else s.weekGroup
  let weekText := if weekChanged then String.mk (fmtInt w.toNat) else ""
  let t := if weekChanged then WeekSumLine t s.dayDurationSum else t
  let weekDurationSum := wrap64 (s.weekDurationSum + GetDuration now interval)
  let dayDurationSum := wrap64 (s.dayDurationSum + GetDuration now interval)
  let t := AddLine t
    [weekText, dayText, formatTimeFormat (wallClock interval.Begin interval.BeginOffset),
      endText,
      fmtDuration (GetDuration now interval), interval.Project, Join interval.Tags ", ",
      Interval.Annotation interval]
  { t := t, weekGroup := weekGroup, dayGroup := dayGroup,
    dayDurationSum := dayDurationSum, weekDurationSum := weekDurationSum }

/-- The state of `summaryCmd.Run` before its loop: the table with its header, no group, and
both sums zero. -/
def summaryStart : SummaryState :=
  { t := AddHeader []
      ["CWEEK", "DAY", "BEGIN", "END", "DURATION", "PROJECT", "TAG", "ANNOTATION"],
    weekGroup := 0, dayGroup := "", dayDurationSum := 0, weekDurationSum := 0 }

/-- The table `summaryCmd.Run` prints for the intervals the filter gave it; `now` stands
for `time.Now()`. -/
def summaryRun (now : Int) (intervals : List Interval) : List (List String) :=
  let s := intervals.foldl (summaryStep now) summaryStart
  WeekSumLine (DaySumLine s.t s.dayDurationSum) s.dayDurationSum

/-- The rows of a table whose fourth column is `day =`: the day subtotals. -/
def dayRows (t : List (List String)) : List (List String) :=
  t.filter (fun row => row.getD 3 "" = "day =")

/-- The rows of a table whose third column is `wk =`: the week subtotals. -/
def weekRows (t : List (List String)) : List (List String) :=
  t.filter (fun row => row.getD 2 "" = "wk =")

/-- Two intervals of the same week, ordered by `Begin`: one hour on Tuesday 2024-01-02 and
two hours on Wednesday 2024-01-03. -/
def twoDays : List Interval :=
  [ { Interval.zero with ID := "a", Begin := Date 2024 1 2 9 0 0, End := Date 2024 1 2 10 0 0 },
    { Interval.zero with ID := "b", Begin := Date 2024 1 3 9 0 0, End := Date 2024 1 3 11 0 0 } ]

/-! ## Lexer: lemmas -/

theorem hasPrefix_length {s pre : String} (h : HasPrefix s pre = true) :
    pre.data.length ≤ s.data.length := by
  unfold HasPrefix at h
  exact (List.isPrefixOf_iff_prefix.mp h).length_le

/-- For a non-empty prefix, `TrimPrefix` changes the string exactly when the prefix is
there: the test `TrimPrefix part pre != part` of the source is a prefix test. -/
theorem trimPrefix_ne_iff (s pre : String) (hpre : pre.data ≠ []) :
    TrimPrefix s pre ≠ s ↔ HasPrefix s pre = true := by
  unfold TrimPrefix
  by_cases h : HasPrefix s pre = true
  · simp only [h, if_true, iff_true]
    intro heq
    have hl := hasPrefix_length h
    have h2 := congrArg (fun t : String => t.data.length) heq
    simp only [List.length_drop] at h2
    have : 0 < pre.data.length := List.length_pos.mpr hpre
    omega
  · simp [h]

theorem step_tag (iv : Interval) (part : String) (h : HasPrefix part "+" = true) :
    lexIntervalStep iv part = { iv with Tags := iv.Tags ++ [⟨part.data.drop 1⟩] } := by
  have h1 : TrimPrefix part TagPrefix ≠ part :=
    (trimPrefix_ne_iff part TagPrefix (by decide)).mpr h
  unfold lexIntervalStep
  simp only [h1, ne_eq, not_false_eq_true, if_true]
  simp [TrimPrefix, TagPrefix, h]


theorem not_both_prefixes (s p q : String) (hpq : p.data.length ≤ q.data.length)
    (hne : p.data.isPrefixOf q.data = false) :
    (HasPrefix s p && HasPrefix s q) = false := by
  by_contra hcon
  simp only [Bool.not_eq_false, Bool.and_eq_true] at hcon
  obtain ⟨hp, hq⟩ := hcon
  unfold HasPrefix at hp hq
  have h := List.prefix_of_prefix_length_le (List.isPrefixOf_iff_prefix.mp hp)
    (List.isPrefixOf_iff_prefix.mp hq) hpq
  rw [← List.isPrefixOf_iff_prefix, hne] at h
  exact Bool.false_ne_true h

/-- The four prefixes exclude one another: no token starts with two of them. -/
theorem prefixes_exclusive (s : String) :
    (HasPrefix s "+" && HasPrefix s "proj:") = false
  ∧ (HasPrefix s "+" && HasPrefix s "project:") = false
  ∧ (HasPrefix s "+" && HasPrefix s "ref:") = false
  ∧ (HasPrefix s "proj:" && HasPrefix s "project:") = false
  ∧ (HasPrefix s "proj:" && HasPrefix s "ref:") = false
  ∧ (HasPrefix s "ref:" && HasPrefix s "project:") = false :=
  ⟨not_both_prefixes s _ _ (by decide) (by decide),
   not_both_prefixes s _ _ (by decide) (by decide),
   not_both_prefixes s _ _ (by decide) (by decide),
   not_both_prefixes s _ _ (by decide) (by decide),
   by rw [Bool.and_comm]; exact not_both_prefixes s _ _ (by decide) (by decide),
   not_both_prefixes s _ _ (by decide) (by decide)⟩

/-- The loop body, rule by rule. -/
theorem lexIntervalStep_eq (iv : Interval) (part : String) :
    lexIntervalStep iv part =
      if HasPrefix part "+" then { iv with Tags := iv.Tags ++ [⟨part.data.drop 1⟩] }
      else if HasPrefix part "proj:" then { iv with Project := ⟨part.data.drop 5⟩ }
      else if HasPrefix part "project:" then { iv with Project := ⟨part.data.drop 8⟩ }
      else if HasPrefix part "ref:" then { iv with Ref := ⟨part.data.drop 4⟩ }
      else { iv with Annotation := Trim (Join [ Interval.Annotation iv, part] " ") " " } := by
  have e1 := trimPrefix_ne_iff part TagPrefix (by decide)
  have e2 := trimPrefix_ne_iff part ProjectPrefixShort (by decide)
  have e3 := trimPrefix_ne_iff part ProjectPrefix (by decide)
  have e4 := trimPrefix_ne_iff part RefPrefix (by decide)
  unfold lexIntervalStep
  simp only [e1, e2, e3, e4]
  simp only [TagPrefix, ProjectPrefixShort, ProjectPrefix, RefPrefix]
  by_cases h1 : HasPrefix part "+" = true
  · simp [h1, TrimPrefix]
  by_cases h2 : HasPrefix part "proj:" = true
  · simp [h1, h2, TrimPrefix]
  by_cases h3 : HasPrefix part "project:" = true
  · simp [h1, h2, h3, TrimPrefix]
  by_cases h4 : HasPrefix part "ref:" = true
  · simp [h1, h2, h3, h4, TrimPrefix]
  · simp [h1, h2, h3, h4]


theorem lastOf_cons (f : String → Option String) (a : String) (as : List String)
    (d : String) : lastOf f (a :: as) d = lastOf f as ((f a).getD d) := by
  unfold lastOf
  cases hfa : f a with
  | none => simp [List.filterMap_cons, hfa]
  | some v =>
    simp only [List.filterMap_cons, hfa, Option.getD_some]
    cases hrest : List.filterMap f as with
    | nil => simp
    | cons b bs => simp [List.getLast?_eq_getLast]

theorem plusTokens_cons (a : String) (as : List String) :
    plusTokens (a :: as) =
      (if HasPrefix a "+" then [(⟨a.data.drop 1⟩ : String)] else []) ++ plusTokens as := by
  unfold plusTokens
  by_cases h : HasPrefix a "+" = true <;> simp [List.filter_cons, h]

theorem foldl_step_fields (args : List String) (iv : Interval) :
    (args.foldl lexIntervalStep iv).Tags = iv.Tags ++ plusTokens args
  ∧ (args.foldl lexIntervalStep iv).Project = lastOf projectOf args iv.Project
  ∧ (args.foldl lexIntervalStep iv).Ref = lastOf refOf args iv.Ref := by
  induction args generalizing iv with
  | nil => simp [plusTokens, lastOf]
  | cons a as ih =>
    obtain ⟨x1, x2, x3, x4, x5, x6⟩ := prefixes_exclusive a
    rw [List.foldl_cons]
    obtain ⟨ih1, ih2, ih3⟩ := ih (lexIntervalStep iv a)
    rw [ih1, ih2, ih3, plusTokens_cons, lastOf_cons, lastOf_cons, lexIntervalStep_eq]
    unfold projectOf refOf
    by_cases h1 : HasPrefix a "+" = true
    · simp_all
    by_cases h2 : HasPrefix a "proj:" = true
    · simp_all
    by_cases h3 : HasPrefix a "project:" = true
    · simp_all
    by_cases h4 : HasPrefix a "ref:" = true
    · simp_all
    · simp_all


/-- C1: `lexInterval` classifies every token by exactly one rule, first match in the order
`+`, `proj:`, `project:`, `ref:`, otherwise annotation.  The resulting `Tags` are the tags
the interval had before followed by the `+` tokens without their `+`, in input order and
with duplicates (so exactly those tokens when it starts with empty `Tags`); `Project` is
the remainder of the last `proj:`/`project:` token and `Ref` the remainder of the last
`ref:` token, each unchanged when there is no such token; every token changes one field
only, and no token starts with two of the prefixes.  `["proj:gott","+cli","fix","bug"]`
gives `Project = "gott"`, `Tags = ["cli"]`, `Annotation = "fix bug"`. -/
theorem lexInterval_classifies (args : List String) (iv : Interval) :
    (lexInterval args iv).Tags = iv.Tags ++ plusTokens args
  ∧ (lexInterval args iv).Project = lastOf projectOf args iv.Project
  ∧ (lexInterval args iv).Ref = lastOf refOf args iv.Ref
  ∧ (∀ (i : Interval) (part : String),
        (HasPrefix part "+" = true
          ∧ lexIntervalStep i part = { i with Tags := i.Tags ++ [⟨part.data.drop 1⟩] })
      ∨ (HasPrefix part "+" = false ∧ HasPrefix part "proj:" = true
          ∧ lexIntervalStep i part = { i with Project := ⟨part.data.drop 5⟩ })
      ∨ (HasPrefix part "+" = false ∧ HasPrefix part "proj:" = false
          ∧ HasPrefix part "project:" = true
          ∧ lexIntervalStep i part = { i with Project := ⟨part.data.drop 8⟩ })
      ∨ (HasPrefix part "+" = false ∧ HasPrefix part "proj:" = false
          ∧ HasPrefix part "project:" = false ∧ HasPrefix part "ref:" = true
          ∧ lexIntervalStep i part = { i with Ref := ⟨part.data.drop 4⟩ })
      ∨ (HasPrefix part "+" = false ∧ HasPrefix part "proj:" = false
          ∧ HasPrefix part "project:" = false ∧ HasPrefix part "ref:" = false
          ∧ lexIntervalStep i part =
              { i with Annotation := Trim (Join [ Interval.Annotation i, part] " ") " " }))
  ∧ (∀ part : String,
        (HasPrefix part "+" && HasPrefix part "proj:") = false
      ∧ (HasPrefix part "+" && HasPrefix part "project:") = false
      ∧ (HasPrefix part "+" && HasPrefix part "ref:") = false
      ∧ (HasPrefix part "proj:" && HasPrefix part "project:") = false
      ∧ (HasPrefix part "proj:" && HasPrefix part "ref:") = false
      ∧ (HasPrefix part "ref:" && HasPrefix part "project:") = false)
  ∧ (NewInterval ["proj:gott", "+cli", "fix", "bug"]).Project = "gott"
  ∧ (NewInterval ["proj:gott", "+cli", "fix", "bug"]).Tags = ["cli"]
  ∧ Interval.Annotation (NewInterval ["proj:gott", "+cli", "fix", "bug"]) = "fix bug" := by
  have hf := foldl_step_fields args
    { iv with Raw := Join args " ", Annotation := "" }
  refine ⟨hf.1, hf.2.1, hf.2.2, ?_, prefixes_exclusive, by decide, by decide, by decide⟩
  intro i part
  rw [lexIntervalStep_eq]
  by_cases h1 : HasPrefix part "+" = true
  · exact Or.inl ⟨h1, by simp [h1]⟩
  rw [Bool.not_eq_true] at h1
  by_cases h2 : HasPrefix part "proj:" = true
  · exact Or.inr (Or.inl ⟨h1, h2, by simp [h1, h2]⟩)
  rw [Bool.not_eq_true] at h2
  by_cases h3 : HasPrefix part "project:" = true
  · exact Or.inr (Or.inr (Or.inl ⟨h1, h2, h3, by simp [h1, h2, h3]⟩))
  rw [Bool.not_eq_true] at h3
  by_cases h4 : HasPrefix part "ref:" = true
  · exact Or.inr (Or.inr (Or.inr (Or.inl ⟨h1, h2, h3, h4, by simp [h1, h2, h3, h4]⟩)))
  rw [Bool.not_eq_true] at h4
  exact Or.inr (Or.inr (Or.inr (Or.inr ⟨h1, h2, h3, h4, by simp [h1, h2, h3, h4]⟩)))

/-! ## Reconcile: lemmas -/

theorem dispatch_foldl (l : List Interval) (st : ReconcileState) :
    (l.foldl dispatchStep st).calls =
        st.calls ++ l.map (fun i => if i.ID = "" then StoreCall.Append i else StoreCall.Apply i)
  ∧ (l.foldl dispatchStep st).afterIDs = st.afterIDs ++ nonEmptyIDs l := by
  induction l generalizing st with
  | nil => simp [nonEmptyIDs]
  | cons a l ih =>
    rw [List.foldl_cons]
    obtain ⟨h1, h2⟩ := ih (dispatchStep st a)
    rw [h1, h2]
    unfold dispatchStep nonEmptyIDs
    by_cases h : a.ID = "" <;> simp [h]

theorem containsString_iff (s : List String) (str : String) :
    containsString s str = true ↔ str ∈ s := by
  induction s with
  | nil => simp [containsString]
  | cons v s ih =>
    unfold containsString
    by_cases h : v = str
    · simp [h]
    · simp only [h, if_false, ih, List.mem_cons]
      constructor
      · intro hm; exact Or.inr hm
      · rintro (rfl | hm)
        · exact absurd rfl h
        · exact hm

theorem remove_foldl (after l : List String) (st : ReconcileState) :
    (l.foldl (removeStep after) st).calls =
        st.calls ++ (l.filter (fun b => !containsString after b)).map StoreCall.RemoveById
  ∧ (l.foldl (removeStep after) st).afterIDs = st.afterIDs := by
  induction l generalizing st with
  | nil => simp
  | cons a l ih =>
    rw [List.foldl_cons]
    obtain ⟨h1, h2⟩ := ih (removeStep after st a)
    rw [h1, h2]
    unfold removeStep
    by_cases h : containsString after a = true
    · simp [h]
    · simp [h]

theorem removedIDs_append (a b : List StoreCall) :
    removedIDs (a ++ b) = removedIDs a ++ removedIDs b := by
  simp [removedIDs]

theorem removedIDs_writes (l : List Interval) :
    removedIDs (l.map (fun i => if i.ID = "" then StoreCall.Append i else StoreCall.Apply i))
      = [] := by
  induction l with
  | nil => rfl
  | cons a l ih =>
    unfold removedIDs at ih ⊢
    by_cases h : a.ID = "" <;> simp [h, ih]

theorem removedIDs_removes (l : List String) :
    removedIDs (l.map StoreCall.RemoveById) = l := by
  induction l with
  | nil => rfl
  | cons a l ih =>
    unfold removedIDs at ih ⊢
    simp [ih]

theorem writeCalls_writes (l : List Interval) :
    writeCalls (l.map (fun i => if i.ID = "" then StoreCall.Append i else StoreCall.Apply i))
      = l.map (fun i => if i.ID = "" then StoreCall.Append i else StoreCall.Apply i) := by
  induction l with
  | nil => rfl
  | cons a l ih =>
    unfold writeCalls at ih ⊢
    by_cases h : a.ID = "" <;> simp [h, ih]

theorem writeCalls_removes (l : List String) :
    writeCalls (l.map StoreCall.RemoveById) = [] := by
  induction l with
  | nil => rfl
  | cons a l ih =>
    unfold writeCalls at ih ⊢
    simp [ih]

/-- The whole trace of the reconcile step: one `Append` or `Apply` per parsed interval in
document order, then the removals. -/
theorem reconcile_calls (beforeIDs : List String) (editIntervals : List Interval) :
    (reconcile beforeIDs editIntervals).calls =
        editIntervals.map
          (fun i => if i.ID = "" then StoreCall.Append i else StoreCall.Apply i)
        ++ (if beforeIDs.length ≠ (nonEmptyIDs editIntervals).length then
              (beforeIDs.filter
                (fun b => !containsString (nonEmptyIDs editIntervals) b)).map
                StoreCall.RemoveById
            else [])
  ∧ (reconcile beforeIDs editIntervals).afterIDs = nonEmptyIDs editIntervals := by
  obtain ⟨h1, h2⟩ := dispatch_foldl editIntervals { calls := [], afterIDs := [] }
  simp only [List.nil_append] at h1 h2
  unfold reconcile
  simp only [h2]
  by_cases hlen : beforeIDs.length ≠ (nonEmptyIDs editIntervals).length
  · rw [if_pos hlen, if_pos hlen]
    obtain ⟨h3, h4⟩ := remove_foldl (nonEmptyIDs editIntervals) beforeIDs
      (editIntervals.foldl dispatchStep { calls := [], afterIDs := [] })
    rw [h3, h4, h1, h2]
    exact ⟨rfl, rfl⟩
  · rw [if_neg hlen, if_neg hlen, List.append_nil]
    exact ⟨h1, h2⟩

theorem removedIDs_reconcile (beforeIDs : List String) (editIntervals : List Interval) :
    removedIDs (reconcile beforeIDs editIntervals).calls =
      (if beforeIDs.length ≠ (nonEmptyIDs editIntervals).length then
        beforeIDs.filter (fun b => decide (b ∉ nonEmptyIDs editIntervals))
      else []) := by
  rw [(reconcile_calls beforeIDs editIntervals).1, removedIDs_append, removedIDs_writes,
    List.nil_append]
  by_cases hlen : beforeIDs.length ≠ (nonEmptyIDs editIntervals).length
  · rw [if_pos hlen, if_pos hlen, removedIDs_removes]
    apply List.filter_congr
    intro b _
    by_cases hb : b ∈ nonEmptyIDs editIntervals
    · simp [hb, (containsString_iff _ _).mpr hb]
    · have : containsString (nonEmptyIDs editIntervals) b = false := by
        rw [← Bool.not_eq_true, containsString_iff]; exact hb
      simp [hb, this]
  · rw [if_neg hlen, if_neg hlen]; rfl

theorem filter_not_mem_erase (l : List String) (x : String) (hn : l.Nodup) (hx : x ∈ l)
    (after : List String) (hperm : after.Perm (l.erase x)) :
    l.filter (fun b => decide (b ∉ after)) = [x] := by
  have hmem : ∀ b ∈ l, (decide (b ∉ after)) = decide (b = x) := by
    intro b hb
    have h1 : b ∈ after ↔ b ∈ l.erase x := hperm.mem_iff
    rw [hn.mem_erase_iff] at h1
    by_cases hbx : b = x
    · subst hbx; simp [h1]
    · simp [h1, hbx, hb]
  rw [List.filter_congr hmem, List.filter_eq, List.count_eq_one_of_mem hn hx]
  rfl

/-- C5: when `beforeIDs` and `afterIDs` (the non-empty IDs of the parsed intervals) differ
in length, `RemoveById` is called exactly for the entries of `beforeIDs` that do not occur
in `afterIDs`, once per entry and in `beforeIDs` order, and for nothing else; when the
lengths are equal it is never called, also when the lists differ as sets (as for
`beforeIDs = [A, B]` and rows `A`, `C`).  For `beforeIDs = [A, B, C]` and rows `B`, `C` the
calls are `Apply B`, `Apply C`, `RemoveById A`. -/
theorem reconcile_removes_missing (beforeIDs : List String) (editIntervals : List Interval) :
    removedIDs (reconcile beforeIDs editIntervals).calls =
      (if beforeIDs.length ≠ (nonEmptyIDs editIntervals).length then
        beforeIDs.filter (fun b => decide (b ∉ nonEmptyIDs editIntervals))
      else [])
  ∧ (reconcile ["A", "B", "C"] [withID "B", withID "C"]).calls =
      [StoreCall.Apply (withID "B"), StoreCall.Apply (withID "C"), StoreCall.RemoveById "A"]
  ∧ removedIDs (reconcile ["A", "B"] [withID "A", withID "C"]).calls = [] :=
  ⟨removedIDs_reconcile beforeIDs editIntervals, by decide, by decide⟩

/-- C6, as the claim states it, fails: for `beforeIDs = [A, B]` and the parsed rows `A` and
one new row with empty ID, `afterIDs` is `[A]` (the new row is appended and not counted),
the lengths differ, and `RemoveById B` is called. -/
theorem reconcile_scenarioB_removes :
    (reconcile ["A", "B"] [withID "A", withID ""]).calls =
      [StoreCall.Apply (withID "A"), StoreCall.Append (withID ""), StoreCall.RemoveById "B"]
  ∧ removedIDs (reconcile ["A", "B"] [withID "A", withID ""]).calls ≠ [] :=
  ⟨by decide, by decide⟩

/-- C6, amended: for distinct `beforeIDs`, an edit that drops exactly one existing row `x`
(the non-empty IDs of the parsed rows are the other entries of `beforeIDs`, in any order)
and adds exactly one row with empty ID calls `RemoveById` exactly once, for `x`. -/
theorem reconcile_drop_one_add_one (beforeIDs : List String) (x : String)
    (editIntervals : List Interval)
    (hdistinct : beforeIDs.Nodup) (hx : x ∈ beforeIDs)
    (hdrop : (nonEmptyIDs editIntervals).Perm (beforeIDs.erase x))
    (_hnew : (editIntervals.filter (fun i => i.ID = "")).length = 1) :
    removedIDs (reconcile beforeIDs editIntervals).calls = [x] := by
  rw [removedIDs_reconcile]
  have hlen : beforeIDs.length ≠ (nonEmptyIDs editIntervals).length := by
    rw [hdrop.length_eq, List.length_erase_of_mem hx]
    have : 0 < beforeIDs.length := List.length_pos_of_mem hx
    omega
  rw [if_pos hlen]
  exact filter_not_mem_erase beforeIDs x hdistinct hx _ hdrop

theorem reconcile_drop_one_add_one_witness :
    removedIDs (reconcile ["A", "B"] [withID "A", withID ""]).calls = ["B"] :=
  reconcile_drop_one_add_one ["A", "B"] "B" [withID "A", withID ""]
    (by decide) (by decide) (by decide) (by decide)

/-- C7: for every parsed interval list the database receives, in document order, exactly
one call per parsed interval, `Append` when its ID is empty and `Apply` when it is not;
these calls come before any removal, and `afterIDs` is the list of the non-empty IDs in
document order. -/
theorem reconcile_dispatches (beforeIDs : List String) (editIntervals : List Interval) :
    writeCalls (reconcile beforeIDs editIntervals).calls =
      editIntervals.map
        (fun i => if i.ID = "" then StoreCall.Append i else StoreCall.Apply i)
  ∧ (reconcile beforeIDs editIntervals).afterIDs = nonEmptyIDs editIntervals
  ∧ (reconcile beforeIDs editIntervals).calls =
      editIntervals.map
        (fun i => if i.ID = "" then StoreCall.Append i else StoreCall.Apply i)
      ++ (removedIDs (reconcile beforeIDs editIntervals).calls).map StoreCall.RemoveById := by
  obtain ⟨h1, h2⟩ := reconcile_calls beforeIDs editIntervals
  refine ⟨?_, h2, ?_⟩
  · rw [h1]
    unfold writeCalls
    rw [List.filter_append]
    have e1 := writeCalls_writes editIntervals
    unfold writeCalls at e1
    rw [e1]
    by_cases hlen : beforeIDs.length ≠ (nonEmptyIDs editIntervals).length
    · rw [if_pos hlen]
      have e2 := writeCalls_removes
        (beforeIDs.filter (fun b => !containsString (nonEmptyIDs editIntervals) b))
      unfold writeCalls at e2
      rw [e2, List.append_nil]
    · rw [if_neg hlen]; simp
  · rw [h1, removedIDs_append, removedIDs_writes, List.nil_append]
    by_cases hlen : beforeIDs.length ≠ (nonEmptyIDs editIntervals).length
    · rw [if_pos hlen, removedIDs_removes]
    · rw [if_neg hlen]; rfl

/-! ## Filters: lemmas -/

theorem day_eq : (24 * Hour : Int) = 86400000000000 := by decide

theorem truncate_day (t : Int) : Truncate t (24 * Hour) = t - t % 86400000000000 := by
  unfold Truncate
  rw [day_eq]
  simp

/-- In a location whose offset is zero at all times, as in UTC, `AddDate(0, 0, days)` adds
`days` times 24 hours. -/
theorem addDays_utc (loc : Location) (hutc : ∀ s, (loc.lookup s).offset = 0) (t days : Int) :
    AddDays loc t days = t + days * 86400000000000 := by
  unfold AddDays
  simp only [hutc, ne_eq, not_true_eq_false, if_false, add_zero, sub_zero]
  rw [show Second = 1000000000 by decide]
  omega

theorem createDateRangeFilter_eq (fromT toT : Int) (loc : Location) (i : Interval) :
    createDateRangeFilter fromT toT loc i = true ↔
      fromT - fromT % 86400000000000 < i.Begin
        ∧ i.Begin < AddDays loc (toT - toT % 86400000000000) 1 := by
  unfold createDateRangeFilter After Before
  simp only [truncate_day, Bool.and_eq_true, decide_eq_true_eq]

theorem keys_any (a : String) :
    Keys.any (fun key => containsString [a] key) = decide (a ∈ Keys) := by
  simp only [Keys, List.any_cons, List.any_nil, containsString, Bool.or_false]
  by_cases h : a ∈ [KeyToday, KeyYesterday, KeyWeek, KeyMonth, KeyAll]
  · simp only [h, decide_True]
    simp only [List.mem_cons, List.mem_singleton, List.not_mem_nil, or_false] at h
    rcases h with h | h | h | h | h <;> simp [h]
  · simp only [h, decide_False]
    simp only [List.mem_cons, List.mem_singleton, List.not_mem_nil, or_false, not_or] at h
    obtain ⟨h1, h2, h3, h4, h5⟩ := h
    simp [h1, h2, h3, h4, h5]

/-- C8: the `Args` validator of `summaryCmd` fails if and only if there is more than one
token, or exactly one token that is none of `:today`, `:yesterday`, `:week`, `:month`,
`:all` and that `time.Parse` does not accept as a `YYYY-MM-DD` date; the empty list is
accepted. -/
theorem summaryCmdArgs_fails_iff (args : List String) :
    ((summaryCmdArgs args).isSome = true ↔
        (1 < args.length
          ∨ ∃ a, args = [a]
              ∧ a ≠ ":today" ∧ a ≠ ":yesterday" ∧ a ≠ ":week" ∧ a ≠ ":month" ∧ a ≠ ":all"
              ∧ parseDateFormat a = none))
  ∧ summaryCmdArgs [] = none := by
  refine ⟨?_, rfl⟩
  match args with
  | [] => simp [summaryCmdArgs]
  | a :: b :: rest => simp [summaryCmdArgs]
  | [a] =>
    unfold summaryCmdArgs
    rw [keys_any]
    simp only [List.length_singleton, one_ne_zero, if_false, gt_iff_lt, lt_irrefl,
      List.headD_cons, List.cons.injEq, and_true, exists_eq_left', false_or]
    by_cases hk : a ∈ Keys
    · simp only [hk, decide_True, if_true, Option.isSome_none, Bool.false_eq_true, false_iff]
      simp only [Keys, KeyToday, KeyYesterday, KeyWeek, KeyMonth, KeyAll, List.mem_cons,
        List.mem_singleton, List.not_mem_nil, or_false] at hk
      rintro ⟨h1, h2, h3, h4, h5, _⟩
      rcases hk with h | h | h | h | h <;> contradiction
    · simp only [hk, decide_False, Bool.false_eq_true, if_false]
      simp only [Keys, KeyToday, KeyYesterday, KeyWeek, KeyMonth, KeyAll, List.mem_cons,
        List.mem_singleton, List.not_mem_nil, or_false, not_or] at hk
      obtain ⟨h1, h2, h3, h4, h5⟩ := hk
      by_cases hp : parseDateFormat a = none
      · simp [h1, h2, h3, h4, h5, hp]
      · have hs : (parseDateFormat a).isNone = false := by
          rw [Option.isNone_eq_false_iff, Option.isSome_iff_ne_none]; exact hp
        simp [hp, hs]

/-- C9, as the claim states it, fails: with `from` = 2024-01-02 09:00 and `to` =
2024-01-02 17:00, both UTC (`from` not later than `to`), an interval beginning at exactly
00:00 of `to`'s day is rejected, because it is not strictly after `from` truncated to the
day. -/
theorem dateRange_same_day_rejects_midnight :
    Date 2024 1 2 9 0 0 ≤ Date 2024 1 2 17 0 0
  ∧ Truncate (Date 2024 1 2 17 0 0) (24 * Hour) = Date 2024 1 2 0 0 0
  ∧ createDateRangeFilter (Date 2024 1 2 9 0 0) (Date 2024 1 2 17 0 0) UTC
      { Interval.zero with Begin := Date 2024 1 2 0 0 0 } = false := by
  decide

/-- C9, amended: for every `from` not later than `to`, with `to` in UTC (a location whose
zone offset is zero at all times), the filter rejects an interval whose `Begin` is exactly
00:00 of the day after `to`'s day, and it accepts an interval whose `Begin` is exactly
00:00 of `to`'s day exactly when `from`'s day is strictly before `to`'s day.  The days are
the days of UTC, which is what `Truncate(24 * time.Hour)` cuts to. -/
theorem dateRange_midnight_boundary (fromT toT : Int) (toLoc : Location) (i : Interval)
    (_hle : fromT ≤ toT) (hutc : ∀ s, (toLoc.lookup s).offset = 0) :
    (createDateRangeFilter fromT toT toLoc { i with Begin := Truncate toT (24 * Hour) } = true
        ↔ Truncate fromT (24 * Hour) < Truncate toT (24 * Hour))
  ∧ createDateRangeFilter fromT toT toLoc
      { i with Begin := Truncate toT (24 * Hour) + 24 * Hour } = false := by
  constructor
  · rw [createDateRangeFilter_eq, addDays_utc toLoc hutc]
    simp only [truncate_day]
    constructor
    · intro h; exact h.1
    · intro h; exact ⟨h, by omega⟩
  · rw [← Bool.not_eq_true, createDateRangeFilter_eq, addDays_utc toLoc hutc]
    simp only [truncate_day]
    simp only [day_eq]
    omega

theorem dateRange_midnight_boundary_witness :
    (createDateRangeFilter (Date 2024 1 1 9 0 0) (Date 2024 1 2 17 0 0) UTC
        { Interval.zero with Begin := Truncate (Date 2024 1 2 17 0 0) (24 * Hour) } = true
        ↔ Truncate (Date 2024 1 1 9 0 0) (24 * Hour)
            < Truncate (Date 2024 1 2 17 0 0) (24 * Hour))
  ∧ createDateRangeFilter (Date 2024 1 1 9 0 0) (Date 2024 1 2 17 0 0) UTC
      { Interval.zero with
          Begin := Truncate (Date 2024 1 2 17 0 0) (24 * Hour) + 24 * Hour } = false :=
  dateRange_midnight_boundary (Date 2024 1 1 9 0 0) (Date 2024 1 2 17 0 0) UTC Interval.zero
    (by decide) (fun _ => rfl)

/-- C10, as the claim states it, fails in its first consequence: with `from` = 2024-03-09
09:00 and `to` = 2024-03-10 12:00 in `America/New_York` (14:00 and 16:00 UTC), the day
added to `to` truncated to the day is the day of the change to daylight time and has 23
hours, so the upper bound is 2024-03-10 23:00 UTC, and an interval beginning at 23:30 UTC,
strictly inside `to`'s day, is rejected. -/
theorem dateRange_short_day_rejects_inside :
    Date 2024 3 9 14 0 0 ≤ Date 2024 3 10 16 0 0
  ∧ Truncate (Date 2024 3 10 16 0 0) (24 * Hour) < Date 2024 3 10 23 30 0
  ∧ Date 2024 3 10 23 30 0 < Truncate (Date 2024 3 10 16 0 0) (24 * Hour) + 24 * Hour
  ∧ AddDays newYork (Truncate (Date 2024 3 10 16 0 0) (24 * Hour)) 1 = Date 2024 3 10 23 0 0
  ∧ createDateRangeFilter (Date 2024 3 9 14 0 0) (Date 2024 3 10 16 0 0) newYork
      { Interval.zero with Begin := Date 2024 3 10 23 30 0 } = false := by
  decide

/-- The week after: the day added on 2024-11-03 in `America/New_York` has 25 hours, and an
interval beginning at 00:00 UTC of the day after `to`'s day is accepted. -/
theorem dateRange_long_day_accepts_next :
    AddDays newYork (Truncate (Date 2024 11 3 16 0 0) (24 * Hour)) 1 = Date 2024 11 4 1 0 0
  ∧ createDateRangeFilter (Date 2024 11 2 14 0 0) (Date 2024 11 3 16 0 0) newYork
      { Interval.zero with Begin := Date 2024 11 4 0 0 0 } = true := by
  decide

/-- C10, amended: `createDateRangeFilter(from, to)` accepts an interval if and only if its
`Begin` is strictly after `from` truncated to the day and strictly before `to` truncated to
the day plus one day of the calendar in `to`'s location; an interval whose `Begin` is
exactly 00:00 of `from`'s day is rejected; and, when `from` is not later than `to` and `to`
is in UTC (a location whose zone offset is zero at all times), every interval whose `Begin`
lies strictly inside `to`'s day is accepted. -/
theorem dateRange_accepts_iff (fromT toT : Int) (toLoc : Location) (i : Interval) :
    (createDateRangeFilter fromT toT toLoc i = true
        ↔ Truncate fromT (24 * Hour) < i.Begin
            ∧ i.Begin < AddDays toLoc (Truncate toT (24 * Hour)) 1)
  ∧ createDateRangeFilter fromT toT toLoc
      { i with Begin := Truncate fromT (24 * Hour) } = false
  ∧ (fromT ≤ toT → (∀ s, (toLoc.lookup s).offset = 0)
      → Truncate toT (24 * Hour) < i.Begin
      → i.Begin < Truncate toT (24 * Hour) + 24 * Hour
      → createDateRangeFilter fromT toT toLoc i = true) := by
  refine ⟨?_, ?_, ?_⟩
  · rw [createDateRangeFilter_eq]
    simp only [truncate_day]
  · rw [← Bool.not_eq_true, createDateRangeFilter_eq]
    simp only [truncate_day]
    omega
  · intro hle hutc h1 h2
    rw [createDateRangeFilter_eq, addDays_utc toLoc hutc]
    simp only [truncate_day] at h1 h2
    simp only [day_eq] at h2
    omega

theorem dateRange_accepts_iff_witness :
    createDateRangeFilter (Date 2024 1 1 9 0 0) (Date 2024 1 2 17 0 0) UTC
      { Interval.zero with Begin := Date 2024 1 2 12 0 0 } = true :=
  (dateRange_accepts_iff (Date 2024 1 1 9 0 0) (Date 2024 1 2 17 0 0) UTC
    { Interval.zero with Begin := Date 2024 1 2 12 0 0 }).2.2
    (by decide) (fun _ => rfl) (by decide) (by decide)

/-! ## Edit protocol: lemmas on the time fields -/

theorem getnum_lt {s : List Char} {fixed : Bool} {n : Nat} {rest : List Char}
    (h : getnum s fixed = some (n, rest)) : n < 100 := by
  have hd : ∀ c, isDigit c = true → digitVal c < 10 := by
    intro c hc
    unfold isDigit at hc
    simp only [Bool.and_eq_true, decide_eq_true_eq] at hc
    have h1 : ('0' : Char).toNat ≤ c.toNat := hc.1
    have h2 : c.toNat ≤ ('9' : Char).toNat := hc.2
    have e0 : ('0' : Char).toNat = 48 := by decide
    have e9 : ('9' : Char).toNat = 57 := by decide
    unfold digitVal
    omega
  unfold getnum at h
  split at h
  · exact absurd h (by simp)
  · rename_i c0 rest0
    by_cases h0 : isDigit c0 = true
    · simp only [h0, Bool.not_true, Bool.false_eq_true, if_false] at h
      have := hd c0 h0
      split at h
      · split at h
        · exact absurd h (by simp)
        · simp only [Option.some.injEq, Prod.mk.injEq] at h; omega
      · rename_i c1 rest1
        by_cases h1 : isDigit c1 = true
        · simp only [h1, if_true, Option.some.injEq, Prod.mk.injEq] at h
          have := hd c1 h1
          omega
        · simp only [h1, Bool.false_eq_true, if_false] at h
          split at h
          · exact absurd h (by simp)
          · simp only [Option.some.injEq, Prod.mk.injEq] at h; omega
    · simp [h0] at h

/-- A time `time.Parse(timeFormat, ·)` returns is a time of day on January 1st of year 0. -/
theorem parseTimeFormat_some {s : String} {tb : Int} (h : parseTimeFormat s = some tb) :
    ∃ hh mi : Nat, hh < 24 ∧ mi < 60 ∧ tb = Date 0 1 1 hh mi 0 := by
  unfold parseTimeFormat at h
  cases hg : getnum s.data false with
  | none => simp [hg] at h
  | some p =>
    obtain ⟨hour, rest⟩ := p
    simp only [hg] at h
    by_cases h24 : 24 ≤ hour
    · simp [h24] at h
    · simp only [h24, if_false] at h
      cases rest with
      | nil => simp at h
      | cons sep rest2 =>
        by_cases hsep : sep ≠ ':'
        · simp [hsep] at h
        · simp only [hsep, if_false] at h
          cases hg2 : getnum rest2 true with
          | none => simp [hg2] at h
          | some q =>
            obtain ⟨min, rest3⟩ := q
            simp only [hg2] at h
            by_cases h60 : 60 ≤ min
            · simp [h60] at h
            · simp only [h60, if_false] at h
              by_cases hr : rest3 ≠ []
              · simp [hr] at h
              · simp only [hr, if_false, Option.some.injEq] at h
                exact ⟨hour, min, by omega, by omega, h.symm⟩

theorem date_year0 (hh mi : Nat) :
    Date 0 1 1 hh mi 0 = (-31622400 + (hh * 3600 + mi * 60 : Nat)) * 1000000000 := by
  unfold Date
  have e1 : daysBeforeYear 0 = -366 := by decide
  have e2 : daysBefore.getD (1 - 1) 0 = 0 := by decide
  have e3 : isLeap 0 = true := by decide
  simp only [e1, e2, e3, Second]
  norm_num

theorem clock_of_parsed (hh mi : Nat) (h1 : hh < 24) (h2 : mi < 60) :
    hourOf (Date 0 1 1 hh mi 0) = hh ∧ minuteOf (Date 0 1 1 hh mi 0) = mi
  ∧ timeOfDay (Date 0 1 1 hh mi 0) = hh * Hour + mi * Minute := by
  rw [date_year0]
  unfold hourOf minuteOf timeOfDay
  have eH : Hour = 3600000000000 := by decide
  have eM : Minute = 60000000000 := by decide
  have eS : Second = 1000000000 := by decide
  rw [eH, eM, eS]
  push_cast
  refine ⟨?_, ?_, ?_⟩ <;> omega

theorem appendInt_two_digits :
    ∀ x, x < 60 → ((appendInt (x : Nat) 2).length = 2
      ∧ (appendInt (x : Nat) 2 = ['0', '0'] ↔ x = 0)) := by
  decide

/-- `Format(timeFormat)` of a parsed time is `"00:00"` exactly at 00:00. -/
theorem formatTimeFormat_midnight_iff (hh mi : Nat) (h1 : hh < 24) (h2 : mi < 60) :
    formatTimeFormat (Date 0 1 1 hh mi 0) = "00:00"
      ↔ timeOfDay (Date 0 1 1 hh mi 0) = 0 := by
  obtain ⟨eh, em, et⟩ := clock_of_parsed hh mi h1 h2
  obtain ⟨lh, zh⟩ := appendInt_two_digits hh (by omega)
  obtain ⟨lm, zm⟩ := appendInt_two_digits mi h2
  unfold formatTimeFormat
  rw [eh, em, et]
  have eH : Hour = 3600000000000 := by decide
  have eM : Minute = 60000000000 := by decide
  have key : (hh : Int) * Hour + mi * Minute = 0 ↔ hh = 0 ∧ mi = 0 := by
    rw [eH, eM]; omega
  rw [key, ← zh, ← zm]
  constructor
  · intro h
    have hd := congrArg String.data h
    simp only [List.append_assoc] at hd
    have hd2 : appendInt (hh : Nat) 2 ++ ([':'] ++ appendInt (mi : Nat) 2)
        = ['0', '0'] ++ ([':'] ++ ['0', '0']) := hd
    have h3 := List.append_inj hd2 (by rw [lh]; rfl)
    exact ⟨h3.1, by simpa using h3.2⟩
  · rintro ⟨a, b⟩
    rw [a, b]
    rfl

theorem formatTimeFormat_zero : formatTimeFormat 0 = "00:00" := by decide

/-! ## The lexer leaves the zones of `Begin` and `End` alone -/

theorem step_offsets (iv : Interval) (part : String) :
    (lexIntervalStep iv part).BeginOffset = iv.BeginOffset
      ∧ (lexIntervalStep iv part).EndOffset = iv.EndOffset := by
  rw [lexIntervalStep_eq]
  by_cases h1 : HasPrefix part "+" = true
  · simp [h1]
  by_cases h2 : HasPrefix part "proj:" = true
  · simp [h1, h2]
  by_cases h3 : HasPrefix part "project:" = true
  · simp [h1, h2, h3]
  by_cases h4 : HasPrefix part "ref:" = true
  · simp [h1, h2, h3, h4]
  · simp [h1, h2, h3, h4]

theorem foldl_step_offsets (args : List String) (iv : Interval) :
    (args.foldl lexIntervalStep iv).BeginOffset = iv.BeginOffset
      ∧ (args.foldl lexIntervalStep iv).EndOffset = iv.EndOffset := by
  induction args generalizing iv with
  | nil => exact ⟨rfl, rfl⟩
  | cons p args ih =>
    rw [List.foldl_cons]
    obtain ⟨a1, a2⟩ := ih (lexIntervalStep iv p)
    obtain ⟨b1, b2⟩ := step_offsets iv p
    exact ⟨a1.trans b1, a2.trans b2⟩

/-- An interval fresh from the lexer has the zero times, which are UTC. -/
theorem newInterval_utc (ts : List String) :
    (NewInterval ts).BeginOffset = 0 ∧ (NewInterval ts).EndOffset = 0 := by
  unfold NewInterval lexInterval
  exact foldl_step_offsets ts _

theorem wallClock_zero (t : Int) : wallClock t 0 = t := by
  unfold wallClock
  omega

/-- `parseEditLine` behind the unpacking of the fields and the date checks. -/
theorem parseEditLine_of_fields (t id date begin endS duration annotation : String)
    (tdate : Int)
    (hfields : unpackSlice (editFields t)
      = some [id, date, begin, endS, duration, annotation])
    (hdate : parseDateFormat date = some tdate) :
    parseEditLine t =
      if begin ≠ "" ∧ (parseTimeFormat begin).isNone then .error .beginParse
      else if begin ≠ "" ∧ (parseTimeFormat endS).isNone then .error .endParse
      else if formatTimeFormat ((parseTimeFormat begin).getD 0) ≠ "00:00"
          ∧ formatTimeFormat ((parseTimeFormat endS).getD 0) ≠ "00:00" then
        .ok { NewInterval (Split annotation ' ') with
                Begin := tdate + (hourOf ((parseTimeFormat begin).getD 0) * Hour
                  + minuteOf ((parseTimeFormat begin).getD 0) * Minute)
                End := tdate + (hourOf ((parseTimeFormat endS).getD 0) * Hour
                  + minuteOf ((parseTimeFormat endS).getD 0) * Minute)
                ID := id }
      else
        match ParseDuration duration with
        | none => .error .durationParse
        | some tdur =>
          .ok { NewInterval (Split annotation ' ') with
                  Begin := tdate, End := tdate, Duration := tdur, ID := id } := by
  have hne : date ≠ "" := by
    intro h
    have hnone : parseDateFormat "" = none := by decide
    rw [h, hnone] at hdate
    exact Option.noConfusion hdate
  unfold parseEditLine
  rw [hfields]
  simp only [List.getD_cons_zero, List.getD_cons_succ, hne, if_false, hdate]
  obtain ⟨hb, he⟩ := newInterval_utc (Split annotation ' ')
  simp only [hb, he]

/-- The explicit-time branch, for two parsed times that are not 00:00. -/
theorem parseEditLine_explicit (t id date begin endS duration annotation : String)
    (tdate tb te : Int)
    (hfields : unpackSlice (editFields t)
      = some [id, date, begin, endS, duration, annotation])
    (hdate : parseDateFormat date = some tdate)
    (hb : parseTimeFormat begin = some tb) (he : parseTimeFormat endS = some te)
    (hbn : timeOfDay tb ≠ 0) (hen : timeOfDay te ≠ 0) :
    parseEditLine t = .ok { NewInterval (Split annotation ' ') with
      Begin := tdate + timeOfDay tb, End := tdate + timeOfDay te, ID := id } := by
  rw [parseEditLine_of_fields t id date begin endS duration annotation tdate hfields hdate]
  obtain ⟨hh, mi, h1, h2, rfl⟩ := parseTimeFormat_some hb
  obtain ⟨hh', mi', h1', h2', rfl⟩ := parseTimeFormat_some he
  have fb := (formatTimeFormat_midnight_iff hh mi h1 h2).not.mpr hbn
  have fe := (formatTimeFormat_midnight_iff hh' mi' h1' h2').not.mpr hen
  obtain ⟨eh, em, et⟩ := clock_of_parsed hh mi h1 h2
  obtain ⟨eh', em', et'⟩ := clock_of_parsed hh' mi' h1' h2'
  simp only [hb, he, Option.isNone_some, Bool.false_eq_true, and_false, if_false,
    Option.getD_some, ne_eq, fb, fe, not_false_eq_true, and_self, if_true,
    eh, em, et, eh', em', et']

/-- The duration branch, reached when no time error is raised and one of the two times
formats as `00:00`. -/
theorem parseEditLine_durationOnly (t id date begin endS duration annotation : String)
    (tdate : Int)
    (hfields : unpackSlice (editFields t)
      = some [id, date, begin, endS, duration, annotation])
    (hdate : parseDateFormat date = some tdate)
    (hcase : (begin = "" ∧ endS = "")
      ∨ (∃ te, parseTimeFormat endS = some te
          ∧ (begin = "" ∨ ∃ tb, parseTimeFormat begin = some tb
              ∧ (timeOfDay tb = 0 ∨ timeOfDay te = 0)))) :
    parseEditLine t =
      match ParseDuration duration with
      | none => .error .durationParse
      | some tdur =>
        .ok { NewInterval (Split annotation ' ') with
                Begin := tdate, End := tdate, Duration := tdur, ID := id } := by
  rw [parseEditLine_of_fields t id date begin endS duration annotation tdate hfields hdate]
  have hempty : parseTimeFormat "" = none := by decide
  rcases hcase with ⟨rfl, rfl⟩ | ⟨te, he, hb⟩
  · simp [hempty, formatTimeFormat_zero]
  · rcases hb with rfl | ⟨tb, hb, hmid⟩
    · simp [hempty, he, formatTimeFormat_zero]
    · obtain ⟨hh, mi, h1, h2, rfl⟩ := parseTimeFormat_some hb
      obtain ⟨hh', mi', h1', h2', rfl⟩ := parseTimeFormat_some he
      have fb := formatTimeFormat_midnight_iff hh mi h1 h2
      have fe := formatTimeFormat_midnight_iff hh' mi' h1' h2'
      simp only [hb, he, Option.isNone_some, Bool.false_eq_true, and_false, if_false,
        Option.getD_some, ne_eq, fb, fe]
      rcases hmid with h | h
      · simp [h]
      · simp [h]

/-- C2: on the example line of the spec, `[][2024-01-02][09:00][10:30][][meeting +work]`,
the pattern of `parseEditLine` finds only five fields, because `+` is not in its character
class and `[meeting +work]` is no match; the sixth variable stays empty, and the parsed
interval has the two times and the empty ID but no tag and no annotation, where
`Construct` on the sixth field split on spaces gives `Tags = ["work"]` and
`Annotation = "meeting"`. -/
theorem parseEditLine_spec_example :
    editFields "[][2024-01-02][09:00][10:30][][meeting +work]"
      = ["", "2024-01-02", "09:00", "10:30", ""]
  ∧ parseEditLine "[][2024-01-02][09:00][10:30][][meeting +work]"
      = .ok { Interval.zero with
                Begin := Date 2024 1 2 9 0 0, End := Date 2024 1 2 10 30 0 }
  ∧ (NewInterval (Split "meeting +work" ' ')).Tags = ["work"]
  ∧ Interval.Annotation (NewInterval (Split "meeting +work" ' ')) = "meeting"
  ∧ inFieldClass '+' = false := by
  decide

/-- C3, as the claim states it, fails: with a valid DATE, a BEGIN that is not a parseable
time (`xx`) and a valid DURATION, `parseEditLine` does not parse the DURATION but returns
the begin-time error. -/
theorem parseEditLine_bad_begin_is_error :
    parseTimeFormat "xx" = none
  ∧ ParseDuration "1h" = some Hour
  ∧ parseEditLine "[][2024-01-02][xx][10:00][1h][x]" = .error .beginParse := by
  decide

/-- The test for the END error reads `begin != ""`: an empty END is an error as soon as
BEGIN is filled, also with `00:00`, and an END that is not a time passes when BEGIN is
empty. -/
theorem parseEditLine_end_check_reads_begin :
    parseEditLine "[][2024-01-02][00:00][][1h][x]" = .error .endParse
  ∧ parseEditLine "[][2024-01-02][09:00][][1h][x]" = .error .endParse
  ∧ parseEditLine "[][2024-01-02][][zz][1h][x]"
      = .ok { NewInterval ["x"] with
                Begin := Date 2024 1 2 0 0 0, End := Date 2024 1 2 0 0 0, Duration := Hour } := by
  decide

/-- C3, amended: for every edit line with a valid DATE, (1) if BEGIN and END both parse to
times of day other than 00:00, the result has `Begin = DATE + BEGIN` and
`End = DATE + END`; (2) if BEGIN is filled and not a parseable time, `parseEditLine` fails
with the begin-time error; (3) if BEGIN is a parseable time and END is filled and not a
parseable time, it fails with the end-time error; (4) if BEGIN and END are both empty, or
END is a parseable time and BEGIN is either empty or a parseable time such that BEGIN or
END is 00:00, it parses DURATION, fails if DURATION is invalid, and otherwise returns
`Begin = End = DATE` with `Duration` set to the parsed value. -/
theorem parseEditLine_time_resolution
    (t id date begin endS duration annotation : String) (tdate : Int)
    (hfields : unpackSlice (editFields t)
      = some [id, date, begin, endS, duration, annotation])
    (hdate : parseDateFormat date = some tdate) :
    (∀ tb te : Int, parseTimeFormat begin = some tb → parseTimeFormat endS = some te →
        timeOfDay tb ≠ 0 → timeOfDay te ≠ 0 →
        parseEditLine t = .ok { NewInterval (Split annotation ' ') with
          Begin := tdate + timeOfDay tb, End := tdate + timeOfDay te, ID := id })
  ∧ (begin ≠ "" → parseTimeFormat begin = none → parseEditLine t = .error .beginParse)
  ∧ (parseTimeFormat begin ≠ none → endS ≠ "" → parseTimeFormat endS = none →
        parseEditLine t = .error .endParse)
  ∧ ((begin = "" ∧ endS = "")
      ∨ (∃ te, parseTimeFormat endS = some te
          ∧ (begin = "" ∨ ∃ tb, parseTimeFormat begin = some tb
              ∧ (timeOfDay tb = 0 ∨ timeOfDay te = 0))) →
        parseEditLine t =
          match ParseDuration duration with
          | none => .error .durationParse
          | some tdur =>
            .ok { NewInterval (Split annotation ' ') with
                    Begin := tdate, End := tdate, Duration := tdur, ID := id }) := by
  refine ⟨?_, ?_, ?_, ?_⟩
  · intro tb te hb he hbn hen
    exact parseEditLine_explicit t id date begin endS duration annotation tdate tb te
      hfields hdate hb he hbn hen
  · intro hne hb
    rw [parseEditLine_of_fields t id date begin endS duration annotation tdate hfields hdate]
    simp [hne, hb]
  · intro hb _ he
    have hne : begin ≠ "" := by
      intro h
      rw [h] at hb
      exact hb (by decide)
    have hb2 : (parseTimeFormat begin).isNone = false := by
      rw [Option.isNone_eq_false_iff, Option.isSome_iff_ne_none]; exact hb
    rw [parseEditLine_of_fields t id date begin endS duration annotation tdate hfields hdate]
    simp [hne, hb2, he]
  · intro hcase
    exact parseEditLine_durationOnly t id date begin endS duration annotation tdate
      hfields hdate hcase

theorem parseEditLine_time_resolution_witness :
    parseEditLine "[a1] [2024-01-02] [09:00] [10:30] [] [x]"
        = .ok { NewInterval (Split "x" ' ') with
                  Begin := Date 2024 1 2 0 0 0 + timeOfDay (Date 0 1 1 9 0 0)
                  End := Date 2024 1 2 0 0 0 + timeOfDay (Date 0 1 1 10 30 0)
                  ID := "a1" }
  ∧ parseEditLine "[a1] [2024-01-02] [] [] [1h30m] [x]"
        = (match ParseDuration "1h30m" with
          | none => .error .durationParse
          | some tdur =>
            .ok { NewInterval (Split "x" ' ') with
                    Begin := Date 2024 1 2 0 0 0, End := Date 2024 1 2 0 0 0
                    Duration := tdur, ID := "a1" }) :=
  ⟨(parseEditLine_time_resolution "[a1] [2024-01-02] [09:00] [10:30] [] [x]"
      "a1" "2024-01-02" "09:00" "10:30" "" "x" (Date 2024 1 2 0 0 0)
      (by decide) (by decide)).1 (Date 0 1 1 9 0 0) (Date 0 1 1 10 30 0)
      (by decide) (by decide) (by decide) (by decide),
   (parseEditLine_time_resolution "[a1] [2024-01-02] [] [] [1h30m] [x]"
      "a1" "2024-01-02" "" "" "1h30m" "x" (Date 2024 1 2 0 0 0)
      (by decide) (by decide)).2.2.2 (Or.inl ⟨rfl, rfl⟩)⟩

/-! ## Calendar: the day count and the civil date are inverse to each other -/

set_option maxRecDepth 100000 in
theorem monthDayOfYday_spec :
    ∀ yday, yday < 366 → ∀ leap : Bool, (leap = false → yday < 365) →
      1 ≤ (monthDayOfYday leap yday).1 ∧ (monthDayOfYday leap yday).1 ≤ 12
      ∧ 1 ≤ (monthDayOfYday leap yday).2
      ∧ (monthDayOfYday leap yday).2 ≤
          (if (monthDayOfYday leap yday).1 = 2 ∧ leap = true then 29
           else daysBefore.getD (monthDayOfYday leap yday).1 0
                - daysBefore.getD ((monthDayOfYday leap yday).1 - 1) 0)
      ∧ daysBefore.getD ((monthDayOfYday leap yday).1 - 1) 0
          + (if leap = true ∧ 3 ≤ (monthDayOfYday leap yday).1 then 1 else 0)
          + ((monthDayOfYday leap yday).2 - 1) = yday := by
  decide

theorem isLeap_eq_true_iff (y : Int) :
    isLeap y = true ↔ y % 4 = 0 ∧ (y % 100 ≠ 0 ∨ y % 400 = 0) := by
  unfold isLeap
  simp only [Bool.and_eq_true, Bool.or_eq_true, decide_eq_true_eq, ne_eq]

theorem isLeap_eq_false_iff (y : Int) :
    isLeap y = false ↔ ¬ (y % 4 = 0 ∧ (y % 100 ≠ 0 ∨ y % 400 = 0)) := by
  rw [← isLeap_eq_true_iff, Bool.not_eq_true]

/-- The arithmetic of the cycle cutting in `civilOfDays`, on named intermediate values. -/
theorem cycle_arith (d b d1 c n100 d2 f d3 g n1 d4 y : Int)
    (h1 : b = d / 146097) (h2 : d1 = d - 146097 * b)
    (h3 : c = d1 / 36524) (h4 : n100 = c - c / 4) (h5 : d2 = d1 - 36524 * n100)
    (h6 : f = d2 / 1461) (h7 : d3 = d2 - 1461 * f)
    (h8 : g = d3 / 365) (h9 : n1 = g - g / 4) (h10 : d4 = d3 - 365 * n1)
    (h11 : y = 400 * b + 100 * n100 + 4 * f + n1 + 1) :
    0 ≤ d4 ∧ d4 < 366
    ∧ (¬ (y % 4 = 0 ∧ (y % 100 ≠ 0 ∨ y % 400 = 0)) → d4 < 365)
    ∧ 365 * (y - 1) + (y - 1) / 4 - (y - 1) / 100 + (y - 1) / 400 + d4 = d := by
  have hd1 : 0 ≤ d1 ∧ d1 < 146097 := by omega
  have hc : c = 0 ∨ c = 1 ∨ c = 2 ∨ c = 3 ∨ c = 4 := by omega
  have hd2 : 0 ≤ d2 ∧ d2 ≤ 36524 := by
    rcases hc with hc | hc | hc | hc | hc <;> subst hc <;> omega
  have hf : 0 ≤ f ∧ f ≤ 24 := by omega
  have hd3 : 0 ≤ d3 ∧ d3 < 1461 := by omega
  have hg : g = 0 ∨ g = 1 ∨ g = 2 ∨ g = 3 ∨ g = 4 := by omega
  have hn100 : 0 ≤ n100 ∧ n100 ≤ 3 := by
    rcases hc with hc | hc | hc | hc | hc <;> subst hc <;> omega
  have hn1 : 0 ≤ n1 ∧ n1 ≤ 3 := by
    rcases hg with hg | hg | hg | hg | hg <;> subst hg <;> omega
  have hd4 : 0 ≤ d4 ∧ d4 < 366 ∧ (d4 = 365 → n1 = 3) := by
    rcases hg with hg | hg | hg | hg | hg <;> subst hg <;> omega
  have hf24 : d4 = 365 → f = 24 → n100 = 3 := by
    rcases hc with hc | hc | hc | hc | hc <;> subst hc <;>
      rcases hg with hg | hg | hg | hg | hg <;> subst hg <;> omega
  have hy1 : y - 1 = 400 * b + 100 * n100 + 4 * f + n1 := by omega
  have q4 : (y - 1) / 4 = 100 * b + 25 * n100 + f := by omega
  have q100 : (y - 1) / 100 = 4 * b + n100 := by omega
  have q400 : (y - 1) / 400 = b := by omega
  have hsum : d = 146097 * b + 36524 * n100 + 1461 * f + 365 * n1 + d4 := by omega
  refine ⟨hd4.1, hd4.2.1, ?_, ?_⟩
  · intro hnl
    by_contra hge
    have h365 : d4 = 365 := by omega
    have hn3 := hd4.2.2 h365
    have hy4 : y % 4 = 0 := by omega
    by_cases hf' : f = 24
    · have := hf24 h365 hf'
      have hy400 : y % 400 = 0 := by omega
      exact hnl ⟨hy4, Or.inr hy400⟩
    · have hy100 : y % 100 ≠ 0 := by omega
      exact hnl ⟨hy4, Or.inl hy100⟩
  · rw [q4, q100, q400]
    omega

/-- The first half of `civilOfDays`: the year and the day of the year add up to the day
count, and the day of the year is inside the year. -/
theorem civilOfDays_year (d : Int) :
    ∃ (y : Int) (yd : Nat), civilOfDays d = (y, monthDayOfYday (isLeap y) yd)
      ∧ yd < 366 ∧ (isLeap y = false → yd < 365) ∧ daysBeforeYear y + yd = d := by
  obtain ⟨h0, h366, hleap, hsum⟩ := cycle_arith d _ _ _ _ _ _ _ _ _ _ _
    rfl rfl rfl rfl rfl rfl rfl rfl rfl rfl rfl
  refine ⟨_, _, rfl, ?_, ?_, ?_⟩
  · omega
  · intro hl
    have := hleap ((isLeap_eq_false_iff _).mp hl)
    omega
  · unfold daysBeforeYear
    rw [Int.toNat_of_nonneg h0]
    exact hsum

/-- `civilOfDays` gives a valid date whose day count, computed as `Date` does, is the day
it was given. -/
theorem civilOfDays_spec (d : Int) :
    1 ≤ (civilOfDays d).2.1 ∧ (civilOfDays d).2.1 ≤ 12
    ∧ 1 ≤ (civilOfDays d).2.2
    ∧ (civilOfDays d).2.2 ≤ daysIn (civilOfDays d).2.1 (civilOfDays d).1
    ∧ daysBeforeYear (civilOfDays d).1
        + daysBefore.getD ((civilOfDays d).2.1 - 1) 0
        + (if isLeap (civilOfDays d).1 ∧ 3 ≤ (civilOfDays d).2.1 then 1 else 0)
        + ((civilOfDays d).2.2 - 1 : Nat) = d := by
  obtain ⟨y, yd, hc, h366, hleap, hsum⟩ := civilOfDays_year d
  obtain ⟨m1, m12, d1, dmax, hyd⟩ := monthDayOfYday_spec yd h366 (isLeap y) hleap
  rw [hc]
  refine ⟨m1, m12, d1, ?_, ?_⟩
  · unfold daysIn
    exact dmax
  · have : ((daysBefore.getD ((monthDayOfYday (isLeap y) yd).1 - 1) 0
          + (if isLeap y = true ∧ 3 ≤ (monthDayOfYday (isLeap y) yd).1 then 1 else 0)
          + ((monthDayOfYday (isLeap y) yd).2 - 1) : Nat) : Int) = yd := by
      rw [hyd]
    push_cast at this
    simp only [] at this ⊢
    omega

/-! ## Decimal digits -/

theorem digitChar_spec :
    ∀ n, n < 10 → (isDigit (digitChar n) = true ∧ digitVal (digitChar n) = n
      ∧ inFieldClass (digitChar n) = true ∧ digitChar n ≠ ' ' ∧ digitChar n ≠ '\n'
      ∧ digitChar n ≠ '[' ∧ digitChar n ≠ ']' ∧ digitChar n ≠ '.') := by
  decide

theorem fmtIntAux_acc (fuel v : Nat) (acc : List Char) :
    fmtIntAux fuel v acc = fmtIntAux fuel v [] ++ acc := by
  induction fuel generalizing v acc with
  | zero => simp [fmtIntAux]
  | succ n ih =>
    unfold fmtIntAux
    by_cases h : v / 10 = 0
    · simp [h]
    · simp only [h, if_false]
      rw [ih (v / 10) (digitChar (v % 10) :: acc), ih (v / 10) [digitChar (v % 10)]]
      simp

theorem fmtIntAux_fuel (fuel fuel' v : Nat) (h : v < fuel) (h' : v < fuel') :
    fmtIntAux fuel v [] = fmtIntAux fuel' v [] := by
  induction fuel generalizing v fuel' with
  | zero => omega
  | succ n ih =>
    cases fuel' with
    | zero => omega
    | succ n' =>
      unfold fmtIntAux
      by_cases hz : v / 10 = 0
      · simp [hz]
      · simp only [hz, if_false]
        have hv : v / 10 < v := by omega
        rw [fmtIntAux_acc n, fmtIntAux_acc n', ih n' (v / 10) (by omega) (by omega)]

/-- `fmtInt` digit by digit. -/
theorem fmtInt_rec (v : Nat) :
    fmtInt v = if v < 10 then [digitChar v] else fmtInt (v / 10) ++ [digitChar (v % 10)] := by
  unfold fmtInt
  rw [show fmtIntAux (v + 1) v [] =
      (if v / 10 = 0 then [digitChar (v % 10)]
       else fmtIntAux v (v / 10) [digitChar (v % 10)]) from rfl]
  by_cases h : v < 10
  · have h0 : v / 10 = 0 := by omega
    have hm : v % 10 = v := by omega
    simp [h, h0, hm]
  · have h0 : ¬ v / 10 = 0 := by omega
    simp only [h, h0, if_false]
    rw [fmtIntAux_acc, fmtIntAux_fuel v (v / 10 + 1) (v / 10) (by omega) (by omega)]

theorem fmtInt_digits (v : Nat) : ∀ c ∈ fmtInt v, isDigit c = true := by
  induction v using Nat.strong_induction_on with
  | _ v ih =>
    rw [fmtInt_rec]
    by_cases h : v < 10
    · simp only [h, if_true, List.mem_singleton]
      rintro c rfl
      exact (digitChar_spec v h).1
    · simp only [h, if_false, List.mem_append, List.mem_singleton]
      rintro c (hc | rfl)
      · exact ih (v / 10) (by omega) c hc
      · exact (digitChar_spec (v % 10) (by omega)).1

theorem fmtInt_ne_nil (v : Nat) : fmtInt v ≠ [] := by
  rw [fmtInt_rec]
  by_cases h : v < 10 <;> simp [h]

/-- The four characters `appendInt` writes for a year from 0 to 9999. -/
theorem appendInt_four (y : Nat) (h : y < 10000) :
    appendInt (y : Int) 4 = [digitChar (y / 1000), digitChar (y / 100 % 10),
      digitChar (y / 10 % 10), digitChar (y % 10)] := by
  have hneg : ¬ ((y : Int) < 0) := by omega
  unfold appendInt
  simp only [hneg, if_false, List.nil_append, Int.natAbs_ofNat]
  by_cases h1 : y < 10
  · rw [fmtInt_rec]
    have e1 : y / 1000 = 0 := by omega
    have e2 : y / 100 % 10 = 0 := by omega
    have e3 : y / 10 % 10 = 0 := by omega
    have e4 : y % 10 = y := by omega
    simp only [h1, if_true, e1, e2, e3, e4]
    rfl
  by_cases h2 : y < 100
  · rw [fmtInt_rec, fmtInt_rec (y / 10)]
    have e1 : y / 1000 = 0 := by omega
    have e2 : y / 100 % 10 = 0 := by omega
    have e3 : y / 10 % 10 = y / 10 := by omega
    have hb : y / 10 < 10 := by omega
    simp only [h1, hb, if_true, if_false, e1, e2, e3]
    rfl
  by_cases h3 : y < 1000
  · rw [fmtInt_rec, fmtInt_rec (y / 10), fmtInt_rec (y / 10 / 10)]
    have e1 : y / 1000 = 0 := by omega
    have e2 : y / 100 % 10 = y / 10 / 10 := by omega
    have hb : ¬ y / 10 < 10 := by omega
    have hc : y / 10 / 10 < 10 := by omega
    simp only [h1, hb, hc, if_true, if_false, e1, e2]
    rfl
  · rw [fmtInt_rec, fmtInt_rec (y / 10), fmtInt_rec (y / 10 / 10),
      fmtInt_rec (y / 10 / 10 / 10)]
    have e1 : y / 1000 = y / 10 / 10 / 10 := by omega
    have e2 : y / 100 % 10 = y / 10 / 10 % 10 := by omega
    have hb : ¬ y / 10 < 10 := by omega
    have hc : ¬ y / 10 / 10 < 10 := by omega
    have hd : y / 10 / 10 / 10 < 10 := by omega
    simp only [h1, hb, hc, hd, if_true, if_false, e1, e2]
    rfl

/-- The two characters `appendInt` writes for a number below 100. -/
theorem appendInt_two (x : Nat) (h : x < 100) :
    appendInt (x : Int) 2 = [digitChar (x / 10), digitChar (x % 10)] := by
  have hneg : ¬ ((x : Int) < 0) := by omega
  unfold appendInt
  simp only [hneg, if_false, List.nil_append, Int.natAbs_ofNat]
  by_cases h1 : x < 10
  · rw [fmtInt_rec]
    have e1 : x / 10 = 0 := by omega
    have e4 : x % 10 = x := by omega
    simp only [h1, if_true, e1, e4]
    rfl
  · rw [fmtInt_rec, fmtInt_rec (x / 10)]
    have hb : x / 10 < 10 := by omega
    simp only [h1, hb, if_true, if_false]
    rfl

/-! ## `Format` then `Parse` -/

theorem getnum_two (a b : Nat) (ha : a < 10) (hb : b < 10) (rest : List Char) :
    getnum (digitChar a :: digitChar b :: rest) true = some (a * 10 + b, rest) := by
  obtain ⟨a1, a2, _⟩ := digitChar_spec a ha
  obtain ⟨b1, b2, _⟩ := digitChar_spec b hb
  simp [getnum, a1, a2, b1, b2]

theorem getnum_two_free (a b : Nat) (ha : a < 10) (hb : b < 10) (rest : List Char) :
    getnum (digitChar a :: digitChar b :: rest) false = some (a * 10 + b, rest) := by
  obtain ⟨a1, a2, _⟩ := digitChar_spec a ha
  obtain ⟨b1, b2, _⟩ := digitChar_spec b hb
  simp [getnum, a1, a2, b1, b2]

theorem parseDateFormat_digits (y m dd : Nat) (hy : y < 10000) (hm1 : 1 ≤ m) (hm : m ≤ 12)
    (hd1 : 1 ≤ dd) (hd : dd ≤ daysIn m y) (hd99 : dd < 100) :
    parseDateFormat ⟨appendInt (y : Int) 4 ++ ['-'] ++ appendInt (m : Int) 2 ++ ['-']
        ++ appendInt (dd : Int) 2⟩
      = some (Date y m dd 0 0 0) := by
  rw [appendInt_four y hy, appendInt_two m (by omega), appendInt_two dd hd99]
  obtain ⟨y1, y1v, _⟩ := digitChar_spec (y / 1000) (by omega)
  obtain ⟨y2, y2v, _⟩ := digitChar_spec (y / 100 % 10) (by omega)
  obtain ⟨y3, y3v, _⟩ := digitChar_spec (y / 10 % 10) (by omega)
  obtain ⟨y4, y4v, _⟩ := digitChar_spec (y % 10) (by omega)
  have g1 := getnum_two (m / 10) (m % 10) (by omega) (by omega)
    (['-'] ++ [digitChar (dd / 10), digitChar (dd % 10)])
  have g2 := getnum_two (dd / 10) (dd % 10) (by omega) (by omega) []
  have ey : ((y / 1000 * 10 + y / 100 % 10) * 10 + y / 10 % 10) * 10 + y % 10 = y := by
    omega
  have em : m / 10 * 10 + m % 10 = m := by omega
  have ed : dd / 10 * 10 + dd % 10 = dd := by omega
  have hm0 : ¬ (m = 0 ∨ 12 < m) := by omega
  have hdd : ¬ (dd < 1 ∨ daysIn m (y : Int) < dd) := by omega
  unfold parseDateFormat
  simp only [List.cons_append, List.nil_append, List.singleton_append] at g1 ⊢
  simp only [y1, y2, y3, y4, y1v, y2v, y3v, y4v, Bool.and_self, Bool.not_true,
    Bool.false_eq_true, if_false, ne_eq, not_true_eq_false, g1, g2, ey, em, ed, hm0, hdd]

/-- For a time whose year is between 0 and 9999, `time.Parse(dateFormat, ·)` reads what
`Format(dateFormat)` writes as 00:00 of the same day. -/
theorem parse_format_date (t : Int)
    (hy0 : 0 ≤ (civilOfDays (t / (24 * Hour))).1)
    (hy9 : (civilOfDays (t / (24 * Hour))).1 ≤ 9999) :
    parseDateFormat (formatDateFormat t) = some (t - t % (24 * Hour)) := by
  obtain ⟨m1, m12, d1, dmax, hsum⟩ := civilOfDays_spec (t / (24 * Hour))
  obtain ⟨y, hyy⟩ := Int.eq_ofNat_of_zero_le hy0
  rw [hyy] at hsum dmax hy9
  have hdd : (civilOfDays (t / (24 * Hour))).2.2 < 100 := by
    have : daysIn (civilOfDays (t / (24 * Hour))).2.1 (y : Int) ≤ 31 := by
      unfold daysIn
      have hm := m12
      have h1 := m1
      generalize (civilOfDays (t / (24 * Hour))).2.1 = m at hm h1 ⊢
      interval_cases m <;> (split <;> simp [daysBefore])
    omega
  have key := parseDateFormat_digits y (civilOfDays (t / (24 * Hour))).2.1
    (civilOfDays (t / (24 * Hour))).2.2 (by omega) m1 m12 d1 dmax hdd
  unfold formatDateFormat
  simp only [hyy]
  rw [key]
  congr 1
  unfold Date
  simp only [hsum]
  have eD : (24 * Hour : Int) = 86400000000000 := by decide
  have eS : Second = 1000000000 := by decide
  rw [eD, eS]
  push_cast
  omega

theorem clock_range (t : Int) :
    0 ≤ hourOf t ∧ hourOf t < 24 ∧ 0 ≤ minuteOf t ∧ minuteOf t < 60 := by
  unfold hourOf minuteOf
  have eS : Second = 1000000000 := by decide
  rw [eS]
  omega

/-- `time.Parse(timeFormat, ·)` reads what `Format(timeFormat)` writes as the same hour and
minute (on January 1st of year 0). -/
theorem parse_format_time (t : Int) :
    parseTimeFormat (formatTimeFormat t)
      = some (Date 0 1 1 (hourOf t).toNat (minuteOf t).toNat 0) := by
  obtain ⟨h0, h24, m0, m60⟩ := clock_range t
  obtain ⟨hh, hhe⟩ := Int.eq_ofNat_of_zero_le h0
  obtain ⟨mi, mie⟩ := Int.eq_ofNat_of_zero_le m0
  have hh24 : hh < 24 := by omega
  have mi60 : mi < 60 := by omega
  unfold formatTimeFormat
  rw [hhe, mie, Int.toNat_ofNat, Int.toNat_ofNat]
  rw [appendInt_two hh (by omega), appendInt_two mi (by omega)]
  have g1 := getnum_two_free (hh / 10) (hh % 10) (by omega) (by omega)
    ([':'] ++ [digitChar (mi / 10), digitChar (mi % 10)])
  have g2 := getnum_two (mi / 10) (mi % 10) (by omega) (by omega) []
  have eh : hh / 10 * 10 + hh % 10 = hh := by omega
  have em : mi / 10 * 10 + mi % 10 = mi := by omega
  have h24' : ¬ (24 ≤ hh) := by omega
  have h60' : ¬ (60 ≤ mi) := by omega
  unfold parseTimeFormat
  simp only [List.cons_append, List.nil_append, List.singleton_append] at g1 ⊢
  simp only [g1, g2, eh, em, h24', h60', if_false, ne_eq, not_true_eq_false]

/-- A time at a whole minute is the start of its day plus its hour and minute. -/
theorem whole_minute_split (t : Int) (hmin : t % Minute = 0) :
    t - t % (24 * Hour) + (hourOf t * Hour + minuteOf t * Minute) = t
  ∧ (timeOfDay t = 0 ↔ hourOf t = 0 ∧ minuteOf t = 0) := by
  have eD : (24 * Hour : Int) = 86400000000000 := by decide
  have eH : Hour = 3600000000000 := by decide
  have eM : Minute = 60000000000 := by decide
  have eS : Second = 1000000000 := by decide
  unfold hourOf minuteOf timeOfDay
  rw [eD, eH, eM, eS]
  rw [eM] at hmin
  constructor <;> omega

theorem formatTimeFormat_chars (t : Int) :
    ∀ c ∈ (formatTimeFormat t).data, inFieldClass c = true ∧ c ≠ ' ' := by
  obtain ⟨h0, h24, m0, m60⟩ := clock_range t
  obtain ⟨hh, hhe⟩ := Int.eq_ofNat_of_zero_le h0
  obtain ⟨mi, mie⟩ := Int.eq_ofNat_of_zero_le m0
  have hh24 : hh < 24 := by omega
  have mi60 : mi < 60 := by omega
  unfold formatTimeFormat
  rw [hhe, mie, appendInt_two hh (by omega), appendInt_two mi (by omega)]
  obtain ⟨_, _, a1, a2, _⟩ := digitChar_spec (hh / 10) (by omega)
  obtain ⟨_, _, b1, b2, _⟩ := digitChar_spec (hh % 10) (by omega)
  obtain ⟨_, _, c1, c2, _⟩ := digitChar_spec (mi / 10) (by omega)
  obtain ⟨_, _, d1, d2, _⟩ := digitChar_spec (mi % 10) (by omega)
  intro c hc
  simp only [List.cons_append, List.nil_append, List.mem_cons, List.mem_singleton,
    List.not_mem_nil, or_false] at hc
  rcases hc with rfl | rfl | rfl | rfl | rfl
  · exact ⟨a1, a2⟩
  · exact ⟨b1, b2⟩
  · exact ⟨by decide, by decide⟩
  · exact ⟨c1, c2⟩
  · exact ⟨d1, d2⟩

theorem formatDateFormat_chars (t : Int)
    (hy0 : 0 ≤ (civilOfDays (t / (24 * Hour))).1)
    (hy9 : (civilOfDays (t / (24 * Hour))).1 ≤ 9999) :
    ∀ c ∈ (formatDateFormat t).data, inFieldClass c = true ∧ c ≠ ' ' := by
  obtain ⟨m1, m12, d1, dmax, hsum⟩ := civilOfDays_spec (t / (24 * Hour))
  obtain ⟨y, hyy⟩ := Int.eq_ofNat_of_zero_le hy0
  rw [hyy] at dmax hy9
  have hdd : (civilOfDays (t / (24 * Hour))).2.2 < 100 := by
    have : daysIn (civilOfDays (t / (24 * Hour))).2.1 (y : Int) ≤ 31 := by
      unfold daysIn
      have hm := m12
      have h1 := m1
      generalize (civilOfDays (t / (24 * Hour))).2.1 = m at hm h1 ⊢
      interval_cases m <;> (split <;> simp [daysBefore])
    omega
  unfold formatDateFormat
  simp only [hyy]
  rw [appendInt_four y (by omega), appendInt_two _ (by omega), appendInt_two _ hdd]
  intro c hc
  simp only [List.cons_append, List.nil_append, List.mem_cons, List.mem_singleton,
    List.not_mem_nil, or_false] at hc
  have dig : ∀ n, n < 10 → inFieldClass (digitChar n) = true ∧ digitChar n ≠ ' ' := by
    intro n hn
    obtain ⟨_, _, a1, a2, _⟩ := digitChar_spec n hn
    exact ⟨a1, a2⟩
  rcases hc with rfl | rfl | rfl | rfl | rfl | rfl | rfl | rfl | rfl | rfl
  · exact dig _ (by omega)
  · exact dig _ (by omega)
  · exact dig _ (by omega)
  · exact dig _ (by omega)
  · exact ⟨by decide, by decide⟩
  · exact dig _ (by omega)
  · exact dig _ (by omega)
  · exact ⟨by decide, by decide⟩
  · exact dig _ (by omega)
  · exact dig _ (by omega)

/-! ## `Duration.String` then `ParseDuration`, for whole seconds -/

theorem leadingInt_digit (c : Char) (s : List Char) (x : Nat) (hc : isDigit c = true)
    (hb : x * 10 + digitVal c ≤ 9223372036854775808) :
    leadingInt (c :: s) x = leadingInt s (x * 10 + digitVal c) := by
  have p63 : (2 : Nat) ^ 63 = 9223372036854775808 := by norm_num
  have c1 : ¬ (9223372036854775808 / 10 < x) := by omega
  have c2 : ¬ (9223372036854775808 < x * 10 + digitVal c) := by omega
  rw [leadingInt]
  simp only [hc, if_true, p63, c1, c2, if_false]

theorem leadingInt_stop (c : Char) (s : List Char) (x : Nat) (hc : isDigit c = false) :
    leadingInt (c :: s) x = some (x, c :: s) := by
  rw [leadingInt]
  simp [hc]

theorem leadingInt_fmtInt (v : Nat) :
    ∀ (x : Nat) (rest : List Char),
      x * 10 ^ (fmtInt v).length + v ≤ 9223372036854775808 →
      leadingInt (fmtInt v ++ rest) x = leadingInt rest (x * 10 ^ (fmtInt v).length + v) := by
  induction v using Nat.strong_induction_on with
  | _ v ih =>
    intro x rest hb
    rw [fmtInt_rec] at hb ⊢
    by_cases h : v < 10
    · simp only [h, if_true, List.length_singleton, pow_one, List.singleton_append] at hb ⊢
      obtain ⟨d1, d2, _⟩ := digitChar_spec v h
      rw [leadingInt_digit _ _ _ d1 (by rw [d2]; exact hb), d2]
    · simp only [h, if_false, List.length_append, List.length_singleton, List.append_assoc,
        List.singleton_append] at hb ⊢
      have e : x * 10 ^ ((fmtInt (v / 10)).length + 1)
          = x * 10 ^ (fmtInt (v / 10)).length * 10 := by ring
      rw [e] at hb ⊢
      obtain ⟨d1, d2, _⟩ := digitChar_spec (v % 10) (by omega)
      rw [ih (v / 10) (by omega) x _ (by omega),
        leadingInt_digit _ _ _ d1 (by rw [d2]; omega), d2]
      congr 1
      omega

/-- A number written by `fmtInt` in front of a character that is no digit is read back. -/
theorem leadingInt_fmtInt_unit (v : Nat) (u : Char) (rest : List Char)
    (hu : isDigit u = false) (hv : v ≤ 9223372036854775808) :
    leadingInt (fmtInt v ++ u :: rest) 0 = some (v, u :: rest) := by
  rw [leadingInt_fmtInt v 0 _ (by omega), leadingInt_stop _ _ _ hu]
  simp

theorem fmtInt_cons (v : Nat) : ∃ c tl, fmtInt v = c :: tl ∧ isDigit c = true := by
  cases h : fmtInt v with
  | nil => exact absurd h (fmtInt_ne_nil v)
  | cons c tl =>
    refine ⟨c, tl, rfl, ?_⟩
    exact fmtInt_digits v c (by rw [h]; exact List.mem_cons_self _ _)

/-- One round of the loop of `ParseDuration` on a number written by `fmtInt` and one of
the units `h`, `m`, `s`. -/
theorem parseDurationLoop_group (fuel v : Nat) (u : Char) (unit : Nat) (rest : List Char)
    (acc : Nat) (hfuel : 0 < fuel)
    (hu : (u = 'h' ∧ unit = 3600000000000) ∨ (u = 'm' ∧ unit = 60000000000)
      ∨ (u = 's' ∧ unit = 1000000000))
    (hrest : rest = [] ∨ ∃ c tl, rest = c :: tl ∧ isDigit c = true)
    (hb : acc + v * unit ≤ 9223372036854775808) :
    parseDurationLoop fuel (fmtInt v ++ u :: rest) acc
      = parseDurationLoop (fuel - 1) rest (acc + v * unit) := by
  obtain ⟨k, rfl⟩ : ∃ k, fuel = k + 1 := ⟨fuel - 1, by omega⟩
  have hud : isDigit u = false ∧ (u = '.') = False ∧ unitMap [u] = some unit := by
    rcases hu with ⟨rfl, rfl⟩ | ⟨rfl, rfl⟩ | ⟨rfl, rfl⟩ <;> decide
  obtain ⟨hu1, hu2, hu3⟩ := hud
  have hv : v ≤ 9223372036854775808 := by
    rcases hu with ⟨_, rfl⟩ | ⟨_, rfl⟩ | ⟨_, rfl⟩ <;> omega
  have hlead := leadingInt_fmtInt_unit v u rest hu1 hv
  have htake : (u :: rest).takeWhile (fun c => !(decide (c = '.') || isDigit c)) = [u]
      ∧ (u :: rest).dropWhile (fun c => !(decide (c = '.') || isDigit c)) = rest := by
    rcases hrest with rfl | ⟨c, tl, rfl, hc⟩
    · simp [List.takeWhile, List.dropWhile, hu1, hu2]
    · simp [List.takeWhile, List.dropWhile, hu1, hu2, hc]
  obtain ⟨c, tl, hfmt, hc⟩ := fmtInt_cons v
  rw [hfmt] at hlead ⊢
  have p63 : (2 : Nat) ^ 63 = 9223372036854775808 := by norm_num
  have c1 : ¬ (9223372036854775808 / unit < v) := by
    rcases hu with ⟨_, rfl⟩ | ⟨_, rfl⟩ | ⟨_, rfl⟩ <;> omega
  have c2 : ¬ (9223372036854775808 < acc + v * unit) := by omega
  rw [List.cons_append, parseDurationLoop]
  simp only [hc, Bool.not_true, Bool.false_eq_true, if_false]
  rw [← List.cons_append, hlead]
  simp only [htake.1, htake.2, hu3, p63, c1, c2, if_false, List.cons_ne_nil,
    Nat.add_sub_cancel]

theorem fmtFracAux_zero (prec : Nat) :
    ∀ v, v % 10 ^ prec = 0 → fmtFracAux prec v false [] = ([], v / 10 ^ prec, false) := by
  induction prec with
  | zero => intro v _; simp [fmtFracAux]
  | succ p ih =>
    intro v hv
    have hdvd : 10 ^ (p + 1) ∣ v := Nat.dvd_of_mod_eq_zero hv
    have h10 : v % 10 = 0 :=
      Nat.mod_eq_zero_of_dvd (dvd_trans (Dvd.intro_left (10 ^ p) rfl) hdvd)
    have hp : (v / 10) % 10 ^ p = 0 := by
      apply Nat.mod_eq_zero_of_dvd
      apply Nat.dvd_div_of_mul_dvd
      rw [pow_succ, mul_comm] at hdvd
      exact hdvd
    rw [fmtFracAux]
    simp only [h10, ne_eq, not_true_eq_false, decide_False, Bool.or_false,
      Bool.false_eq_true, if_false]
    rw [ih (v / 10) hp, Nat.div_div_eq_div_mul, pow_succ, mul_comm]

/-- The three shapes `Duration.String` has for a whole number `s ≥ 1` of seconds. -/
theorem durationString_whole (d : Int) (s : Nat) (hs : 0 < s)
    (hd : d.natAbs = s * 1000000000) :
    durationString d = ⟨(if d < 0 then ['-'] else []) ++
      (if 0 < s / 60 then
        (if 0 < s / 60 / 60 then
          fmtInt (s / 60 / 60) ++ ['h'] ++ (fmtInt (s / 60 % 60) ++ ['m'])
            ++ (fmtInt (s % 60) ++ ['s'])
         else fmtInt (s / 60 % 60) ++ ['m'] ++ (fmtInt (s % 60) ++ ['s']))
       else fmtInt (s % 60) ++ ['s'])⟩ := by
  have h0 : ¬ (d.natAbs = 0) := by omega
  have h1 : ¬ (d.natAbs < 1000000000) := by omega
  have hmod : d.natAbs % 10 ^ 9 = 0 := by rw [hd]; norm_num
  have hfrac : fmtFrac d.natAbs 9 = ([], s) := by
    unfold fmtFrac
    rw [fmtFracAux_zero 9 _ hmod, hd]
    norm_num
  unfold durationString
  simp only [h0, h1, if_false, hfrac, List.append_nil]

theorem unit_chars : ∀ u : Char, (u = 'h' ∨ u = 'm' ∨ u = 's') →
    (inFieldClass u = true ∧ u ≠ ' ') := by
  intro u hu
  rcases hu with rfl | rfl | rfl <;> decide

theorem fmtInt_chars (v : Nat) : ∀ c ∈ fmtInt v, inFieldClass c = true ∧ c ≠ ' ' := by
  intro c hc
  have hd := fmtInt_digits v c hc
  unfold isDigit at hd
  unfold inFieldClass isDigit
  simp only [Bool.and_eq_true, decide_eq_true_eq] at hd
  refine ⟨by simp [hd.1, hd.2], ?_⟩
  rintro rfl
  exact absurd hd.1 (by decide)

/-- The body of `Duration.String` for `s ≥ 1` whole seconds is read back by the loop of
`ParseDuration`; it starts with a digit, has at least two characters, and consists of
field characters other than the space. -/
theorem parseDurationLoop_hms (s : Nat) (hs : 0 < s)
    (hb : s * 1000000000 ≤ 9223372036854775808) (body : List Char)
    (hbody : body =
      (if 0 < s / 60 then
        (if 0 < s / 60 / 60 then
          fmtInt (s / 60 / 60) ++ ['h'] ++ (fmtInt (s / 60 % 60) ++ ['m'])
            ++ (fmtInt (s % 60) ++ ['s'])
         else fmtInt (s / 60 % 60) ++ ['m'] ++ (fmtInt (s % 60) ++ ['s']))
       else fmtInt (s % 60) ++ ['s'])) :
    parseDurationLoop body.length body 0 = some (s * 1000000000)
    ∧ (∃ c tl, body = c :: tl ∧ isDigit c = true ∧ tl ≠ [])
    ∧ (∀ c ∈ body, inFieldClass c = true ∧ c ≠ ' ') := by
  obtain ⟨c1, t1, e1, dc1⟩ := fmtInt_cons (s % 60)
  obtain ⟨c2, t2, e2, dc2⟩ := fmtInt_cons (s / 60 % 60)
  obtain ⟨c3, t3, e3, dc3⟩ := fmtInt_cons (s / 60 / 60)
  have l1 : 0 < (fmtInt (s % 60)).length := by rw [e1]; simp
  have l2 : 0 < (fmtInt (s / 60 % 60)).length := by rw [e2]; simp
  have l3 : 0 < (fmtInt (s / 60 / 60)).length := by rw [e3]; simp
  have hchars : ∀ c ∈ body, inFieldClass c = true ∧ c ≠ ' ' := by
    intro c hc
    rw [hbody] at hc
    have hsplit : c ∈ fmtInt (s / 60 / 60) ∨ c ∈ fmtInt (s / 60 % 60) ∨ c ∈ fmtInt (s % 60)
        ∨ c = 'h' ∨ c = 'm' ∨ c = 's' := by
      split at hc
      · split at hc
        · simp only [List.append_assoc, List.mem_append, List.mem_singleton,
            List.cons_append, List.nil_append, List.mem_cons] at hc
          tauto
        · simp only [List.append_assoc, List.mem_append, List.mem_singleton,
            List.cons_append, List.nil_append, List.mem_cons] at hc
          tauto
      · simp only [List.mem_append, List.mem_singleton] at hc
        tauto
    rcases hsplit with h | h | h | h | h | h
    · exact fmtInt_chars _ c h
    · exact fmtInt_chars _ c h
    · exact fmtInt_chars _ c h
    · exact unit_chars c (Or.inl h)
    · exact unit_chars c (Or.inr (Or.inl h))
    · exact unit_chars c (Or.inr (Or.inr h))
  have g1 : ∀ fuel acc, 0 < fuel → acc + s % 60 * 1000000000 ≤ 9223372036854775808 →
      parseDurationLoop fuel (fmtInt (s % 60) ++ 's' :: []) acc
        = some (acc + s % 60 * 1000000000) := by
    intro fuel acc hf hacc
    rw [parseDurationLoop_group fuel (s % 60) 's' 1000000000 [] acc hf
      (Or.inr (Or.inr ⟨rfl, rfl⟩)) (Or.inl rfl) hacc, parseDurationLoop]
  have g2 : ∀ fuel acc, 1 < fuel →
      acc + s / 60 % 60 * 60000000000 + s % 60 * 1000000000 ≤ 9223372036854775808 →
      parseDurationLoop fuel (fmtInt (s / 60 % 60) ++ 'm' :: (fmtInt (s % 60) ++ 's' :: []))
        acc = some (acc + s / 60 % 60 * 60000000000 + s % 60 * 1000000000) := by
    intro fuel acc hf hacc
    rw [parseDurationLoop_group fuel (s / 60 % 60) 'm' 60000000000 _ acc (by omega)
      (Or.inr (Or.inl ⟨rfl, rfl⟩)) (Or.inr ⟨c1, t1 ++ 's' :: [], by rw [e1]; rfl, dc1⟩)
      (by omega), g1 _ _ (by omega) hacc]
  have g3 : ∀ fuel, 2 < fuel →
      parseDurationLoop fuel (fmtInt (s / 60 / 60) ++ 'h' ::
          (fmtInt (s / 60 % 60) ++ 'm' :: (fmtInt (s % 60) ++ 's' :: []))) 0
        = some (0 + s / 60 / 60 * 3600000000000 + s / 60 % 60 * 60000000000
            + s % 60 * 1000000000) := by
    intro fuel hf
    rw [parseDurationLoop_group fuel (s / 60 / 60) 'h' 3600000000000 _ 0 (by omega)
      (Or.inl ⟨rfl, rfl⟩)
      (Or.inr ⟨c2, t2 ++ 'm' :: (fmtInt (s % 60) ++ 's' :: []), by rw [e2]; rfl, dc2⟩)
      (by omega), g2 _ _ (by omega) (by omega)]
  refine ⟨?_, ?_, hchars⟩
  · by_cases hm : 0 < s / 60
    · by_cases hh : 0 < s / 60 / 60
      · simp only [hm, hh, if_true] at hbody
        have hb' : body = fmtInt (s / 60 / 60) ++ 'h' ::
            (fmtInt (s / 60 % 60) ++ 'm' :: (fmtInt (s % 60) ++ 's' :: [])) := by
          rw [hbody]; simp
        rw [hb', g3 _ (by simp only [List.length_append, List.length_cons]; omega)]
        congr 1
        omega
      · simp only [hm, hh, if_true, if_false] at hbody
        have hb' : body = fmtInt (s / 60 % 60) ++ 'm' :: (fmtInt (s % 60) ++ 's' :: []) := by
          rw [hbody]; simp
        rw [hb', g2 _ 0 (by simp only [List.length_append, List.length_cons]; omega)
          (by omega)]
        congr 1
        omega
    · simp only [hm, if_false] at hbody
      have hb' : body = fmtInt (s % 60) ++ 's' :: [] := hbody
      rw [hb', g1 _ 0 (by simp only [List.length_append, List.length_cons]; omega)
        (by omega)]
      congr 1
      omega
  · by_cases hm : 0 < s / 60
    · by_cases hh : 0 < s / 60 / 60
      · simp only [hm, hh, if_true] at hbody
        exact ⟨c3, t3 ++ (['h'] ++ (fmtInt (s / 60 % 60) ++ ['m'])
            ++ (fmtInt (s % 60) ++ ['s'])), by rw [hbody, e3]; simp, dc3, by simp⟩
      · simp only [hm, hh, if_true, if_false] at hbody
        exact ⟨c2, t2 ++ (['m'] ++ (fmtInt (s % 60) ++ ['s'])), by rw [hbody, e2]; simp,
          dc2, by simp⟩
    · simp only [hm, if_false] at hbody
      exact ⟨c1, t1 ++ ['s'], by rw [hbody, e1]; simp, dc1, by simp⟩

/-- `ParseDuration` around the loop, for a body that starts with a digit and has more than
one character: without sign, and behind a `-`. -/
theorem parseDuration_of_body (body : List Char) (n : Nat)
    (hstart : ∃ c tl, body = c :: tl ∧ isDigit c = true ∧ tl ≠ [])
    (hloop : parseDurationLoop body.length body 0 = some n) :
    ParseDuration ⟨body⟩ = (if 2 ^ 63 - 1 < n then none else some (n : Int))
    ∧ ParseDuration ⟨'-' :: body⟩ = some (-(n : Int)) := by
  obtain ⟨c, tl, rfl, hc, htl⟩ := hstart
  have hcm : c ≠ '-' ∧ c ≠ '+' := by
    constructor <;> (rintro rfl; exact absurd hc (by decide))
  have h0 : ¬ (c :: tl = ['0']) := by
    intro h
    simp only [List.cons.injEq] at h
    exact htl h.2
  constructor
  · unfold ParseDuration
    simp only [List.head?_cons, Option.some.injEq, hcm.1, hcm.2, or_self, if_false, h0,
      List.cons_ne_nil, hloop, decide_False, Bool.false_eq_true]
  · unfold ParseDuration
    simp only [List.head?_cons, true_or, if_true, h0, List.cons_ne_nil, if_false, hloop,
      decide_True]

/-- For a duration of whole seconds in the range of `int64`, `ParseDuration` reads back
what `Duration.String` writes, and the text consists of field characters other than the
space. -/
theorem parseDuration_durationString (d : Int) (hsec : d % Second = 0)
    (hlo : -9223372036854775808 ≤ d) (hhi : d ≤ 9223372036854775807) :
    ParseDuration (durationString d) = some d
    ∧ ∀ c ∈ (durationString d).data, inFieldClass c = true ∧ c ≠ ' ' := by
  have eS : Second = 1000000000 := by decide
  rw [eS] at hsec
  by_cases hd0 : d = 0
  · subst hd0
    exact ⟨by decide, by decide⟩
  · have hs : ∃ s : Nat, 0 < s ∧ d.natAbs = s * 1000000000 :=
      ⟨d.natAbs / 1000000000, by omega, by omega⟩
    obtain ⟨s, hs0, hsd⟩ := hs
    have hb : s * 1000000000 ≤ 9223372036854775808 := by omega
    obtain ⟨hloop, hstart, hchars⟩ := parseDurationLoop_hms s hs0 hb _ rfl
    obtain ⟨hpos, hneg⟩ := parseDuration_of_body _ _ hstart hloop
    rw [durationString_whole d s hs0 hsd]
    by_cases hn : d < 0
    · simp only [hn, if_true, List.singleton_append]
      refine ⟨?_, ?_⟩
      · rw [hneg]
        congr 1
        omega
      · intro c hc
        rcases List.mem_cons.mp hc with rfl | h
        · exact ⟨by decide, by decide⟩
        · exact hchars c h
    · simp only [hn, if_false, List.nil_append]
      refine ⟨?_, hchars⟩
      rw [hpos]
      have p63 : (2 : Nat) ^ 63 = 9223372036854775808 := by norm_num
      have : ¬ (2 ^ 63 - 1 < s * 1000000000) := by rw [p63]; omega
      simp only [this, if_false]
      congr 1
      omega

/-! ## The field pattern on a written row -/

theorem matchBody_class (b rest : List Char) (hb : ∀ c ∈ b, inFieldClass c = true) :
    matchBody (b ++ ']' :: rest) = some b := by
  induction b with
  | nil => simp [matchBody]
  | cons c b ih =>
    have hc : inFieldClass c = true := hb c (List.mem_cons_self _ _)
    have hne : c ≠ ']' := by
      rintro rfl
      exact absurd hc (by decide)
    rw [List.cons_append, matchBody]
    simp only [hne, if_false, hc, if_true]
    rw [ih (fun x hx => hb x (List.mem_cons_of_mem _ hx))]
    rfl

theorem findAll_skip (b rest : List Char) (hb : ∀ c ∈ b, c ≠ '[') :
    FindAllString (b ++ rest) = FindAllString rest := by
  induction b with
  | nil => rfl
  | cons c b ih =>
    have hc : c ≠ '[' := hb c (List.mem_cons_self _ _)
    rw [List.cons_append, FindAllString]
    simp only [hc, if_false]
    exact ih (fun x hx => hb x (List.mem_cons_of_mem _ hx))

theorem class_ne_open (c : Char) (hc : inFieldClass c = true) : c ≠ '[' := by
  rintro rfl
  exact absurd hc (by decide)

/-- A bracket group of class characters is found as one match, and the search goes on
behind it. -/
theorem findAll_group (b rest : List Char) (hb : ∀ c ∈ b, inFieldClass c = true) :
    FindAllString ('[' :: b ++ ']' :: rest)
      = String.mk ('[' :: b ++ [']']) :: FindAllString rest := by
  rw [List.cons_append, FindAllString]
  simp only [if_true, matchBody_class b rest hb]
  congr 1
  have h1 : b ++ ']' :: rest = (b ++ [']']) ++ rest := by simp
  rw [h1]
  apply findAll_skip
  intro c hc
  rcases List.mem_append.mp hc with h | h
  · exact class_ne_open c (hb c h)
  · rw [List.mem_singleton] at h
    rw [h]
    decide

theorem isField_brackets (f : String) (hf : ∀ c ∈ f.data, inFieldClass c = true) :
    IsField ("[" ++ f ++ "]") :=
  ⟨f.data, by simp [String.data_append], hf⟩

theorem findAll_padCells (rows : List EditRow) (cells : List String) :
    ∀ (j : Nat) (rest : List Char), (∀ c ∈ cells, IsField c) →
      FindAllString (padCells rows j cells ++ rest) = cells ++ FindAllString rest := by
  induction cells with
  | nil => intro j rest _; rfl
  | cons c cs ih =>
    intro j rest hcells
    obtain ⟨b, hb, hclass⟩ := hcells c (List.mem_cons_self _ _)
    have hc : c = String.mk ('[' :: b ++ [']']) := by
      apply String.ext
      exact hb
    rw [padCells, hb]
    have e : '[' :: b ++ [']'] ++ List.replicate (columnWidth rows j - ('[' :: b ++ [']']).length) ' '
          ++ padCells rows (j + 1) cs ++ rest
        = '[' :: b ++ ']' :: (List.replicate (columnWidth rows j - ('[' :: b ++ [']']).length) ' '
          ++ (padCells rows (j + 1) cs ++ rest)) := by
      simp
    rw [e, findAll_group b _ hclass, findAll_skip _ _ (by
      intro x hx
      rw [List.eq_of_mem_replicate hx]
      decide), ih (j + 1) rest (fun x hx => hcells x (List.mem_cons_of_mem _ hx)), hc]
    rfl

theorem stripBraces_field (b : List Char) :
    stripBraces (String.mk ('[' :: b ++ [']'])) = String.mk b := by
  unfold stripBraces
  apply String.ext
  simp

theorem cutset_space :
    (fun c => (" " : String).data.contains c) = (fun c => decide (c = ' ')) := by
  funext c
  simp

theorem trim_data (s : String) :
    (Trim s " ").data
      = (s.data.dropWhile (fun c => decide (c = ' '))).rdropWhile
          (fun c => decide (c = ' ')) := by
  unfold Trim
  rw [cutset_space]

/-- `strings.Trim(s, " ")` leaves a string that neither starts nor ends with a space. -/
theorem trim_id_of_no_space (s : String) (h : ∀ c ∈ s.data, c ≠ ' ') : Trim s " " = s := by
  apply String.ext
  rw [trim_data]
  have h1 : s.data.dropWhile (fun c => decide (c = ' ')) = s.data := by
    cases hs : s.data with
    | nil => rfl
    | cons a l =>
      have : a ≠ ' ' := h a (by rw [hs]; exact List.mem_cons_self _ _)
      rw [List.dropWhile_cons]
      simp [this]
  rw [h1, List.rdropWhile_eq_self_iff]
  intro hne
  have := h (s.data.getLast hne) (List.getLast_mem hne)
  simp [this]

/-! ## Replaying the token string -/

theorem trim_idem (s : String) : Trim (Trim s " ") " " = Trim s " " := by
  apply String.ext
  rw [trim_data, trim_data]
  generalize s.data = l
  have hdrop : ((l.dropWhile (fun c => decide (c = ' '))).rdropWhile
        (fun c => decide (c = ' '))).dropWhile (fun c => decide (c = ' '))
      = (l.dropWhile (fun c => decide (c = ' '))).rdropWhile (fun c => decide (c = ' ')) := by
    obtain ⟨t, ht⟩ := List.rdropWhile_prefix (fun c => decide (c = ' '))
      (l.dropWhile (fun c => decide (c = ' ')))
    cases hy : (l.dropWhile (fun c => decide (c = ' '))).rdropWhile
        (fun c => decide (c = ' ')) with
    | nil => rfl
    | cons a y =>
      rw [hy] at ht
      have hhead := List.head?_dropWhile_not (fun c => decide (c = ' ')) l
      rw [← ht] at hhead
      simp only [List.cons_append, List.head?_cons] at hhead
      rw [List.dropWhile_cons]
      simp [hhead]
  rw [hdrop, List.rdropWhile_idempotent]

theorem trim_append_space (l : List Char) :
    Trim ⟨l ++ [' ']⟩ " " = Trim ⟨l⟩ " " := by
  apply String.ext
  rw [trim_data, trim_data]
  simp only
  rw [List.dropWhile_append]
  by_cases h : (l.dropWhile (fun c => decide (c = ' '))).isEmpty = true
  · have h' : l.dropWhile (fun c => decide (c = ' ')) = [] := List.isEmpty_iff.mp h
    simp [h, h', List.rdropWhile_nil]
  · simp only [h, Bool.false_eq_true, if_false]
    exact List.rdropWhile_concat_pos _ _ _ (by simp)

theorem step_withRaw (iv : Interval) (r part : String) :
    lexIntervalStep { iv with Raw := r } part = { lexIntervalStep iv part with Raw := r } := by
  rw [lexIntervalStep_eq, lexIntervalStep_eq]
  by_cases h1 : HasPrefix part "+" = true
  · simp [h1]
  by_cases h2 : HasPrefix part "proj:" = true
  · simp [h1, h2]
  by_cases h3 : HasPrefix part "project:" = true
  · simp [h1, h2, h3]
  by_cases h4 : HasPrefix part "ref:" = true
  · simp [h1, h2, h3, h4]
  · simp [h1, h2, h3, h4]

theorem foldl_withRaw (ts : List String) (iv : Interval) (r : String) :
    ts.foldl lexIntervalStep { iv with Raw := r }
      = { ts.foldl lexIntervalStep iv with Raw := r } := by
  induction ts generalizing iv with
  | nil => rfl
  | cons t ts ih => rw [List.foldl_cons, List.foldl_cons, step_withRaw, ih]

theorem step_trimmed (iv : Interval) (part : String)
    (h : Trim ( Interval.Annotation iv) " " = Interval.Annotation iv) :
    Trim ( Interval.Annotation (lexIntervalStep iv part)) " "
      = Interval.Annotation (lexIntervalStep iv part) := by
  rw [lexIntervalStep_eq]
  by_cases h1 : HasPrefix part "+" = true
  · simp [h1, h]
  by_cases h2 : HasPrefix part "proj:" = true
  · simp [h1, h2, h]
  by_cases h3 : HasPrefix part "project:" = true
  · simp [h1, h2, h3, h]
  by_cases h4 : HasPrefix part "ref:" = true
  · simp [h1, h2, h3, h4, h]
  · simp [h1, h2, h3, h4, trim_idem]

theorem step_empty (iv : Interval)
    (h : Trim ( Interval.Annotation iv) " " = Interval.Annotation iv) :
    lexIntervalStep iv "" = iv := by
  rw [lexIntervalStep_eq]
  have e1 : HasPrefix "" "+" = false := by decide
  have e2 : HasPrefix "" "proj:" = false := by decide
  have e3 : HasPrefix "" "project:" = false := by decide
  have e4 : HasPrefix "" "ref:" = false := by decide
  simp only [e1, e2, e3, e4, Bool.false_eq_true, if_false]
  have hj : Join [ Interval.Annotation iv, ""] " "
      = ⟨( Interval.Annotation iv).data ++ [' ']⟩ := by
    unfold Join
    apply String.ext
    simp [List.intercalate]
  rw [hj, trim_append_space]
  have : (⟨( Interval.Annotation iv).data⟩ : String) = Interval.Annotation iv := rfl
  rw [this, h]

/-- Empty tokens change nothing once the annotation is trimmed. -/
theorem foldl_skip_empty (ts : List String) :
    ∀ iv : Interval, Trim ( Interval.Annotation iv) " " = Interval.Annotation iv →
      ts.foldl lexIntervalStep iv = (ts.filter (fun t => t ≠ "")).foldl lexIntervalStep iv := by
  induction ts with
  | nil => intro iv _; rfl
  | cons t ts ih =>
    intro iv h
    by_cases ht : t = ""
    · subst ht
      rw [List.foldl_cons, step_empty iv h, ih iv h]
      simp
    · rw [List.foldl_cons, ih _ (step_trimmed iv t h)]
      simp [ht]

/-- What the lexer makes of a token list depends on its non-empty tokens only. -/
theorem lexFields_of_nonempty (a b : List String)
    (h : a.filter (fun t => t ≠ "") = b.filter (fun t => t ≠ "")) :
    lexFields (NewInterval a) = lexFields (NewInterval b) := by
  have key : ∀ ts : List String, NewInterval ts =
      { (ts.filter (fun t => t ≠ "")).foldl lexIntervalStep
          { Interval.zero with Annotation := "" } with Raw := Join ts " " } := by
    intro ts
    unfold NewInterval lexInterval
    have h0 : Trim "" " " = "" := by decide
    rw [← foldl_withRaw, foldl_skip_empty ts _ h0]
  rw [key a, key b, h]
  rfl

theorem splitOn_cons_sep (l : List Char) : (' ' :: l).splitOn ' ' = [] :: l.splitOn ' ' := by
  unfold List.splitOn
  rw [List.splitOnP_cons]
  simp

theorem splitOn_concat_sep (l : List Char) :
    (l ++ [' ']).splitOn ' ' = l.splitOn ' ' ++ [[]] := by
  unfold List.splitOn
  induction l with
  | nil => simp [List.splitOnP_cons, List.splitOnP_nil]
  | cons c l ih =>
    rw [List.cons_append, List.splitOnP_cons, List.splitOnP_cons, ih]
    by_cases hc : (c == ' ') = true
    · simp [hc]
    · simp only [hc, Bool.false_eq_true, if_false]
      cases hs : List.splitOnP (fun x => x == ' ') l with
      | nil => exact absurd hs (List.splitOnP_ne_nil _ _)
      | cons w ws => rfl

theorem spaceWords_dropWhile (l : List Char) :
    spaceWords (l.dropWhile (fun c => decide (c = ' '))) = spaceWords l := by
  induction l with
  | nil => rfl
  | cons c l ih =>
    rw [List.dropWhile_cons]
    by_cases hc : c = ' '
    · subst hc
      simp only [decide_True, if_true]
      rw [ih]
      unfold spaceWords
      rw [splitOn_cons_sep]
      simp
    · simp [hc]

theorem spaceWords_rdropWhile (l : List Char) :
    spaceWords (l.rdropWhile (fun c => decide (c = ' '))) = spaceWords l := by
  induction l using List.reverseRecOn with
  | nil => rfl
  | append_singleton l c ih =>
    by_cases hc : c = ' '
    · subst hc
      rw [List.rdropWhile_concat_pos _ _ _ (by simp), ih]
      unfold spaceWords
      rw [splitOn_concat_sep]
      simp
    · rw [List.rdropWhile_concat_neg _ _ _ (by simp [hc])]

theorem spaceWords_intercalate (tsd : List (List Char)) (h : ∀ t ∈ tsd, ' ' ∉ t) :
    spaceWords ([' '].intercalate tsd) = tsd.filter (fun w => w ≠ []) := by
  unfold spaceWords
  by_cases hnil : tsd = []
  · subst hnil
    decide
  · rw [List.splitOn_intercalate tsd ' ' h hnil]

/-- The non-empty tokens of the trimmed token string are the non-empty tokens. -/
theorem split_trim_join (ts : List String) (hts : ∀ t ∈ ts, ' ' ∉ t.data) :
    (Split (Trim (Join ts " ") " ") ' ').filter (fun t => t ≠ "")
      = ts.filter (fun t => t ≠ "") := by
  have hmk : ∀ w : List Char, decide (String.mk w ≠ "") = decide (w ≠ []) := by
    intro w
    by_cases hw : w = []
    · subst hw; rfl
    · have : String.mk w ≠ "" := fun h => hw (congrArg String.data h)
      simp [hw, this]
  have hdt : ∀ t : String, decide (t.data ≠ []) = decide (t ≠ "") := by
    intro t
    by_cases ht : t = ""
    · subst ht; rfl
    · have : t.data ≠ [] := fun h => ht (String.ext h)
      simp [ht, this]
  have hw : (spaceWords (((Join ts " ").data.dropWhile (fun c => decide (c = ' '))).rdropWhile
      (fun c => decide (c = ' ')))) = (ts.map String.data).filter (fun w => w ≠ []) := by
    rw [spaceWords_rdropWhile, spaceWords_dropWhile]
    exact spaceWords_intercalate _ (by
      intro t ht
      obtain ⟨s, hs, rfl⟩ := List.mem_map.mp ht
      exact hts s hs)
  unfold spaceWords at hw
  unfold Split
  rw [trim_data, List.filter_map]
  have e1 : ((fun t : String => decide (t ≠ "")) ∘ String.mk)
      = (fun w : List Char => decide (w ≠ [])) := by
    funext w
    exact hmk w
  rw [e1, hw, List.filter_map, List.map_map]
  have e2 : ((fun w : List Char => decide (w ≠ [])) ∘ String.data)
      = (fun t : String => decide (t ≠ "")) := by
    funext t
    exact hdt t
  rw [e2]
  have e3 : String.mk ∘ String.data = id := by
    funext t
    rfl
  rw [e3, List.map_id]

/-- The lexer gives the same project, tags, reference and annotation for a token list
without spaces in its tokens and for its space-joined form, trimmed and split again. -/
theorem lexFields_replay (ts : List String) (hts : ∀ t ∈ ts, ' ' ∉ t.data) :
    lexFields (NewInterval (Split (Trim (Join ts " ") " ") ' '))
      = lexFields (NewInterval ts) :=
  lexFields_of_nonempty _ _ (split_trim_join ts hts)

/-! ## One written row, parsed -/

theorem stripBraces_brackets (f : String) : stripBraces ("[" ++ f ++ "]") = f := by
  have h : ("[" ++ f ++ "]" : String) = String.mk ('[' :: f.data ++ [']']) := by
    apply String.ext
    simp [String.data_append]
  rw [h, stripBraces_field]

theorem join_chars (ts : List String)
    (hts : ∀ t ∈ ts, ∀ c ∈ t.data, inFieldClass c = true ∧ c ≠ ' ') :
    ∀ c ∈ (Join ts " ").data, inFieldClass c = true := by
  unfold Join
  induction ts with
  | nil => intro c hc; simp [List.intercalate] at hc
  | cons t ts ih =>
    intro c hc
    cases ts with
    | nil =>
      simp [List.intercalate] at hc
      exact (hts t (List.mem_cons_self _ _) c hc).1
    | cons t' ts' =>
      have e : (" " : String).data.intercalate ((t :: t' :: ts').map String.data)
          = t.data ++ ' ' :: (" " : String).data.intercalate ((t' :: ts').map String.data) := by
        simp [List.intercalate, List.intersperse]
      rw [e] at hc
      rcases List.mem_append.mp hc with h | h
      · exact (hts t (List.mem_cons_self _ _) c h).1
      · rcases List.mem_cons.mp h with rfl | h'
        · decide
        · exact ih (fun x hx => hts x (List.mem_cons_of_mem _ hx)) c h'

theorem newInterval_duration (ts : List String) : (NewInterval ts).Duration = 0 := by
  have key : ∀ (l : List String) (iv : Interval),
      (l.foldl lexIntervalStep iv).Duration = iv.Duration := by
    intro l
    induction l with
    | nil => intro iv; rfl
    | cons t l ih =>
      intro iv
      rw [List.foldl_cons, ih, lexIntervalStep_eq]
      by_cases h1 : HasPrefix t "+" = true
      · simp [h1]
      by_cases h2 : HasPrefix t "proj:" = true
      · simp [h1, h2]
      by_cases h3 : HasPrefix t "project:" = true
      · simp [h1, h2, h3]
      by_cases h4 : HasPrefix t "ref:" = true
      · simp [h1, h2, h3, h4]
      · simp [h1, h2, h3, h4]
  unfold NewInterval lexInterval
  rw [key]
  rfl

/-- The fields `parseEditLine` unpacks from the line written for a stable interval. -/
theorem editFields_rowLine (rows : List EditRow) (i : Interval) (hi : EditStable i) :
    unpackSlice (editFields (rowLine rows (editRow i)))
      = some [i.ID, formatDateFormat i.Begin, formatTimeFormat i.Begin,
          formatTimeFormat i.End, durationString i.Duration, Trim i.Raw " "] := by
  obtain ⟨ts, hts, hraw, _⟩ := hi.tokens
  have hdur : ∀ c ∈ (durationString i.Duration).data, inFieldClass c = true ∧ c ≠ ' ' := by
    rcases hi.times with h | h
    · rw [h.2.2.2.2.2]
      decide
    · exact (parseDuration_durationString _ h.2.2.1 h.2.2.2.1 h.2.2.2.2).2
  have hdate := formatDateFormat_chars i.Begin hi.yearLo hi.yearHi
  have hb := formatTimeFormat_chars i.Begin
  have he := formatTimeFormat_chars i.End
  have hrawc : ∀ c ∈ i.Raw.data, inFieldClass c = true := by
    rw [hraw]
    exact join_chars ts hts
  have hcells : ∀ c ∈ (editRow i).cells, IsField c := by
    intro c hc
    simp only [editRow, hi.beginUTC, hi.endUTC, wallClock_zero, List.mem_cons, List.mem_singleton, List.not_mem_nil, or_false] at hc
    rcases hc with rfl | rfl | rfl | rfl | rfl
    · exact isField_brackets _ hi.idClass
    · exact isField_brackets _ (fun c hc => (hdate c hc).1)
    · exact isField_brackets _ (fun c hc => (hb c hc).1)
    · exact isField_brackets _ (fun c hc => (he c hc).1)
    · exact isField_brackets _ (fun c hc => (hdur c hc).1)
  have hlast : FindAllString (editRow i).last.data = [(editRow i).last] := by
    have e : (editRow i).last.data = '[' :: i.Raw.data ++ ']' :: [] := by
      simp [editRow, String.data_append]
    rw [e, findAll_group _ _ hrawc]
    congr 1
  have hfind : FindAllString (rowLine rows (editRow i)).data
      = (editRow i).cells ++ [(editRow i).last] := by
    unfold rowLine
    rw [findAll_padCells rows _ 0 _ hcells, hlast]
  unfold editFields
  rw [hfind]
  simp only [editRow, hi.beginUTC, hi.endUTC, wallClock_zero, List.cons_append, List.nil_append, List.map_cons, List.map_nil,
    stripBraces_brackets]
  rw [hi.idTrim, trim_id_of_no_space _ (fun c hc => (hdate c hc).2),
    trim_id_of_no_space _ (fun c hc => (hb c hc).2),
    trim_id_of_no_space _ (fun c hc => (he c hc).2),
    trim_id_of_no_space _ (fun c hc => (hdur c hc).2)]
  rfl

/-- The line written for a stable interval parses to an interval with the same content. -/
theorem parseEditLine_rowLine (rows : List EditRow) (i : Interval) (hi : EditStable i) :
    ∃ i', parseEditLine (rowLine rows (editRow i)) = .ok i' ∧ content i' = content i := by
  have hfields := editFields_rowLine rows i hi
  have hdate := parse_format_date i.Begin hi.yearLo hi.yearHi
  have hb := parse_format_time i.Begin
  have he := parse_format_time i.End
  obtain ⟨ts, hts, hraw, hlex⟩ := hi.tokens
  have hreplay : lexFields (NewInterval (Split (Trim i.Raw " ") ' ')) = lexFields i := by
    rw [hraw, hlex]
    exact lexFields_replay ts (fun t ht hc => (hts t ht ' ' hc).2 rfl)
  have hr := hreplay
  unfold lexFields at hr
  simp only [Prod.mk.injEq] at hr
  obtain ⟨b0, b24, bm0, bm60⟩ := clock_range i.Begin
  obtain ⟨e0, e24, em0, em60⟩ := clock_range i.End
  have cb := clock_of_parsed (hourOf i.Begin).toNat (minuteOf i.Begin).toNat
    (by omega) (by omega)
  have ce := clock_of_parsed (hourOf i.End).toNat (minuteOf i.End).toNat
    (by omega) (by omega)
  rw [Int.toNat_of_nonneg b0, Int.toNat_of_nonneg bm0] at cb
  rw [Int.toNat_of_nonneg e0, Int.toNat_of_nonneg em0] at ce
  have eH : Hour = 3600000000000 := by decide
  have eM : Minute = 60000000000 := by decide
  rcases hi.times with ⟨hbm, hem, hbn, hen, hday, hdur⟩ | ⟨hmid, hend, hsec, hlo, hhi⟩
  · obtain ⟨sb, zb⟩ := whole_minute_split i.Begin hbm
    obtain ⟨se, ze⟩ := whole_minute_split i.End hem
    have tbn : timeOfDay (Date 0 1 1 (hourOf i.Begin).toNat (minuteOf i.Begin).toNat 0) ≠ 0 := by
      rw [cb.2.2, eH, eM]
      intro h
      exact hbn (zb.mpr (by omega))
    have ten : timeOfDay (Date 0 1 1 (hourOf i.End).toNat (minuteOf i.End).toNat 0) ≠ 0 := by
      rw [ce.2.2, eH, eM]
      intro h
      exact hen (ze.mpr (by omega))
    refine ⟨_, parseEditLine_explicit _ _ _ _ _ _ _ _ _ _ hfields hdate hb he tbn ten, ?_⟩
    rw [truncate_day, truncate_day] at hday
    have eD : (24 * Hour : Int) = 86400000000000 := by decide
    rw [eD] at sb se
    unfold content lexFields
    simp only [Prod.mk.injEq, true_and, eD]
    refine ⟨?_, ?_, ?_, hr.1, hr.2.1, hr.2.2.1, hr.2.2.2⟩
    · rw [cb.2.2]; exact sb
    · rw [ce.2.2, hday]; exact se
    · rw [newInterval_duration, hdur]
  · obtain ⟨hdp, _⟩ := parseDuration_durationString i.Duration hsec hlo hhi
    have tb0 : timeOfDay (Date 0 1 1 (hourOf i.Begin).toNat (minuteOf i.Begin).toNat 0) = 0 := by
      rw [cb.2.2, eH, eM]
      unfold timeOfDay hourOf minuteOf at *
      have eD : (24 * Hour : Int) = 86400000000000 := by decide
      have eS : Second = 1000000000 := by decide
      rw [eD] at hmid
      rw [eS]
      omega
    have hcase := parseEditLine_durationOnly _ _ _ _ _ _ _ _ hfields hdate
      (Or.inr ⟨_, he, Or.inr ⟨_, hb, Or.inl tb0⟩⟩)
    rw [hdp] at hcase
    refine ⟨_, hcase, ?_⟩
    unfold timeOfDay at hmid
    unfold content lexFields
    simp only [Prod.mk.injEq, true_and]
    refine ⟨?_, ?_, hr.1, hr.2.1, hr.2.2.1, hr.2.2.2⟩
    · rw [hmid]; simp
    · rw [hend, hmid]; simp

/-! ## The written document, line by line -/

theorem unlines_append (a b : List (List Char)) : unlines (a ++ b) = unlines a ++ unlines b := by
  simp [unlines]

theorem splitOn_unlines (ls : List (List Char)) (h : ∀ l ∈ ls, '\n' ∉ l) :
    (unlines ls).splitOn '\n' = ls ++ [[]] := by
  induction ls with
  | nil => rfl
  | cons l ls ih =>
    have e : unlines (l :: ls) = l ++ '\n' :: unlines ls := by
      simp [unlines]
    rw [e]
    unfold List.splitOn at ih ⊢
    rw [List.splitOnP_first (fun x => x == '\n') l (by
        intro x hx hp
        rw [beq_iff_eq] at hp
        subst hp
        exact h l (List.mem_cons_self _ _) hx) '\n' (by simp),
      ih (fun x hx => h x (List.mem_cons_of_mem _ hx))]
    rfl

theorem textLines_unlines (ls : List (List Char)) (h : ∀ l ∈ ls, '\n' ∉ l) :
    textLines ⟨unlines ls⟩ = ls := by
  unfold textLines
  simp only [splitOn_unlines ls h]
  have hl : (ls ++ [[]] : List (List Char)).getLast? = some [] := by simp
  rw [if_pos hl, List.dropLast_concat]

/-- The scanner yields the lines of a text that ends each line with a line feed, when no
line is too long for its buffer. -/
theorem scanLines_unlines (ls : List (List Char)) (h : ∀ l ∈ ls, '\n' ∉ l)
    (hshort : ∀ l ∈ ls, byteLength l < MaxScanTokenSize) :
    scanLines ⟨unlines ls⟩ = ls.map dropCR := by
  unfold scanLines
  simp only [textLines_unlines ls h]
  have ht : ls.takeWhile (fun l => decide (byteLength l < MaxScanTokenSize)) = ls := by
    rw [List.takeWhile_eq_self_iff]
    intro l hl
    simpa using hshort l hl
  rw [ht]
  rfl

theorem writeEditFile_lines (intervals : List Interval) (filterArgs : List String)
    (now : Int) :
    (writeEditFile intervals filterArgs now).data
      = unlines (headerLines
          ++ (intervals.map editRow).map
              (fun r => (rowLine (intervals.map editRow) r).data)
          ++ trailerLines filterArgs now) := by
  have htab : tabwriterFlush (intervals.map editRow)
      = unlines ((intervals.map editRow).map
          (fun r => (rowLine (intervals.map editRow) r).data)) := by
    unfold tabwriterFlush unlines rowLine
    simp only [List.map_map]
    rfl
  have hh : unlines headerLines =
      ("# Edit below values to change tracking data\n"
        ++ "# - delete rows to delete \n"
        ++ "# - set time values 00:00 or leave empty to just set duration \n"
        ++ "# - leave duration empty or 0s if you set date \n"
        ++ "\n" : String).data := by
    rfl
  have ht : unlines (trailerLines filterArgs now) =
      ("\n\n# NEW ENTRIES HERE #############################################\n" : String).data
      ++ ("# [ID (empty)] [DATE] [BEGIN] [END] [DURATION] [ANNOTATION]\n" : String).data
      ++ (("\n# [] [" : String).data ++ (formatDateFormat now).data
          ++ ("] [] [] [] []\n" : String).data)
      ++ ("\n\n\n\n# meta #########################################################\n"
          : String).data
      ++ (("# ;; filter == " : String).data ++ (Join filterArgs " ").data
          ++ ("\n" : String).data) := by
    simp [unlines, trailerLines, String.data_append]
  rw [unlines_append, unlines_append, hh, ht, ← htab]
  simp only [writeEditFile, String.data_append, List.append_assoc]

theorem parseEditLines_skip (A : List String) (hA : ∀ t ∈ A, Skipped t) :
    ∀ (B : List String) (acc : List Interval),
      parseEditLines (A ++ B) acc = parseEditLines B acc := by
  induction A with
  | nil => intro B acc; rfl
  | cons t A ih =>
    intro B acc
    rw [List.cons_append, parseEditLines]
    rcases hA t (List.mem_cons_self _ _) with h | h
    · simp only [h, if_true]
      exact ih (fun x hx => hA x (List.mem_cons_of_mem _ hx)) B acc
    · simp only [h, if_true]
      split
      · exact ih (fun x hx => hA x (List.mem_cons_of_mem _ hx)) B acc
      · exact ih (fun x hx => hA x (List.mem_cons_of_mem _ hx)) B acc

theorem skipped_blank : Skipped (dropCR []) := Or.inr (by decide)

theorem skipped_comment (c : Char) (rest : List Char) : Skipped (dropCR ('#' :: c :: rest)) := by
  left
  unfold dropCR HasPrefix
  split
  · rw [List.dropLast_cons_of_ne_nil (List.cons_ne_nil _ _)]
    simp [List.isPrefixOf]
  · simp [List.isPrefixOf]

theorem appendInt_no_lf (x : Int) (w : Nat) : ∀ c ∈ appendInt x w, c ≠ '\n' := by
  intro c hc
  unfold appendInt at hc
  simp only [List.append_assoc, List.mem_append] at hc
  rcases hc with h | h | h
  · split at h
    · rw [List.mem_singleton] at h
      rw [h]; decide
    · exact absurd h (List.not_mem_nil _)
  · rw [List.eq_of_mem_replicate h]; decide
  · have hd := fmtInt_digits _ c h
    rintro rfl
    exact absurd hd (by decide)

theorem formatDateFormat_no_lf (t : Int) : '\n' ∉ (formatDateFormat t).data := by
  intro h
  unfold formatDateFormat at h
  simp only [List.append_assoc, List.mem_append, List.mem_singleton] at h
  rcases h with h | h | h | h | h
  · exact appendInt_no_lf _ _ _ h rfl
  · exact absurd h (by decide)
  · exact appendInt_no_lf _ _ _ h rfl
  · exact absurd h (by decide)
  · exact appendInt_no_lf _ _ _ h rfl

theorem headerLines_ok :
    (∀ l ∈ headerLines, '\n' ∉ l) ∧ (∀ t ∈ headerLines.map dropCR, Skipped t) := by
  constructor
  · decide
  · intro t ht
    simp only [headerLines, List.map_cons, List.map_nil, List.mem_cons, List.mem_singleton,
      List.not_mem_nil, or_false] at ht
    rcases ht with rfl | rfl | rfl | rfl | rfl
    · exact skipped_comment _ _
    · exact skipped_comment _ _
    · exact skipped_comment _ _
    · exact skipped_comment _ _
    · exact skipped_blank

theorem trailerLines_ok (filterArgs : List String) (now : Int)
    (hfilter : '\n' ∉ (Join filterArgs " ").data) :
    (∀ l ∈ trailerLines filterArgs now, '\n' ∉ l)
    ∧ (∀ t ∈ (trailerLines filterArgs now).map dropCR, Skipped t) := by
  have hnow := formatDateFormat_no_lf now
  constructor
  · intro l hl
    simp only [trailerLines, List.mem_cons, List.mem_singleton, List.not_mem_nil,
      or_false] at hl
    rcases hl with rfl | rfl | rfl | rfl | rfl | rfl | rfl | rfl | rfl | rfl | rfl | rfl
    · decide
    · decide
    · decide
    · decide
    · decide
    · intro h
      simp only [String.data_append, List.mem_append] at h
      rcases h with (h | h) | h
      · exact absurd h (by decide)
      · exact hnow h
      · exact absurd h (by decide)
    · decide
    · decide
    · decide
    · decide
    · decide
    · intro h
      simp only [String.data_append, List.mem_append] at h
      rcases h with h | h
      · exact absurd h (by decide)
      · exact hfilter h
  · intro t ht
    simp only [trailerLines, List.map_cons, List.map_nil, List.mem_cons, List.mem_singleton,
      List.not_mem_nil, or_false] at ht
    rcases ht with rfl | rfl | rfl | rfl | rfl | rfl | rfl | rfl | rfl | rfl | rfl | rfl
    · exact skipped_blank
    · exact skipped_blank
    · exact skipped_comment _ _
    · exact skipped_comment _ _
    · exact skipped_blank
    · have e : ("# [] [" ++ formatDateFormat now ++ "] [] [] [] []" : String).data
          = '#' :: ' ' :: ("[] [" ++ formatDateFormat now ++ "] [] [] [] []" : String).data := by
        simp [String.data_append]
      rw [e]
      exact skipped_comment _ _
    · exact skipped_blank
    · exact skipped_blank
    · exact skipped_blank
    · exact skipped_blank
    · exact skipped_comment _ _
    · have e : ("# ;; filter == " ++ Join filterArgs " " : String).data
          = '#' :: ' ' :: (";; filter == " ++ Join filterArgs " " : String).data := by
        simp [String.data_append]
      rw [e]
      exact skipped_comment _ _

theorem padCells_no_lf (rows : List EditRow) (cells : List String)
    (hcells : ∀ c ∈ cells, IsField c) : ∀ j, '\n' ∉ padCells rows j cells := by
  induction cells with
  | nil => intro j h; exact absurd h (List.not_mem_nil _)
  | cons c cs ih =>
    intro j h
    obtain ⟨b, hb, hclass⟩ := hcells c (List.mem_cons_self _ _)
    rw [padCells, hb] at h
    rcases List.mem_append.mp h with h | h
    · rcases List.mem_append.mp h with h | h
      · rcases List.mem_cons.mp h with h | h
        · exact absurd h (by decide)
        · rcases List.mem_append.mp h with h | h
          · exact absurd (hclass _ h) (by decide)
          · exact absurd (List.mem_singleton.mp h) (by decide)
      · exact absurd (List.eq_of_mem_replicate h) (by decide)
    · exact ih (fun x hx => hcells x (List.mem_cons_of_mem _ hx)) (j + 1) h

/-- The line written for a stable interval starts with `[`, ends with `]` and has no line
feed in it. -/
theorem rowLine_shape (rows : List EditRow) (i : Interval) (hi : EditStable i) :
    (∃ X, (rowLine rows (editRow i)).data = '[' :: X)
    ∧ (∃ Y, (rowLine rows (editRow i)).data = Y ++ [']'])
    ∧ '\n' ∉ (rowLine rows (editRow i)).data := by
  obtain ⟨ts, hts, hraw, _⟩ := hi.tokens
  have hdur : ∀ c ∈ (durationString i.Duration).data, inFieldClass c = true ∧ c ≠ ' ' := by
    rcases hi.times with h | h
    · rw [h.2.2.2.2.2]
      decide
    · exact (parseDuration_durationString _ h.2.2.1 h.2.2.2.1 h.2.2.2.2).2
  have hdate := formatDateFormat_chars i.Begin hi.yearLo hi.yearHi
  have hb := formatTimeFormat_chars i.Begin
  have he := formatTimeFormat_chars i.End
  have hrawc : ∀ c ∈ i.Raw.data, inFieldClass c = true := by
    rw [hraw]
    exact join_chars ts hts
  have hcells : ∀ c ∈ (editRow i).cells, IsField c := by
    intro c hc
    simp only [editRow, hi.beginUTC, hi.endUTC, wallClock_zero, List.mem_cons, List.mem_singleton, List.not_mem_nil, or_false] at hc
    rcases hc with rfl | rfl | rfl | rfl | rfl
    · exact isField_brackets _ hi.idClass
    · exact isField_brackets _ (fun c hc => (hdate c hc).1)
    · exact isField_brackets _ (fun c hc => (hb c hc).1)
    · exact isField_brackets _ (fun c hc => (he c hc).1)
    · exact isField_brackets _ (fun c hc => (hdur c hc).1)
  refine ⟨?_, ?_, ?_⟩
  · exact ⟨_, by simp [rowLine, editRow, hi.beginUTC, hi.endUTC, wallClock_zero, padCells, String.data_append]; rfl⟩
  · refine ⟨padCells rows 0 (editRow i).cells ++ '[' :: i.Raw.data, ?_⟩
    simp [rowLine, editRow, hi.beginUTC, hi.endUTC, wallClock_zero, String.data_append]
  · intro h
    unfold rowLine at h
    rcases List.mem_append.mp h with h | h
    · exact padCells_no_lf rows _ hcells 0 h
    · simp only [editRow, hi.beginUTC, hi.endUTC, wallClock_zero, String.data_append, List.mem_append] at h
      rcases h with (h | h) | h
      · exact absurd h (by decide)
      · exact absurd (hrawc _ h) (by decide)
      · exact absurd h (by decide)

theorem dropCR_of_shape (t : String) (hY : ∃ Y, t.data = Y ++ [']']) : dropCR t.data = t := by
  obtain ⟨Y, hY⟩ := hY
  unfold dropCR
  have : t.data.getLast? ≠ some '\r' := by
    rw [hY, List.getLast?_append]
    simp
  rw [if_neg this]

theorem parseEditLines_data_line (t : String) (rest : List String) (acc : List Interval)
    (hX : ∃ X, t.data = '[' :: X) (hY : ∃ Y, t.data = Y ++ [']']) :
    parseEditLines (t :: rest) acc =
      match parseEditLine t with
      | .error e => .error e
      | .ok i => parseEditLines rest (acc ++ [i]) := by
  obtain ⟨X, hX⟩ := hX
  obtain ⟨Y, hY⟩ := hY
  have h1 : HasPrefix t "#" = false := by
    unfold HasPrefix
    rw [hX]
    rfl
  have h2 : ¬ ((Trim t " ").data.length = 0) := by
    rw [trim_data]
    have hd : t.data.dropWhile (fun c => decide (c = ' ')) = t.data := by
      rw [hX, List.dropWhile_cons]
      rfl
    have hr : t.data.rdropWhile (fun c => decide (c = ' ')) = t.data := by
      rw [hY]
      exact List.rdropWhile_concat_neg _ _ _ (by decide)
    rw [hd, hr, hX]
    simp
  cases hp : parseEditLine t with
  | error e =>
    rw [parseEditLines]
    simp only [h1, Bool.false_eq_true, if_false, h2, hp]
  | ok i =>
    rw [parseEditLines]
    simp only [h1, Bool.false_eq_true, if_false, h2, hp]

theorem parseEditLines_rows (rows : List EditRow) (is : List Interval)
    (his : ∀ i ∈ is, EditStable i) :
    ∀ (B : List String) (acc : List Interval),
      ∃ parsed, parsed.map content = is.map content
        ∧ parseEditLines (is.map (fun i => rowLine rows (editRow i)) ++ B) acc
            = parseEditLines B (acc ++ parsed) := by
  induction is with
  | nil => intro B acc; exact ⟨[], rfl, by simp⟩
  | cons i is ih =>
    intro B acc
    have hi := his i (List.mem_cons_self _ _)
    obtain ⟨hX, hY, _⟩ := rowLine_shape rows i hi
    obtain ⟨i', hp, hc⟩ := parseEditLine_rowLine rows i hi
    obtain ⟨parsed, hmap, hrest⟩ :=
      ih (fun x hx => his x (List.mem_cons_of_mem _ hx)) B (acc ++ [i'])
    refine ⟨i' :: parsed, by simp [hc, hmap], ?_⟩
    rw [List.map_cons, List.cons_append, parseEditLines_data_line _ _ _ hX hY, hp]
    simp only
    rw [hrest, List.append_assoc]
    rfl

/-- C4, as the claim states it, fails: the edit file shows times as `HH:MM`, so an interval
that begins at 09:00:30 comes back beginning at 09:00:00. -/
theorem editFile_drops_seconds :
    parseEditFile (writeEditFile [sampleSeconds] [":today"] (Date 2024 1 3 12 0 0))
      = .ok [{ sampleSeconds with Begin := Date 2024 1 2 9 0 0 }]
  ∧ sampleSeconds.Begin ≠ Date 2024 1 2 9 0 0 := by
  decide

/-- An interval that is stable under editing has no tags: a tag token starts with `+`,
which is no field character. -/
theorem editStable_tags (i : Interval) (hi : EditStable i) : i.Tags = [] := by
  obtain ⟨ts, hts, _, hlex⟩ := hi.tokens
  have h1 : i.Tags = (NewInterval ts).Tags := by
    have := congrArg (fun x => x.2.1) hlex
    exact this
  have h2 : plusTokens ts = [] := by
    unfold plusTokens
    rw [List.map_eq_nil_iff, List.filter_eq_nil_iff]
    intro t ht hp
    unfold HasPrefix at hp
    cases hd : t.data with
    | nil => rw [hd] at hp; exact absurd hp (by decide)
    | cons c l =>
      rw [hd] at hp
      have hc : c = '+' := by
        have : ("+" : String).data = ['+'] := rfl
        rw [this] at hp
        simp [List.isPrefixOf] at hp
        exact hp.symm
      have := (hts t ht c (by rw [hd]; exact List.mem_cons_self _ _)).1
      rw [hc] at this
      exact absurd this (by decide)
  rw [h1]
  unfold NewInterval lexInterval
  rw [(foldl_step_fields ts _).1, h2]
  rfl

/-- C4, amended: for every list of intervals that are stable under editing (`Begin` and
`End` UTC times; IDs and tokens made of the field characters letters, digits, `_`, `-`,
`:`, the ID also with inner spaces, so no token is a `+` tag and there are no tags; `Raw`
the space-joined tokens the interval was constructed from; a four-digit year; and either
two times of day other than 00:00 on the same day at whole minutes with `Duration = 0`, or
`Begin = End` at 00:00 with a `Duration` of whole seconds), for filter arguments without a
line feed, and when no line of the written document has 65536 bytes or more, parsing the
document written by `writeEditFile` succeeds and yields, in the same order, intervals with
the same ID, Begin, End, Duration, Project, Tags, Ref and Annotation. -/
theorem editFile_roundtrip (intervals : List Interval) (filterArgs : List String) (now : Int)
    (hstable : ∀ i ∈ intervals, EditStable i)
    (hfilter : '\n' ∉ (Join filterArgs " ").data)
    (hshort : ∀ l ∈ textLines (writeEditFile intervals filterArgs now),
      byteLength l < MaxScanTokenSize) :
    ∃ parsed, parseEditFile (writeEditFile intervals filterArgs now) = .ok parsed
      ∧ parsed.map content = intervals.map content := by
  obtain ⟨hh1, hh2⟩ := headerLines_ok
  obtain ⟨ht1, ht2⟩ := trailerLines_ok filterArgs now hfilter
  have hrows : ∀ l ∈ (intervals.map editRow).map
      (fun r => (rowLine (intervals.map editRow) r).data), '\n' ∉ l := by
    intro l hl
    simp only [List.map_map, List.mem_map, Function.comp] at hl
    obtain ⟨i, hi, rfl⟩ := hl
    exact (rowLine_shape _ i (hstable i hi)).2.2
  have hdoc : writeEditFile intervals filterArgs now
      = ⟨unlines (headerLines
          ++ (intervals.map editRow).map
              (fun r => (rowLine (intervals.map editRow) r).data)
          ++ trailerLines filterArgs now)⟩ :=
    String.ext (writeEditFile_lines intervals filterArgs now)
  have hnolf : ∀ l ∈ headerLines
      ++ (intervals.map editRow).map (fun r => (rowLine (intervals.map editRow) r).data)
      ++ trailerLines filterArgs now, '\n' ∉ l := by
    intro l hl
    rcases List.mem_append.mp hl with h | h
    · rcases List.mem_append.mp h with h | h
      · exact hh1 l h
      · exact hrows l h
    · exact ht1 l h
  have hscan : scanLines (writeEditFile intervals filterArgs now)
      = headerLines.map dropCR
        ++ (intervals.map (fun i => rowLine (intervals.map editRow) (editRow i))
            ++ ((trailerLines filterArgs now).map dropCR ++ [])) := by
    rw [hdoc] at hshort ⊢
    rw [textLines_unlines _ hnolf] at hshort
    rw [scanLines_unlines _ hnolf hshort]
    simp only [List.map_append, List.map_map, List.append_assoc, List.append_nil]
    congr 2
    apply List.map_congr_left
    intro i hi
    exact dropCR_of_shape _ (rowLine_shape _ i (hstable i hi)).2.1
  obtain ⟨parsed, hmap, hparse⟩ := parseEditLines_rows (intervals.map editRow) intervals
    hstable ((trailerLines filterArgs now).map dropCR ++ []) []
  refine ⟨parsed, ?_, hmap⟩
  unfold parseEditFile
  rw [hscan, parseEditLines_skip _ hh2, hparse, parseEditLines_skip _ ht2]
  rfl

theorem sampleTimed_stable : EditStable sampleTimed where
  beginUTC := by decide
  endUTC := by decide
  idClass := by decide
  idTrim := by decide
  tokens := ⟨["meeting", "proj:gott"], by decide, by decide, by decide⟩
  yearLo := by decide
  yearHi := by decide
  times := Or.inl (by decide)

theorem sampleDay_stable : EditStable sampleDay where
  beginUTC := by decide
  endUTC := by decide
  idClass := by decide
  idTrim := by decide
  tokens := ⟨["review", "ref:r-7"], by decide, by decide, by decide⟩
  yearLo := by decide
  yearHi := by decide
  times := Or.inr (by decide)

theorem editFile_roundtrip_witness :
    ∃ parsed,
      parseEditFile (writeEditFile [sampleTimed, sampleDay] [":today"] (Date 2024 1 3 12 0 0))
        = .ok parsed
      ∧ parsed.map content = [sampleTimed, sampleDay].map content :=
  editFile_roundtrip [sampleTimed, sampleDay] [":today"] (Date 2024 1 3 12 0 0)
    (by
      intro i hi
      rcases List.mem_cons.mp hi with rfl | hi
      · exact sampleTimed_stable
      · rcases List.mem_cons.mp hi with rfl | hi
        · exact sampleDay_stable
        · exact absurd hi (List.not_mem_nil _))
    (by decide) (by decide)

/-! ## `parseEditFile`: which lines are parsed -/

theorem hasPrefix_hash (t : String) : HasPrefix t "#" = startsWithHash t := by
  unfold HasPrefix startsWithHash
  cases h : t.data with
  | nil => rfl
  | cons c l =>
    by_cases hc : c = '#'
    · subst hc; simp [List.isPrefixOf]
    · have : ¬ ('#' = c) := fun h => hc h.symm
      simp [List.isPrefixOf, hc, this]

theorem trim_empty_iff (t : String) :
    (Trim t " ").data.length = 0 ↔ onlySpaces t = true := by
  rw [trim_data, List.length_eq_zero, List.rdropWhile_eq_nil_iff]
  unfold onlySpaces
  rw [List.all_eq_true]
  constructor
  · intro h
    have hnil : t.data.dropWhile (fun c => decide (c = ' ')) = [] := by
      cases hd : t.data.dropWhile (fun c => decide (c = ' ')) with
      | nil => rfl
      | cons a l =>
        have hhead := List.head?_dropWhile_not (fun c => decide (c = ' ')) t.data
        rw [hd] at hhead h
        have ha := h a (List.mem_cons_self _ _)
        simp only [List.head?_cons] at hhead
        rw [ha] at hhead
        exact absurd hhead (by decide)
    exact List.dropWhile_eq_nil_iff.mp hnil
  · intro h
    rw [List.dropWhile_eq_nil_iff.mpr h]
    intro x hx
    exact absurd hx (List.not_mem_nil _)

/-- The loop of `parseEditFile` passes over the lines that start with `#` and the lines of
spaces, and parses every other line. -/
theorem parseEditLines_eq (ls : List String) :
    ∀ acc : List Interval,
      parseEditLines ls acc =
        match parseDataLines (ls.filter isDataLine) with
        | .error e => .error e
        | .ok is => .ok (acc ++ is) := by
  induction ls with
  | nil => intro acc; simp [parseEditLines, parseDataLines]
  | cons t ls ih =>
    intro acc
    rw [parseEditLines, hasPrefix_hash]
    by_cases h1 : startsWithHash t = true
    · have hd : isDataLine t = false := by simp [isDataLine, h1]
      simp only [h1, if_true, List.filter_cons, hd, Bool.false_eq_true, if_false]
      exact ih acc
    · rw [Bool.not_eq_true] at h1
      by_cases h2 : onlySpaces t = true
      · have hd : isDataLine t = false := by simp [isDataLine, h2]
        have h2' := (trim_empty_iff t).mpr h2
        simp only [h1, Bool.false_eq_true, if_false, h2', if_true, List.filter_cons, hd]
        exact ih acc
      · have hd : isDataLine t = true := by
          rw [Bool.not_eq_true] at h2
          simp [isDataLine, h1, h2]
        have h2' : ¬ ((Trim t " ").data.length = 0) := fun h => h2 ((trim_empty_iff t).mp h)
        simp only [h1, Bool.false_eq_true, if_false, h2', List.filter_cons, hd, if_true]
        rw [parseDataLines]
        cases hp : parseEditLine t with
        | error e => rfl
        | ok i =>
          simp only
          rw [ih (acc ++ [i])]
          cases parseDataLines (ls.filter isDataLine) with
          | error e => rfl
          | ok is => simp

theorem parseEditFile_eq (text : String) :
    parseEditFile text = parseDataLines ((scanLines text).filter isDataLine) := by
  unfold parseEditFile
  rw [parseEditLines_eq]
  cases parseDataLines ((scanLines text).filter isDataLine) with
  | error e => rfl
  | ok is => simp

/-! ## `parseEditLine`: the bracket groups and the DATE field -/

theorem getnum_fixed_some (s : List Char) (n : Nat) (rest : List Char)
    (h : getnum s true = some (n, rest)) :
    ∃ c0 c1, s = c0 :: c1 :: rest ∧ isDigit c0 = true ∧ isDigit c1 = true
      ∧ n = digitVal c0 * 10 + digitVal c1 := by
  match s, h with
  | [], h => simp [getnum] at h
  | [c0], h =>
    by_cases h0 : isDigit c0 = true <;> simp [getnum, h0] at h
  | c0 :: c1 :: r, h =>
    by_cases h0 : isDigit c0 = true
    · by_cases h1 : isDigit c1 = true
      · simp [getnum, h0, h1] at h
        exact ⟨c0, c1, by rw [h.2], h0, h1, h.1.symm⟩
      · simp [getnum, h0, h1] at h
    · simp [getnum, h0] at h

/-- What `time.Parse` accepts for the layout `2006-01-02` is a text of the form
`YYYY-MM-DD`. -/
theorem parseDateFormat_isDateText (value : String) (tdate : Int)
    (h : parseDateFormat value = some tdate) : isDateText value = true := by
  unfold parseDateFormat at h
  unfold isDateText
  generalize value.data = data at h
  rcases data with _ | ⟨y0, _ | ⟨y1, _ | ⟨y2, _ | ⟨y3, _ | ⟨sep1, rest⟩⟩⟩⟩⟩
  · simp at h
  · simp at h
  · simp at h
  · simp at h
  · simp at h
  simp only at h
  by_cases hy : (isDigit y0 && isDigit y1 && isDigit y2 && isDigit y3) = true
  swap
  · simp [hy] at h
  by_cases hs1 : sep1 = '-'
  swap
  · simp [hy, hs1] at h
  simp only [hy, Bool.not_true, Bool.false_eq_true, if_false, hs1, ne_eq, not_true_eq_false]
    at h
  cases hg : getnum rest true with
  | none => simp [hg] at h
  | some p =>
    obtain ⟨month, rest1⟩ := p
    obtain ⟨m0, m1, hrest, hm0, hm1, hmonth⟩ := getnum_fixed_some rest month rest1 hg
    simp only [hg] at h
    by_cases hmr : month = 0 ∨ 12 < month
    · simp [hmr] at h
    simp only [hmr, if_false] at h
    rcases rest1 with _ | ⟨sep2, rest2⟩
    · simp at h
    simp only at h
    by_cases hs2 : sep2 = '-'
    swap
    · simp [hs2] at h
    simp only [hs2, ne_eq, not_true_eq_false, if_false] at h
    cases hg2 : getnum rest2 true with
    | none => simp [hg2] at h
    | some q =>
      obtain ⟨day, rest3⟩ := q
      obtain ⟨d0, d1, hrest2, hd0, hd1, hday⟩ := getnum_fixed_some rest2 day rest3 hg2
      simp only [hg2] at h
      by_cases hr3 : rest3 = []
      swap
      · simp [hr3] at h
      simp only [hr3, not_true_eq_false, if_false] at h
      split at h
      · exact absurd h (by simp)
      · rename_i hdr
        subst hrest hrest2 hr3 hs1 hs2 hmonth hday
        simp only [Bool.and_eq_true] at hy
        have e1 : 1 ≤ digitVal m0 * 10 + digitVal m1 := by omega
        have e2 : digitVal m0 * 10 + digitVal m1 ≤ 12 := by omega
        have e3 : 1 ≤ digitVal d0 * 10 + digitVal d1 := by omega
        have e4 : digitVal d0 * 10 + digitVal d1 ≤ daysIn (digitVal m0 * 10 + digitVal m1)
            ((((digitVal y0 * 10 + digitVal y1) * 10 + digitVal y2) * 10 + digitVal y3 : Nat)
              : Int) := by
          omega
        simp only [hy.1.1.1, hy.1.1.2, hy.1.2, hy.2, hm0, hm1, hd0, hd1, e1, e2, e3, e4,
          decide_True, Bool.and_self]

/-- Every match of the pattern starts with `[` and ends with `]`, so `stripBraces` never
slices out of range. -/
theorem findAll_match_shape (cs : List Char) :
    ∀ m ∈ FindAllString cs, ∃ b : List Char, m = String.mk ('[' :: b ++ [']']) := by
  induction cs with
  | nil => intro m hm; simp [FindAllString] at hm
  | cons c cs ih =>
    intro m hm
    rw [FindAllString] at hm
    by_cases hc : c = '['
    · simp only [hc, if_true] at hm
      cases hb : matchBody cs with
      | none => rw [hb] at hm; exact ih m hm
      | some b =>
        rw [hb] at hm
        rcases List.mem_cons.mp hm with h | h
        · exact ⟨b, h⟩
        · exact ih m h
    · simp only [hc, if_false] at hm
      exact ih m hm

theorem findAll_match_length (cs : List Char) (m : String) (hm : m ∈ FindAllString cs) :
    2 ≤ m.data.length := by
  obtain ⟨b, rfl⟩ := findAll_match_shape cs m hm
  simp

/-- The only way `parseEditLine` ends in the index panic is `unpackSlice` with more than
six bracket groups. -/
theorem parseEditLine_panics_iff (t : String) :
    parseEditLine t = .error .indexOutOfRange ↔ 6 < (editFields t).length := by
  unfold parseEditLine unpackSlice
  by_cases h : 6 < (editFields t).length
  · simp [h]
  · simp only [h, if_false, iff_false]
    intro hp
    split at hp
    · exact absurd hp (by simp)
    · split at hp
      · exact absurd hp (by simp)
      · split at hp
        · exact absurd hp (by simp)
        · split at hp
          · exact absurd hp (by simp)
          · split at hp
            · exact absurd hp (by simp)
            · split at hp
              · exact absurd hp (by simp)
              · exact absurd hp (by simp)

theorem getD_append_replicate (s : List String) (n k : Nat) :
    (s ++ List.replicate n "").getD k "" = s.getD k "" := by
  induction s generalizing k with
  | nil =>
    simp only [List.nil_append, List.getD_nil]
    rw [List.getD_eq_getElem?_getD]
    by_cases hk : k < n
    · simp [List.getElem?_replicate, hk]
    · simp [List.getElem?_replicate, hk]
  | cons a s ih =>
    cases k with
    | zero => rfl
    | succ k => simpa using ih k

/-- With at most six bracket groups, an empty or missing DATE and a DATE that is not a
`YYYY-MM-DD` text both end `parseEditLine` with an error. -/
theorem parseEditLine_date_checked (t : String) (hlen : (editFields t).length ≤ 6) :
    ((editFields t).getD 1 "" = "" → parseEditLine t = .error .dateEmpty) ∧
    ((editFields t).getD 1 "" ≠ "" → isDateText ((editFields t).getD 1 "") = false →
      parseEditLine t = .error .dateParse) := by
  have hu : unpackSlice (editFields t)
      = some (editFields t ++ List.replicate (6 - (editFields t).length) "") := by
    unfold unpackSlice
    simp [Nat.not_lt.mpr hlen]
  constructor
  · intro hd
    unfold parseEditLine
    rw [hu]
    simp only [getD_append_replicate, hd, if_true]
  · intro hd hv
    have hnone : parseDateFormat ((editFields t).getD 1 "") = none := by
      cases hp : parseDateFormat ((editFields t).getD 1 "") with
      | none => rfl
      | some d =>
        rw [parseDateFormat_isDateText _ d hp] at hv
        exact absurd hv (by simp)
    unfold parseEditLine
    rw [hu]
    simp only [getD_append_replicate, hd, if_false, hnone]

/-! ## `parseEditFile`: all lines or none -/

theorem parseDataLines_ok (ls : List String)
    (h : ∀ t ∈ ls, ∃ i, parseEditLine t = .ok i) :
    ∃ is, parseDataLines ls = .ok is
      ∧ List.Forall₂ (fun t i => parseEditLine t = .ok i) ls is := by
  induction ls with
  | nil => exact ⟨[], rfl, List.Forall₂.nil⟩
  | cons t ls ih =>
    obtain ⟨i, hi⟩ := h t (List.mem_cons_self _ _)
    obtain ⟨is, his, hall⟩ := ih (fun x hx => h x (List.mem_cons_of_mem _ hx))
    refine ⟨i :: is, ?_, List.Forall₂.cons hi hall⟩
    rw [parseDataLines]
    simp only [hi, his]

theorem parseDataLines_error (ls : List String)
    (h : ∃ t ∈ ls, ∃ e, parseEditLine t = .error e) :
    ∃ e, parseDataLines ls = .error e := by
  induction ls with
  | nil =>
    obtain ⟨t, ht, _⟩ := h
    exact absurd ht (List.not_mem_nil _)
  | cons t ls ih =>
    rw [parseDataLines]
    cases hp : parseEditLine t with
    | error e => exact ⟨e, rfl⟩
    | ok i =>
      obtain ⟨x, hx, e, he⟩ := h
      rcases List.mem_cons.mp hx with rfl | hx
      · rw [hp] at he; exact absurd he (by simp)
      · obtain ⟨e2, he2⟩ := ih ⟨x, hx, e, he⟩
        exact ⟨e2, by simp only [he2]⟩

/-- The two outcomes of `parseEditFile` in the model: if every line that is parsed gives an
interval, the intervals of these lines in order; if one does not, no interval at all.  The
second outcome includes the index panic of a line with more than six bracket groups. -/
theorem parseEditFile_all_or_nothing (text : String) :
    ((∀ t ∈ (scanLines text).filter isDataLine, ∃ i, parseEditLine t = .ok i) →
      ∃ is, parseEditFile text = .ok is ∧
        List.Forall₂ (fun t i => parseEditLine t = .ok i)
          ((scanLines text).filter isDataLine) is) ∧
    ((∃ t ∈ (scanLines text).filter isDataLine, ∃ e, parseEditLine t = .error e) →
      ∃ e, parseEditFile text = .error e) := by
  rw [parseEditFile_eq]
  exact ⟨parseDataLines_ok _, parseDataLines_error _⟩

/-- The error of `parseEditFile` is the outcome of the first parsed line that gives no
interval; lines behind it are not looked at. -/
theorem parseDataLines_first_error (good rest : List String) (t : String) (e : EditError)
    (hgood : ∀ x ∈ good, ∃ i, parseEditLine x = .ok i) (ht : parseEditLine t = .error e) :
    parseDataLines (good ++ t :: rest) = .error e := by
  induction good with
  | nil => rw [List.nil_append, parseDataLines]; simp only [ht]
  | cons x good ih =>
    obtain ⟨i, hi⟩ := hgood x (List.mem_cons_self _ _)
    rw [List.cons_append, parseDataLines]
    simp only [hi, ih (fun y hy => hgood y (List.mem_cons_of_mem _ hy))]

/-! ## The claims on `parseEditFile` and `parseEditLine` -/

set_option maxRecDepth 100000 in
/-- C11: in `sevenGroupDocument` the third data line has an empty DATE, on which
`parseEditLine` returns an error; `parseEditFile` does not get to return an error with an
empty list, because the second data line, with seven bracket groups, ends `unpackSlice`
with an index out of range first. -/
theorem parseEditFile_panics_before_error :
    scanLines sevenGroupDocument
        = ["[a][2024-01-02][09:00][10:00][][x]", "[b][2024-01-02][09:00][10:00][][x][y]",
            "[c][][][][][]"]
      ∧ parseEditLine "[c][][][][][]" = .error .dateEmpty
      ∧ parseEditFile sevenGroupDocument = .error .indexOutOfRange := by
  decide

set_option maxRecDepth 100000 in
/-- C12: a line with seven bracket groups gives `unpackSlice` seven strings for its six
variables, and `parseEditLine` ends with an index out of range instead of an interval or an
error value. -/
theorem parseEditLine_seven_groups_panics :
    editFields "[a][2024-01-02][09:00][10:00][][x][y]"
        = ["a", "2024-01-02", "09:00", "10:00", "", "x", "y"]
      ∧ unpackSlice (editFields "[a][2024-01-02][09:00][10:00][][x][y]") = none
      ∧ parseEditLine "[a][2024-01-02][09:00][10:00][][x][y]" = .error .indexOutOfRange := by
  decide

set_option maxRecDepth 100000 in
/-- C13: on a line of seven empty bracket groups the DATE field is empty, and
`parseEditLine` ends with an index out of range before it looks at the DATE, so no error is
returned. -/
theorem parseEditLine_empty_date_panics :
    (editFields "[][][][][][][]").getD 1 "" = ""
      ∧ parseEditLine "[][][][][][][]" = .error .indexOutOfRange := by
  decide

set_option maxRecDepth 100000 in
/-- C14, as the claim states it, fails: a line where a space precedes the `#`, and a line
of one tab, are not skipped; each is parsed as a data line and makes `parseEditFile`
fail. -/
theorem parseEditFile_parses_indented_comment :
    firstNonSpaceIsHash " # note" = true
      ∧ parseEditFile " # note\n" = .error .dateEmpty
      ∧ parseEditFile "\t\n" = .error .dateEmpty := by
  decide

/-- C14, amended: `parseEditFile` reads the lines of the document in order up to, and
without, the first line of 65536 bytes or more, where the scanner stops and no error is
reported; of the lines read (each without a trailing carriage return) it skips exactly
those that start with `#` and those that are empty or made of spaces only; every other
line read is parsed by `parseEditLine`, in order, and the first one that gives no interval
ends the parse. -/
theorem parseEditFile_skips_exactly (text : String) :
    parseEditFile text
      = parseDataLines
          ((((textLines text).takeWhile
                (fun l => decide (byteLength l < 65536))).map dropCR).filter
            (fun t => !(startsWithHash t || onlySpaces t))) := by
  rw [parseEditFile_eq]
  rfl

/-! ## `lexInterval`: the annotation and the fields the loop leaves alone -/

theorem step_annotation (iv : Interval) (part : String) :
    Interval.Annotation (lexIntervalStep iv part)
      = if isAnnotationToken part then Trim (Join [ Interval.Annotation iv, part] " ") " "
        else Interval.Annotation iv := by
  rw [lexIntervalStep_eq]
  unfold isAnnotationToken
  by_cases h1 : HasPrefix part "+" = true
  · simp [h1]
  by_cases h2 : HasPrefix part "proj:" = true
  · simp [h1, h2]
  by_cases h3 : HasPrefix part "project:" = true
  · simp [h1, h2, h3]
  by_cases h4 : HasPrefix part "ref:" = true
  · simp [h1, h2, h3, h4]
  · simp [h1, h2, h3, h4]

theorem foldl_step_annotation (args : List String) (iv : Interval) :
    Interval.Annotation (args.foldl lexIntervalStep iv)
      = joinTrimmed ( Interval.Annotation iv) (annotationTokens args) := by
  induction args generalizing iv with
  | nil => rfl
  | cons p args ih =>
    rw [List.foldl_cons, ih, step_annotation]
    unfold annotationTokens joinTrimmed
    by_cases h : isAnnotationToken p = true
    · simp [h]
    · simp [h]

theorem step_untouched (iv : Interval) (part : String) :
    (lexIntervalStep iv part).ID = iv.ID ∧ (lexIntervalStep iv part).Begin = iv.Begin
      ∧ (lexIntervalStep iv part).End = iv.End
      ∧ (lexIntervalStep iv part).Duration = iv.Duration
      ∧ (lexIntervalStep iv part).Raw = iv.Raw := by
  rw [lexIntervalStep_eq]
  by_cases h1 : HasPrefix part "+" = true
  · simp [h1]
  by_cases h2 : HasPrefix part "proj:" = true
  · simp [h1, h2]
  by_cases h3 : HasPrefix part "project:" = true
  · simp [h1, h2, h3]
  by_cases h4 : HasPrefix part "ref:" = true
  · simp [h1, h2, h3, h4]
  · simp [h1, h2, h3, h4]

theorem foldl_step_untouched (args : List String) (iv : Interval) :
    (args.foldl lexIntervalStep iv).ID = iv.ID
      ∧ (args.foldl lexIntervalStep iv).Begin = iv.Begin
      ∧ (args.foldl lexIntervalStep iv).End = iv.End
      ∧ (args.foldl lexIntervalStep iv).Duration = iv.Duration
      ∧ (args.foldl lexIntervalStep iv).Raw = iv.Raw := by
  induction args generalizing iv with
  | nil => exact ⟨rfl, rfl, rfl, rfl, rfl⟩
  | cons p args ih =>
    rw [List.foldl_cons]
    obtain ⟨a1, a2, a3, a4, a5⟩ := ih (lexIntervalStep iv p)
    obtain ⟨b1, b2, b3, b4, b5⟩ := step_untouched iv p
    exact ⟨a1.trans b1, a2.trans b2, a3.trans b3, a4.trans b4, a5.trans b5⟩

/-- Every field of the interval `lexInterval` leaves behind. -/
theorem lexInterval_fields (args : List String) (iv : Interval) :
    lexInterval args iv =
      { ID := iv.ID, Begin := iv.Begin, End := iv.End, Duration := iv.Duration,
        Project := lastOf projectOf args iv.Project,
        Tags := iv.Tags ++ plusTokens args,
        Ref := lastOf refOf args iv.Ref,
        Annotation := joinTrimmed "" (annotationTokens args),
        Raw := Join args " ",
        BeginOffset := iv.BeginOffset, EndOffset := iv.EndOffset } := by
  unfold lexInterval
  obtain ⟨a1, a2, a3, a4, a5⟩ :=
    foldl_step_untouched args { iv with Raw := Join args " ", Annotation := "" }
  obtain ⟨b1, b2, b3⟩ :=
    foldl_step_fields args { iv with Raw := Join args " ", Annotation := "" }
  have c := foldl_step_annotation args { iv with Raw := Join args " ", Annotation := "" }
  obtain ⟨o1, o2⟩ :=
    foldl_step_offsets args { iv with Raw := Join args " ", Annotation := "" }
  generalize args.foldl lexIntervalStep { iv with Raw := Join args " ", Annotation := "" }
    = r at a1 a2 a3 a4 a5 b1 b2 b3 c o1 o2
  cases r
  simp only at a1 a2 a3 a4 a5 b1 b2 b3 c o1 o2
  simp only [a1, a2, a3, a4, a5, b1, b2, b3, c, o1, o2]

theorem lastOf_idem (f : String → Option String) (args : List String) (d : String) :
    lastOf f args (lastOf f args d) = lastOf f args d := by
  unfold lastOf
  cases (args.filterMap f).getLast? with
  | none => rfl
  | some x => rfl

theorem trimChars_id (l : List Char) (h1 : l.head? ≠ some ' ') (h2 : l.getLast? ≠ some ' ') :
    (l.dropWhile (fun c => decide (c = ' '))).rdropWhile (fun c => decide (c = ' ')) = l := by
  have hd : l.dropWhile (fun c => decide (c = ' ')) = l := by
    cases l with
    | nil => rfl
    | cons c l =>
      have hc : c ≠ ' ' := fun h => h1 (by rw [h]; rfl)
      simp [List.dropWhile, hc]
  rw [hd, List.rdropWhile_eq_self_iff]
  intro hl
  have : l.getLast? = some (l.getLast hl) := List.getLast?_eq_getLast l hl
  have hc : l.getLast hl ≠ ' ' := fun h => h2 (by rw [this, h])
  simp [hc]

theorem join_pair_data (a p : String) : (Join [a, p] " ").data = a.data ++ ' ' :: p.data := by
  unfold Join
  simp [List.intercalate]

/-- Joining a token on to a non-empty annotation that has no space at either end: nothing
is trimmed if the token is not empty and does not end in a space. -/
theorem trim_join_pair (a p : String) (ha : a.data ≠ []) (ha1 : a.data.head? ≠ some ' ')
    (hp : p.data ≠ []) (hp2 : p.data.getLast? ≠ some ' ') :
    Trim (Join [a, p] " ") " " = ⟨a.data ++ ' ' :: p.data⟩ := by
  apply String.ext
  rw [trim_data, join_pair_data]
  apply trimChars_id
  · cases h : a.data with
    | nil => exact absurd h ha
    | cons c l =>
      rw [h] at ha1
      simpa using ha1
  · obtain ⟨q, x, hq⟩ : ∃ q x, p.data = q ++ [x] := by
      rcases List.eq_nil_or_concat p.data with h | ⟨q, x, h⟩
      · exact absurd h hp
      · exact ⟨q, x, by simpa using h⟩
    rw [hq] at hp2 ⊢
    have hx : x ≠ ' ' := by simpa using hp2
    have e : a.data ++ ' ' :: (q ++ [x]) = (a.data ++ ' ' :: q) ++ [x] := by simp
    rw [e, List.getLast?_concat]
    simpa using hx

/-- The loop on annotation tokens that are not empty and do not end in a space, started
with a non-empty annotation with no space at either end: the tokens are joined on as they
are. -/
theorem joinTrimmed_append (toks : List String)
    (h : ∀ t ∈ toks, t.data ≠ [] ∧ t.data.getLast? ≠ some ' ') :
    ∀ a : String, a.data ≠ [] → a.data.head? ≠ some ' ' →
      (joinTrimmed a toks).data = [' '].intercalate (a.data :: toks.map String.data) := by
  induction toks with
  | nil => intro a _ _; simp [joinTrimmed, List.intercalate]
  | cons t toks ih =>
    intro a ha ha1
    obtain ⟨ht, ht2⟩ := h t (List.mem_cons_self _ _)
    have hstep := trim_join_pair a t ha ha1 ht ht2
    have hfold : joinTrimmed a (t :: toks) = joinTrimmed (Trim (Join [a, t] " ") " ") toks := rfl
    rw [hfold, hstep, ih (fun x hx => h x (List.mem_cons_of_mem _ hx))]
    · cases toks <;> simp [List.intercalate, List.intersperse]
    · simp
    · cases hd : a.data with
      | nil => exact absurd hd ha
      | cons c l =>
        rw [hd] at ha1
        simpa using ha1

/-- Started with the empty annotation, the loop joins the annotation tokens with single
spaces, if none of them is empty or ends in a space and the first does not start with
one. -/
theorem joinTrimmed_join (toks : List String)
    (h : ∀ t ∈ toks, t.data ≠ [] ∧ t.data.getLast? ≠ some ' ')
    (hfirst : ∀ t, toks.head? = some t → t.data.head? ≠ some ' ') :
    joinTrimmed "" toks = Join toks " " := by
  cases toks with
  | nil => rfl
  | cons t toks =>
    obtain ⟨ht, ht2⟩ := h t (List.mem_cons_self _ _)
    have ht1 := hfirst t rfl
    have hstep : Trim (Join ["", t] " ") " " = t := by
      apply String.ext
      rw [trim_data, join_pair_data]
      have e : ("" : String).data ++ ' ' :: t.data = ' ' :: t.data := rfl
      rw [e]
      have hd : (' ' :: t.data).dropWhile (fun c => decide (c = ' '))
          = t.data.dropWhile (fun c => decide (c = ' ')) := by
        simp [List.dropWhile]
      rw [hd]
      exact trimChars_id t.data ht1 ht2
    have hfold : joinTrimmed "" (t :: toks) = joinTrimmed (Trim (Join ["", t] " ") " ") toks :=
      rfl
    apply String.ext
    rw [hfold, hstep, joinTrimmed_append toks (fun x hx => h x (List.mem_cons_of_mem _ hx))
      t ht ht1]
    rfl

theorem split_join (ts : List String) (hts : ∀ t ∈ ts, ' ' ∉ t.data) (hne : ts ≠ []) :
    Split (Join ts " ") ' ' = ts := by
  unfold Split Join
  have h1 : ∀ l ∈ ts.map String.data, ' ' ∉ l := by
    intro l hl
    obtain ⟨t, ht, rfl⟩ := List.mem_map.mp hl
    exact hts t ht
  have h2 : ts.map String.data ≠ [] := by simpa using hne
  have h3 : (" " : String).data = [' '] := rfl
  have h4 : (String.mk ∘ String.data) = id := by
    funext s
    rfl
  rw [h3, List.splitOn_intercalate _ ' ' h1 h2, List.map_map, h4, List.map_id]

/-- Lexing the tokens split from the `Raw` of an earlier lexing of `ts` is lexing `ts`,
when no token of `ts` holds a space. -/
theorem lexInterval_split_raw (ts : List String) (hts : ∀ t ∈ ts, ' ' ∉ t.data)
    (i j : Interval) :
    lexInterval (Split (lexInterval ts i).Raw ' ') j = lexInterval ts j := by
  have hraw : (lexInterval ts i).Raw = Join ts " " := by rw [lexInterval_fields]
  rw [hraw]
  by_cases hne : ts = []
  · subst hne
    have hs : Split (Join [] " ") ' ' = [""] := by decide
    rw [hs]
    unfold lexInterval
    rw [List.foldl_cons, List.foldl_nil, List.foldl_nil]
    have hj : Join [""] " " = Join [] " " := by decide
    rw [hj]
    have h0 : Trim "" " " = "" := by decide
    exact step_empty _ h0
  · rw [split_join ts hts hne]

/-! ## The claims on `lexInterval` -/

/-- C15, as the claim states it, fails: lexing `+a` twice leaves the tag `a` twice, lexing
it once leaves it once. -/
theorem lexInterval_twice_doubles_tags :
    (lexInterval ["+a"] Interval.zero).Tags = ["a"]
      ∧ (lexInterval ["+a"] (lexInterval ["+a"] Interval.zero)).Tags = ["a", "a"] := by
  decide

/-- C15, amended: applying `lexInterval ts` a second time leaves `Raw`, `Project`, `Ref`
and `Annotation` (and the fields the lexer does not touch) as they are and appends the tags
of `ts` once more, so the interval is the same exactly when `ts` has no `+` token; and the
`Annotation` after `lexInterval ts` is the same whatever interval it started from. -/
theorem lexInterval_twice (ts : List String) (i j : Interval) :
    (lexInterval ts (lexInterval ts i)).Raw = (lexInterval ts i).Raw
      ∧ (lexInterval ts (lexInterval ts i)).Project = (lexInterval ts i).Project
      ∧ (lexInterval ts (lexInterval ts i)).Ref = (lexInterval ts i).Ref
      ∧ Interval.Annotation (lexInterval ts (lexInterval ts i))
          = Interval.Annotation (lexInterval ts i)
      ∧ (lexInterval ts (lexInterval ts i)).Tags = (lexInterval ts i).Tags ++ plusTokens ts
      ∧ (lexInterval ts (lexInterval ts i) = lexInterval ts i ↔ plusTokens ts = [])
      ∧ Interval.Annotation (lexInterval ts i) = Interval.Annotation (lexInterval ts j) := by
  rw [lexInterval_fields ts (lexInterval ts i), lexInterval_fields ts i,
    lexInterval_fields ts j]
  simp only [lastOf_idem, true_and, Interval.mk.injEq, and_true]
  exact List.append_right_eq_self

/-- C16, as the claim states it, fails: with an empty token between `a` and `b` the
annotation is `a b`, while the annotation tokens joined with single spaces are `a  b`. -/
theorem lexInterval_annotation_drops_empty :
    annotationTokens ["a", "", "b"] = ["a", "", "b"]
      ∧ Join (annotationTokens ["a", "", "b"]) " " = "a  b"
      ∧ Interval.Annotation (lexInterval ["a", "", "b"] Interval.zero) = "a b" := by
  decide

/-- C16, amended: `Raw` after `lexInterval` is all the tokens joined with single spaces;
and if no annotation token is empty or ends in a space and the first one does not start
with a space, the `Annotation` is the annotation tokens in their order joined with single
spaces. -/
theorem lexInterval_annotation_joined (ts : List String) (i : Interval) :
    (lexInterval ts i).Raw = Join ts " "
      ∧ ((∀ t ∈ annotationTokens ts, t ≠ "" ∧ t.data.getLast? ≠ some ' ') →
          (∀ t ∈ (annotationTokens ts).head?, t.data.head? ≠ some ' ') →
          Interval.Annotation (lexInterval ts i) = Join (annotationTokens ts) " ") := by
  rw [lexInterval_fields]
  refine ⟨rfl, ?_⟩
  intro h hfirst
  apply joinTrimmed_join
  · intro t ht
    obtain ⟨h1, h2⟩ := h t ht
    exact ⟨fun hd => h1 (String.ext hd), h2⟩
  · intro t ht
    exact hfirst t ht

theorem lexInterval_annotation_joined_witness :
    (lexInterval ["+work", "fix", " the", "proj:x", "bug"] Interval.zero).Raw
        = Join ["+work", "fix", " the", "proj:x", "bug"] " "
      ∧ Interval.Annotation
          (lexInterval ["+work", "fix", " the", "proj:x", "bug"] Interval.zero)
        = Join (annotationTokens ["+work", "fix", " the", "proj:x", "bug"]) " " :=
  ⟨(lexInterval_annotation_joined ["+work", "fix", " the", "proj:x", "bug"] Interval.zero).1,
    (lexInterval_annotation_joined ["+work", "fix", " the", "proj:x", "bug"] Interval.zero).2
      (by decide) (by decide)⟩

/-- C18: for a token list `ts` in which no token holds a space, lexing the tokens split at
the spaces of the `Raw` left by lexing `ts` gives the interval that lexing `ts` gives, from
any starting interval; so an interval constructed from `strings.Split(Raw, " ")` is the one
constructed from `ts`, with the same `Raw`, `Tags`, `Project`, `Ref` and `Annotation`. -/
theorem replay_through_raw (ts : List String) (hts : ∀ t ∈ ts, ' ' ∉ t.data) :
    (∀ i j : Interval, lexInterval (Split (lexInterval ts i).Raw ' ') j = lexInterval ts j)
      ∧ NewInterval (Split (NewInterval ts).Raw ' ') = NewInterval ts :=
  ⟨fun i j => lexInterval_split_raw ts hts i j, lexInterval_split_raw ts hts _ _⟩

theorem replay_through_raw_witness :
    (∀ i j : Interval,
        lexInterval (Split (lexInterval ["+work", "proj:gott", "fix", "bug"] i).Raw ' ') j
          = lexInterval ["+work", "proj:gott", "fix", "bug"] j)
      ∧ NewInterval (Split (NewInterval ["+work", "proj:gott", "fix", "bug"]).Raw ' ')
          = NewInterval ["+work", "proj:gott", "fix", "bug"] :=
  replay_through_raw ["+work", "proj:gott", "fix", "bug"] (by decide)

/-! ## `fmtDuration` -/

theorem wrap64_id (x : Int) (h1 : -9223372036854775808 ≤ x) (h2 : x ≤ 9223372036854775807) :
    wrap64 x = x := by
  unfold wrap64
  omega

/-- For a duration that is not negative, `Round(time.Minute)` is the nearest whole minute, a
half counted up; no step of it leaves the range of `int64`. -/
theorem round_minute (d : Int) (h0 : 0 ≤ d) (h1 : d ≤ maxDuration) :
    Round d Minute = roundedMinutes d * Minute := by
  unfold maxDuration at h1
  have hm : Minute = 60000000000 := by decide
  have hs : Second = 1000000000 := by decide
  unfold Round roundedMinutes
  rw [hm, hs]
  have hr : Int.tmod d 60000000000 = d % 60000000000 :=
    Int.tmod_eq_emod h0 (by decide)
  simp only [hr, show ¬ ((60000000000 : Int) ≤ 0) by decide, if_false,
    show ¬ (d < 0) by omega]
  by_cases hh : d % 60000000000 < 30000000000
  · have hl : lessThanHalf (d % 60000000000) 60000000000 = true := by
      unfold lessThanHalf
      simp only [decide_eq_true_eq]
      omega
    simp only [hl, if_true]
    unfold wrap64
    omega
  · have hl : lessThanHalf (d % 60000000000) 60000000000 = false := by
      unfold lessThanHalf
      simp only [decide_eq_false_iff_not]
      omega
    simp only [hl, Bool.false_eq_true, if_false]
    have e : wrap64 (wrap64 (d + 60000000000) - d % 60000000000)
        = (d + 30 * 1000000000) / 60000000000 * 60000000000 := by
      unfold wrap64
      omega
    rw [e]
    have : d < (d + 30 * 1000000000) / 60000000000 * 60000000000 := by omega
    simp only [this, if_true]

theorem sprintf02d_nonneg (x : Int) (h : 0 ≤ x) :
    sprintf02d x = zeroPad 2 (fmtInt x.toNat) := by
  unfold sprintf02d
  have e : x.natAbs = x.toNat := by omega
  simp only [show ¬ (x < 0) by omega, if_false, e]

theorem sprintf02d_two (x : Int) (h : 0 ≤ x) (h2 : x < 100) :
    sprintf02d x = [digitChar (x.toNat / 10), digitChar (x.toNat % 10)] := by
  have e := appendInt_two x.toNat (by omega)
  have hx : ((x.toNat : Nat) : Int) = x := by omega
  rw [hx] at e
  rw [← e, sprintf02d_nonneg x h]
  unfold appendInt zeroPad
  have e2 : x.natAbs = x.toNat := by omega
  simp only [show ¬ (x < 0) by omega, if_false, e2, List.nil_append]

/-- Hours and minutes of `fmtDuration` for a duration that is not negative: the quotient
and the remainder of the rounded minutes by 60. -/
theorem fmtDuration_nonneg (d : Int) (h0 : 0 ≤ d) (h1 : d ≤ maxDuration) :
    fmtDuration d
      = ⟨zeroPad 2 (fmtInt (roundedMinutes d / 60).toNat)
          ++ [':', digitChar ((roundedMinutes d % 60).toNat / 10),
                digitChar ((roundedMinutes d % 60).toNat % 10)]⟩ := by
  have hR := round_minute d h0 h1
  have hm : Minute = 60000000000 := by decide
  have hh : Hour = 3600000000000 := by decide
  have hs : Second = 1000000000 := by decide
  have hM0 : 0 ≤ roundedMinutes d := by
    unfold roundedMinutes
    rw [hm, hs]
    omega
  have hM1 : roundedMinutes d ≤ 153722867 := by
    unfold roundedMinutes maxDuration at *
    rw [hm, hs]
    omega
  unfold fmtDuration
  simp only [hR]
  rw [hm, hh]
  generalize roundedMinutes d = M at hM0 hM1
  have e1 : Int.tdiv (M * 60000000000) 3600000000000 = M / 60 := by
    rw [Int.tdiv_eq_ediv (by omega) (by decide)]
    omega
  rw [e1]
  have e2 : wrap64 (M * 60000000000 - wrap64 (M / 60 * 3600000000000))
      = (M % 60) * 60000000000 := by
    unfold wrap64
    omega
  rw [e2]
  have e3 : Int.tdiv (M % 60 * 60000000000) 60000000000 = M % 60 := by
    rw [Int.tdiv_eq_ediv (by omega) (by decide)]
    omega
  rw [e3, sprintf02d_nonneg (M / 60) (by omega),
    sprintf02d_two (M % 60) (by omega) (by omega)]
  simp

/-- The two tests of `output_test.go`: what a table with the one row of `DaySumLine`,
`WeekSumLine` for one hour prints. -/
theorem sumLines_printed :
    Print (gott.DaySumLine [] (1 * Hour))
        = "      day =  " ++ gott.fmtDuration (1 * Hour) ++ "      \n"
      ∧ Print (gott.WeekSumLine [] (1 * Hour))
        = "    wk =    " ++ gott.fmtDuration (1 * Hour) ++ "      \n" := by
  decide

/-- C17: for a positive duration `DaySumLine` adds one row of eight columns, `day =` in the
fourth and `fmtDuration(dur)` in the fifth, and `WeekSumLine` one with `wk =` in the third
and `fmtDuration(dur)` in the fifth, all other columns empty; for a duration that is not
positive neither adds a row.  The copies in `main.go` and `output.go` agree. -/
theorem sumLines_rows (t : List (List String)) (dur : Int) :
    ((0 < dur
        ∧ DaySumLine t dur = t ++ [["", "", "", "day =", fmtDuration dur, "", "", ""]]
        ∧ WeekSumLine t dur = t ++ [["", "", "wk =", "", fmtDuration dur, "", "", ""]])
      ∨ (dur ≤ 0 ∧ DaySumLine t dur = t ∧ WeekSumLine t dur = t))
    ∧ gott.DaySumLine t dur = DaySumLine t dur
    ∧ gott.WeekSumLine t dur = WeekSumLine t dur := by
  refine ⟨?_, rfl, rfl⟩
  unfold DaySumLine WeekSumLine AddLine
  by_cases h : 0 < dur
  · left
    simp only [h, if_true, and_self]
  · right
    simp only [h, if_false, and_self, and_true]
    omega

/-- C19: for a duration `d` that is not negative, `fmtDuration(d)` is the decimal form of
`M div 60` filled up with zeros to at least two digits, a colon, and the two digits of
`M mod 60`, where `M` is `d` in minutes rounded to the nearest whole minute, a half counted
up; the minutes are in `0..59` and `60 * hours + minutes = M`.  The copies of `fmtDuration`
in `main.go` and `output.go` are the same function. -/
theorem fmtDuration_hours_minutes (d : Int) (h0 : 0 ≤ d) (h1 : d ≤ maxDuration) :
    fmtDuration d
        = ⟨zeroPad 2 (fmtInt (roundedMinutes d / 60).toNat)
            ++ [':', digitChar ((roundedMinutes d % 60).toNat / 10),
                  digitChar ((roundedMinutes d % 60).toNat % 10)]⟩
      ∧ roundedMinutes d * Minute - 30 * Second ≤ d
      ∧ d < roundedMinutes d * Minute + 30 * Second
      ∧ 0 ≤ roundedMinutes d % 60 ∧ roundedMinutes d % 60 < 60
      ∧ 60 * (roundedMinutes d / 60) + roundedMinutes d % 60 = roundedMinutes d
      ∧ gott.fmtDuration = fmtDuration := by
  refine ⟨fmtDuration_nonneg d h0 h1, ?_, ?_, ?_, ?_, ?_, rfl⟩
  all_goals
    unfold roundedMinutes
    rw [show Minute = 60000000000 by decide, show Second = 1000000000 by decide]
    omega

theorem fmtDuration_hours_minutes_witness :
    fmtDuration 5430000000000
        = ⟨zeroPad 2 (fmtInt (roundedMinutes 5430000000000 / 60).toNat)
            ++ [':', digitChar ((roundedMinutes 5430000000000 % 60).toNat / 10),
                  digitChar ((roundedMinutes 5430000000000 % 60).toNat % 10)]⟩
      ∧ roundedMinutes 5430000000000 * Minute - 30 * Second ≤ 5430000000000
      ∧ 5430000000000 < roundedMinutes 5430000000000 * Minute + 30 * Second
      ∧ 0 ≤ roundedMinutes 5430000000000 % 60 ∧ roundedMinutes 5430000000000 % 60 < 60
      ∧ 60 * (roundedMinutes 5430000000000 / 60) + roundedMinutes 5430000000000 % 60
          = roundedMinutes 5430000000000
      ∧ gott.fmtDuration = fmtDuration :=
  fmtDuration_hours_minutes 5430000000000 (by decide) (by decide)

/-! ## The subtotals of `summaryCmd.Run` -/

/-- Both sums of `summaryCmd.Run` are never set back: after any number of intervals each of
them is the sum of the durations of all intervals so far. -/
theorem summary_sums_total (now : Int) (intervals : List Interval) :
    ∀ s : SummaryState,
      (intervals.foldl (summaryStep now) s).dayDurationSum
          = intervals.foldl (fun a i => wrap64 (a + GetDuration now i)) s.dayDurationSum
        ∧ (intervals.foldl (summaryStep now) s).weekDurationSum
          = intervals.foldl (fun a i => wrap64 (a + GetDuration now i)) s.weekDurationSum := by
  induction intervals with
  | nil => intro s; exact ⟨rfl, rfl⟩
  | cons i rest ih =>
    intro s
    rw [List.foldl_cons, List.foldl_cons, List.foldl_cons]
    exact ih (summaryStep now s i)

set_option maxRecDepth 100000 in
/-- C20: for `twoDays` (one hour on Tuesday, two hours on Wednesday of the same week) the
last `day =` row carries `03:00`, the sum of both days, where the last day has `02:00`: the
final `DaySumLine` is given a sum that was never set back at the change of the day. -/
theorem summaryRun_last_day_row_is_total :
    summaryRun 0 twoDays
        = [ ["CWEEK", "DAY", "BEGIN", "END", "DURATION", "PROJECT", "TAG", "ANNOTATION"],
            ["-----", "---", "-----", "---", "--------", "-------", "---", "----------"],
            ["1", "01-02", "09:00", "10:00", "01:00", "", "", ""],
            ["", "", "", "day =", "01:00", "", "", ""],
            ["", "01-03", "09:00", "11:00", "02:00", "", "", ""],
            ["", "", "", "day =", "03:00", "", "", ""],
            ["", "", "wk =", "", "03:00", "", "", ""] ]
      ∧ (dayRows (summaryRun 0 twoDays)).getLast?
          = some ["", "", "", "day =", "03:00", "", "", ""]
      ∧ (twoDays.map (fun i =>
            (formatDateFormatShort (wallClock i.Begin i.BeginOffset), GetDuration 0 i)))
          = [("01-02", 1 * Hour), ("01-03", 2 * Hour)]
      ∧ fmtDuration (2 * Hour) = "02:00" := by
  decide

end Gott
